import Mathlib

/-!
Scene-graph core of `src/gl/glnode.cpp`

A shallow embedding of the node list (`NodeList`), of the parent/child
bookkeeping of `Node`, of the memoised world and view transforms, of the
hidden-flag logic (`isHidden`, `LODNode::transform`, `VisibilityController`), of
the controller lookups, of `Node::update`, of the sequence handling of
`ControllerManager` and of the recursion of `drawHvkShape`, followed by the
properties proved about them.

Conventions of the embedding

* A `Node *` is an address (`NodePtr`, a natural number); `0` is the null pointer.
* The heap is explicit: `State.node` maps an address to the live `Node` object
  stored there (`none` once the object has been destroyed or was never
  allocated).  Any operation that dereferences a pointer that is null or not
  live has undefined behaviour in C++ and returns `none` here.
* Every `NodeList` object is named by a `ListRef`: either the `children` member
  of a node or a list owned from outside the hierarchy (the lists of the scene).
  `State.list` gives the current content of its `nodes` member.
* `Node::ref` is an `int`; it counts list memberships and is modelled as a
  mathematical integer.
* `Transform` and its `operator*` are declared outside `glnode.cpp`; the
  embedding is generic in the transform type `T` and only uses `*`.  Where the
  members of a transform matter it is a `Transform V M R` whose composition is
  still a parameter.
* Floating-point scalars are an abstract type: a linear order where values are
  compared, a type with `+` where they are added.
* A recursion through `parent` is bounded by a `fuel` argument; the theorems
  state that the call returns once the fuel covers the length of the parent chain.
-/

namespace NifSkope

/-- Address of a `Node` object; `0` is the null pointer. -/
abbrev NodePtr := Nat

/-- Name of a `NodeList` object: the `children` member of the node at `owner`,
or the `k`-th list that lives outside the node hierarchy. -/
inductive ListRef where
  | children (owner : NodePtr)
  | external (k : Nat)
  deriving DecidableEq, Repr

/-- The members of `Node` read or written by the embedded functions:
`ref`, `parent`, `nodeId` and `local` (spelled `local_`); the bit-field
`flags.node.hidden` (`hidden`) and the remaining bits of `flags.bits`
(`otherFlags`); the dynamic type of the object as far as `viewTrans()` is
concerned (`billboard` is true for a `BillboardNode`); the inherited member
`iBlock` (the number of the block the node is backed by, `none` for an invalid
index) and the content of `properties` (the addresses of the properties). -/
structure Node (T : Type) where
  ref : Int
  parent : NodePtr := 0
  nodeId : Int := 0
  local_ : T
  hidden : Bool := false
  otherFlags : Int := 0
  billboard : Bool := false
  iBlock : Option Int := none
  properties : List Nat := []

/-- Heap and scene: the live nodes, the content of every `NodeList`, and the
members `view`, `worldTrans`, `viewTrans` of the `Scene` all nodes point to. -/
structure State (T : Type) where
  node : NodePtr → Option (Node T)
  list : ListRef → List NodePtr
  view : T
  worldTrans : Int → Option T
  viewTrans : Int → Option T

/-- Dereference `n`: the object at `n`, or `none` for null and for an address
that holds no live node. -/
def State.deref {T : Type} (s : State T) (n : NodePtr) : Option (Node T) :=
  if n = 0 then none else s.node n

/-- Overwrite the object stored at `n`. -/
def State.setNode {T : Type} (s : State T) (n : NodePtr) (nd : Node T) : State T :=
  { s with node := Function.update s.node n (some nd) }

/-- Overwrite the content of the list `L`. -/
def State.setList {T : Type} (s : State T) (L : ListRef) (l : List NodePtr) : State T :=
  { s with list := Function.update s.list L l }

/-- Side effects of running the destructor of the node at an address on the
other node objects.  `Node` is declared in `glnode.h`, so its destructor is a
parameter of the embedding: given the address and the state it yields the node
table after the destructor body has run. -/
abbrev Dtor (T : Type) := NodePtr → State T → (NodePtr → Option (Node T))

/-- The statement `delete n;`: the destructor runs, then the object at `n` is
gone.  The lists owned by destroyed nodes cease to exist with them; what
`State.list` holds for such a list afterwards has no meaning. -/
def deleteNode {T : Type} (dtor : Dtor T) (n : NodePtr) (s : State T) : State T :=
  { s with node := Function.update (dtor n s) n none }

/-- Method `NodeList::add`:
`if ( n && !nodes.contains( n ) ) { ++n->ref; nodes.append( n ); }`. -/
def NodeList.add {T : Type} (L : ListRef) (n : NodePtr) (s : State T) : Option (State T) :=
  if n ≠ 0 ∧ n ∉ s.list L then
    match s.deref n with
    | none => none
    | some nd =>
      some ((s.setNode n { nd with ref := nd.ref + 1 }).setList L (s.list L ++ [n]))
  else
    some s

/-- Method `NodeList::del`:
`if ( nodes.contains( n ) ) { int cnt = nodes.removeAll( n );
   if ( n->ref <= cnt ) delete n; else n->ref -= cnt; }`. -/
def NodeList.del {T : Type} (dtor : Dtor T) (L : ListRef) (n : NodePtr) (s : State T) :
    Option (State T) :=
  if n ∈ s.list L then
    let cnt : Int := (s.list L).count n
    let s1 := s.setList L ((s.list L).filter (fun m => decide (m ≠ n)))
    match s1.deref n with
    | none => none
    | some nd =>
      if nd.ref ≤ cnt then
        some (deleteNode dtor n s1)
      else
        some (s1.setNode n { nd with ref := nd.ref - cnt })
  else
    some s

/-- Method `Node::makeParent`:
`if ( parent ) parent->children.del( this ); parent = newParent;
 if ( parent ) parent->children.add( this );`.
The second statement writes to `this`, so the call is undefined (`none`) when
the detaching `del` has destroyed `this`; so is the use of a non-null parent
pointer whose node is not live. -/
def Node.makeParent {T : Type} (dtor : Dtor T) (this newParent : NodePtr) (s : State T) :
    Option (State T) :=
  match s.deref this with
  | none => none
  | some nd =>
    let detached : Option (State T) :=
      if nd.parent ≠ 0 then
        match s.deref nd.parent with
        | none => none
        | some _ => NodeList.del dtor (ListRef.children nd.parent) this s
      else
        some s
    match detached with
    | none => none
    | some s1 =>
      match s1.deref this with
      | none => none
      | some nd1 =>
        let s2 := s1.setNode this { nd1 with parent := newParent }
        if newParent ≠ 0 then
          match s2.deref newParent with
          | none => none
          | some _ => NodeList.add (ListRef.children newParent) this s2
        else
          some s2

/-- Content of the list `L` after the first statement of `this->makeParent( .. )`,
`if ( parent ) parent->children.del( this );`, when `this` survives it: the
children of the old parent lose every occurrence of `this`. -/
def Node.detachedList {T : Type} (s : State T) (this oldParent : NodePtr) (L : ListRef) :
    List NodePtr :=
  if oldParent ≠ 0 ∧ L = ListRef.children oldParent then
    (s.list L).filter (fun m => decide (m ≠ this))
  else
    s.list L

/-- A sequence of calls `n->makeParent( p )`, one per pair `(n, p)`, in order. -/
def runMakeParent {T : Type} (dtor : Dtor T) :
    List (NodePtr × NodePtr) → State T → Option (State T)
  | [], s => some s
  | (n, p) :: rest, s =>
    match Node.makeParent dtor n p s with
    | none => none
    | some s1 => runMakeParent dtor rest s1

/-- The hierarchy is consistent: a node found in the children of `p` is live,
occurs there once and has `p` (non-null) as its parent; the parent of a live node
is null or live, and the reference count of a live node exceeds the number of
its occurrences in its parent's children (another owner keeps it alive). -/
def WellFormed {T : Type} (s : State T) : Prop :=
  (∀ p n, n ∈ s.list (ListRef.children p) →
    p ≠ 0 ∧ (s.list (ListRef.children p)).count n = 1 ∧
      ∃ nd, s.deref n = some nd ∧ nd.parent = p) ∧
  (∀ n nd, s.deref n = some nd →
    (nd.parent ≠ 0 → ∃ po, s.deref nd.parent = some po) ∧
      ((s.list (ListRef.children nd.parent)).count n : Int) < nd.ref)

/-- Every node is parentless: all child lists are empty, every live node has a
null parent and a reference count of at least 1 (it is held by another owner). -/
def Parentless {T : Type} (s : State T) : Prop :=
  (∀ p, s.list (ListRef.children p) = []) ∧
  (∀ n nd, s.deref n = some nd → nd.parent = 0 ∧ 1 ≤ nd.ref)

/-- The call `n->makeParent( p )` is made on a live node with a null or live `p`. -/
def ValidCall {T : Type} (s : State T) (c : NodePtr × NodePtr) : Prop :=
  (s.deref c.1).isSome = true ∧ (c.2 ≠ 0 → (s.deref c.2).isSome = true)

/-- Method `Node::worldTrans`, the recursion through `parent` bounded by `fuel`:
`if ( scene->worldTrans.contains( nodeId ) ) return scene->worldTrans[ nodeId ];
 Transform t = local;
 if ( parent ) t = parent->worldTrans() * t;
 scene->worldTrans.insert( nodeId, t ); return scene->worldTrans[ nodeId ];`
The result is the returned transform and the state with the updated cache;
`none` stands for an invalid dereference or for exhausted fuel. -/
def Node.worldTrans {T : Type} [Mul T] : Nat → NodePtr → State T → Option (T × State T)
  | 0, _, _ => none
  | fuel + 1, this, s =>
    match s.deref this with
    | none => none
    | some nd =>
      match s.worldTrans nd.nodeId with
      | some cached => some (cached, s)
      | none =>
        let computed : Option (T × State T) :=
          if nd.parent ≠ 0 then
            match Node.worldTrans fuel nd.parent s with
            | none => none
            | some (pt, s1) => some (pt * nd.local_, s1)
          else
            some (nd.local_, s)
        match computed with
        | none => none
        | some (t, s1) =>
          let s2 := { s1 with worldTrans := Function.update s1.worldTrans nd.nodeId (some t) }
          match s2.worldTrans nd.nodeId with
          | none => none
          | some stored => some (stored, s2)

/-- The transform returned by `worldTrans()`, without the updated state. -/
def Node.worldTransValue {T : Type} [Mul T] (fuel : Nat) (this : NodePtr) (s : State T) :
    Option T :=
  (Node.worldTrans fuel this s).map Prod.fst

/-- The list `chain` is the parent chain of its head: every element is a live
node, the parent of each element is the next one, and the last element has a
null parent.  Such a list exists exactly when following `parent` from the head
reaches a root, so the chain is finite and acyclic. -/
def IsParentChain {T : Type} (s : State T) : List NodePtr → Prop
  | [] => False
  | [r] => ∃ nd, s.deref r = some nd ∧ nd.parent = 0
  | n :: p :: rest =>
    (∃ nd, s.deref n = some nd ∧ nd.parent = p ∧ p ≠ 0) ∧ IsParentChain s (p :: rest)

/-- The world transform as the specification words it, along the parent chain
of a node (node first, root last): the world transform of the root is its local
transform, and the world transform of any other node is the world transform of
its parent composed with its own local transform. -/
def specWorldTrans {T : Type} [Mul T] (s : State T) : List NodePtr → Option T
  | [] => none
  | [r] => (s.deref r).map (fun nd => nd.local_)
  | n :: p :: rest =>
    match specWorldTrans s (p :: rest), s.deref n with
    | some pw, some nd => some (pw * nd.local_)
    | _, _ => none

/-- Function `compareNodes`, over the two things it reads from a node: whether
`findProperty<AlphaProperty>()` is non-null and the third component of `center()`:
`if ( a1 == a2 ) { if ( a1 ) return c1 < c2; return c1 > c2; } return a2;`. -/
def compareNodes {N Z : Type} [LinearOrder Z] (findAlphaProperty : N → Bool) (centerZ : N → Z)
    (node1 node2 : N) : Bool :=
  let a1 := findAlphaProperty node1
  let a2 := findAlphaProperty node2
  if a1 = a2 then
    if a1 then decide (centerZ node1 < centerZ node2)
    else decide (centerZ node1 > centerZ node2)
  else
    a2

/-- One insertion step of the stable sort: `x`, which stood before every element
of the sorted list, moves right only past elements that `comp` puts strictly
before it. -/
def stableInsert {N : Type} (comp : N → N → Bool) (x : N) : List N → List N
  | [] => [x]
  | y :: ys => if comp y x then y :: stableInsert comp x ys else x :: y :: ys

/-- Library function `std::stable_sort( first, last, comp )`, as a stable
insertion sort: `comp a b` means that `a` goes before `b`. -/
def stableSort {N : Type} (comp : N → N → Bool) : List N → List N
  | [] => []
  | x :: xs => stableInsert comp x (stableSort comp xs)

/-- Method `NodeList::sort`: `std::stable_sort( nodes.begin(), nodes.end(), compareNodes )`.
Only the order of `nodes` changes. -/
def NodeList.sort {T Z : Type} [LinearOrder Z] (findAlphaProperty : NodePtr → Bool)
    (centerZ : NodePtr → Z) (L : ListRef) (s : State T) : State T :=
  s.setList L (stableSort (compareNodes findAlphaProperty centerZ) (s.list L))

/-- The two nodes are equivalent for the comparator: neither goes before the other. -/
def compareEquiv {N : Type} (comp : N → N → Bool) (a b : N) : Bool :=
  !comp a b && !comp b a

/-- An event between two queries of one pass: a controller overwrites the
local transform of a node (`target->local` is written by the interpolators), or
`worldTrans()` is queried on some node. -/
inductive PassOp (T : Type) where
  | setLocal (m : NodePtr) (t : T)
  | query (fuel : Nat) (m : NodePtr)

/-- Effect of one event on the state; `none` for an invalid dereference or a
query that runs out of fuel. -/
def PassOp.run {T : Type} [Mul T] : PassOp T → State T → Option (State T)
  | PassOp.setLocal m t, s =>
    match s.deref m with
    | none => none
    | some nd => some (s.setNode m { nd with local_ := t })
  | PassOp.query fuel m, s =>
    match Node.worldTrans fuel m s with
    | none => none
    | some (_, s1) => some s1

/-- A sequence of events of one pass, none of which clears the cache. -/
def runPass {T : Type} [Mul T] : List (PassOp T) → State T → Option (State T)
  | [], s => some s
  | op :: rest, s =>
    match op.run s with
    | none => none
    | some s1 => runPass rest s1

/-- Modelled from the spec: the scene clears the world-transform cache at the
start of a pass (`Scene` is not defined in `glnode.cpp`); afterwards the cache
has no entry. -/
def State.clearWorldTrans {T : Type} (s : State T) : State T :=
  { s with worldTrans := fun _ => none }

/-- Method `Node::isHidden`, the recursion through `parent` bounded by `fuel`:
`if ( flags.node.hidden || ( parent && parent->isHidden() ) ) return true;
 return !Options::cullExpression().pattern().isEmpty()
        && name.contains( Options::cullExpression() );`
The last expression depends on the name of the node and on the configured
exclusion pattern only; `cullMatch this` is its value. -/
def Node.isHidden {T : Type} (cullMatch : NodePtr → Bool) :
    Nat → NodePtr → State T → Option Bool
  | 0, _, _ => none
  | fuel + 1, this, s =>
    match s.deref this with
    | none => none
    | some nd =>
      if nd.hidden then
        some true
      else
        let parentHidden : Option Bool :=
          if nd.parent ≠ 0 then Node.isHidden cullMatch fuel nd.parent s else some false
        match parentHidden with
        | none => none
        | some true => some true
        | some false => some (cullMatch this)

/-- The hidden flag of the node at `a` (false when there is no live node). -/
def State.hiddenFlag {T : Type} (s : State T) (a : NodePtr) : Bool :=
  match s.deref a with
  | some nd => nd.hidden
  | none => false

/-- The loop of `Node::findController` over `properties.list()`:
`if ( prp->typeId() == proptype ) return prp->findController( ctrltype, var1, var2 );`
and `return nullptr;` after the loop. -/
def Node.findControllerLoop {P C : Type} (typeId : P → String)
    (propertyFindController : P → String → String → String → Option C)
    (proptype ctrltype var1 var2 : String) : List P → Option C
  | [] => none
  | prp :: rest =>
    if typeId prp = proptype then propertyFindController prp ctrltype var1 var2
    else Node.findControllerLoop typeId propertyFindController proptype ctrltype var1 var2 rest

/-- Method `Node::findController`:
`if ( proptype != "<empty>" && !proptype.isEmpty() ) { (the loop) return nullptr; }
 return Controllable::findController( ctrltype, var1, var2 );`
A `Controller *` is an `Option C`, null being `none`.  `Property::typeId`,
`Property::findController` and `Controllable::findController` are defined outside
`glnode.cpp` and are parameters. -/
def Node.findController {P C : Type} (typeId : P → String)
    (propertyFindController : P → String → String → String → Option C)
    (controllableFindController : String → String → String → Option C)
    (properties : List P) (proptype ctrltype var1 var2 : String) : Option C :=
  if proptype ≠ "<empty>" ∧ proptype ≠ "" then
    Node.findControllerLoop typeId propertyFindController proptype ctrltype var1 var2 properties
  else
    controllableFindController ctrltype var1 var2

/-- The loop of `Node::localTransFrom`:
`while ( node && node->nodeId != root ) { trans = node->local * trans; node = node->parent; }`
bounded by `fuel`. -/
def Node.localTransFromLoop {T : Type} [Mul T] (root : Int) :
    Nat → NodePtr → T → State T → Option T
  | 0, _, _, _ => none
  | fuel + 1, node, trans0, s =>
    if node = 0 then
      some trans0
    else
      match s.deref node with
      | none => none
      | some nd =>
        if nd.nodeId ≠ root then
          Node.localTransFromLoop root fuel nd.parent (nd.local_ * trans0) s
        else
          some trans0

/-- Method `Node::localTransFrom`: `Transform trans; const Node * node = this;`
followed by the loop and `return trans;`.  The default-constructed transform is
the identity, written `1`. -/
def Node.localTransFrom {T : Type} [Mul T] [One T] (fuel : Nat) (this : NodePtr) (root : Int)
    (s : State T) : Option T :=
  Node.localTransFromLoop root fuel this 1 s

/-- The local transform of the node at `a` (the identity when there is no live node). -/
def State.localOf {T : Type} [One T] (s : State T) (a : NodePtr) : T :=
  match s.deref a with
  | some nd => nd.local_
  | none => 1

/-- Whether the node at `a` is live and has the id `r`. -/
def State.hasId {T : Type} (s : State T) (r : Int) (a : NodePtr) : Bool :=
  match s.deref a with
  | some nd => decide (nd.nodeId = r)
  | none => false

/-- The composition of the local transforms of the listed nodes, the first node
of the list innermost: for `[n, p, g]` it is `g.local * (p.local * (n.local * 1))`. -/
def composeLocals {T : Type} [Mul T] [One T] (s : State T) (l : List NodePtr) : T :=
  l.foldl (fun acc m => s.localOf m * acc) 1

/-- A `Vector3`: the components `[0]`, `[1]`, `[2]` are `x`, `y`, `z`. -/
structure Vector3 (R : Type) where
  x : R
  y : R
  z : R

/-- The members of `Transform`: `rotation` (a `Matrix`), `translation` (a
`Vector3`) and `scale`.  The composition `operator*` is defined outside
`glnode.cpp`; the embedding takes it as the `Mul` instance of the type. -/
structure Transform (V M R : Type) where
  rotation : M
  translation : V
  scale : R

/-- Modelled from the spec: the accessor `id()` is declared in `glnode.h`; the
identity of a node, which the specification uses as cache key and in the depth
bias of `center()`, is its `nodeId`. -/
def Node.id {T : Type} (nd : Node T) : Int :=
  nd.nodeId

/-- Method `Node::center`:
`return Vector3( worldTrans().translation[0], worldTrans().translation[1],
                 worldTrans().translation[2] + 1000 / id() );`
The quotient `1000 / id()` is a division of two `int`s: it truncates towards zero
and is undefined (`none`) for `id() == 0`; its value is converted to the scalar
type before the addition. -/
def Node.center {M R : Type} [Mul (Transform (Vector3 R) M R)] [Add R] [IntCast R]
    (fuel : Nat) (this : NodePtr) (s : State (Transform (Vector3 R) M R)) :
    Option (Vector3 R × State (Transform (Vector3 R) M R)) :=
  match Node.worldTrans fuel this s with
  | none => none
  | some (w0, s1) =>
    match Node.worldTrans fuel this s1 with
    | none => none
    | some (w1, s2) =>
      match Node.worldTrans fuel this s2 with
      | none => none
      | some (w2, s3) =>
        match s3.deref this with
        | none => none
        | some nd =>
          if nd.id = 0 then
            none
          else
            some ({ x := w0.translation.x, y := w1.translation.y,
                    z := w2.translation.z + ((Int.tdiv 1000 nd.id : Int) : R) }, s3)

/-- Method `Node::viewTrans`:
`if ( scene->viewTrans.contains( nodeId ) ) return scene->viewTrans[ nodeId ];
 Transform t;
 if ( parent ) t = parent->viewTrans() * local; else t = scene->view * worldTrans();
 scene->viewTrans.insert( nodeId, t ); return scene->viewTrans[ nodeId ];`
The virtual call on the parent is the argument `parentViewTrans`; `wfuel` bounds
the recursion of `worldTrans()`. -/
def Node.viewTrans {T : Type} [Mul T]
    (parentViewTrans : NodePtr → State T → Option (T × State T)) (wfuel : Nat)
    (this : NodePtr) (s : State T) : Option (T × State T) :=
  match s.deref this with
  | none => none
  | some nd =>
    match s.viewTrans nd.nodeId with
    | some cached => some (cached, s)
    | none =>
      let computed : Option (T × State T) :=
        if nd.parent ≠ 0 then
          match parentViewTrans nd.parent s with
          | none => none
          | some (pv, s1) => some (pv * nd.local_, s1)
        else
          match Node.worldTrans wfuel this s with
          | none => none
          | some (w, s1) => some (s.view * w, s1)
      match computed with
      | none => none
      | some (t, s1) =>
        let s2 := { s1 with viewTrans := Function.update s1.viewTrans nd.nodeId (some t) }
        match s2.viewTrans nd.nodeId with
        | none => none
        | some stored => some (stored, s2)

/-- Method `BillboardNode::viewTrans`: the text of `Node::viewTrans` with the
statement `t.rotation = Matrix();` before the insertion; `identity` is the
default-constructed `Matrix`. -/
def BillboardNode.viewTrans {V M R : Type} [Mul (Transform V M R)] (identity : M)
    (parentViewTrans : NodePtr → State (Transform V M R) →
      Option (Transform V M R × State (Transform V M R)))
    (wfuel : Nat) (this : NodePtr) (s : State (Transform V M R)) :
    Option (Transform V M R × State (Transform V M R)) :=
  match s.deref this with
  | none => none
  | some nd =>
    match s.viewTrans nd.nodeId with
    | some cached => some (cached, s)
    | none =>
      let computed : Option (Transform V M R × State (Transform V M R)) :=
        if nd.parent ≠ 0 then
          match parentViewTrans nd.parent s with
          | none => none
          | some (pv, s1) => some (pv * nd.local_, s1)
        else
          match Node.worldTrans wfuel this s with
          | none => none
          | some (w, s1) => some (s.view * w, s1)
      match computed with
      | none => none
      | some (t, s1) =>
        let t1 : Transform V M R := { t with rotation := identity }
        let s2 := { s1 with viewTrans := Function.update s1.viewTrans nd.nodeId (some t1) }
        match s2.viewTrans nd.nodeId with
        | none => none
        | some stored => some (stored, s2)

/-- The virtual call `node->viewTrans()`: the override of `BillboardNode` runs
for a billboard, `Node::viewTrans` otherwise; the recursion through `parent` is
bounded by `fuel`. -/
def viewTransVirtual {V M R : Type} [Mul (Transform V M R)] (identity : M) :
    Nat → NodePtr → State (Transform V M R) →
      Option (Transform V M R × State (Transform V M R))
  | 0, _, _ => none
  | fuel + 1, this, s =>
    match s.deref this with
    | none => none
    | some nd =>
      if nd.billboard then
        BillboardNode.viewTrans identity (viewTransVirtual identity fuel) (fuel + 1) this s
      else
        Node.viewTrans (viewTransVirtual identity fuel) (fuel + 1) this s

/-- The closing loop of `Node::transform`,
`for ( Node * node : children.list() ) { node->transform(); }`: one virtual call
per child, on the state left by the call before; `childTransform` is the virtual
call.  The result is the state and the entries that the calls inserted into
`bhkBodyTrans`, in order. -/
def Node.transformChildren {T : Type}
    (childTransform : NodePtr → State T → Option (State T × List (Int × T))) :
    List NodePtr → State T → Option (State T × List (Int × T))
  | [], s => some (s, [])
  | node :: rest, s =>
    match childTransform node s with
    | none => none
    | some (s1, ins1) =>
      match Node.transformChildren childTransform rest s1 with
      | none => none
      | some (s2, ins2) => some (s2, ins1 ++ ins2)

/-- Method `Node::transform`: `Controllable::transform();`, then, when the model
attaches a rigid body to the block of the node,
`scene->bhkBodyTrans.insert( nif->getBlockNumber( iBody ), worldTrans() * t );`,
and at the end `for ( Node * node : children.list() ) { node->transform(); }`.
`Controllable::transform` is defined outside `glnode.cpp` and is the parameter
`controllableTransform`; what the model lookups yield is the parameter `body`
(`none` when there is no rigid body, else the block number of the body and the
transform `t`); the virtual call on a child is the argument `childTransform`.
The result is the new state and the entries inserted into `bhkBodyTrans`, in
order. -/
def Node.transform {T : Type} [Mul T]
    (controllableTransform : NodePtr → State T → Option (State T))
    (body : NodePtr → State T → Option (Int × T))
    (childTransform : NodePtr → State T → Option (State T × List (Int × T)))
    (wfuel : Nat) (this : NodePtr) (s : State T) : Option (State T × List (Int × T)) :=
  match controllableTransform this s with
  | none => none
  | some s0 =>
    let inserted : Option (State T × List (Int × T)) :=
      match body this s0 with
      | none => some (s0, [])
      | some (bodyId, t) =>
        match Node.worldTrans wfuel this s0 with
        | none => none
        | some (w, s1) => some (s1, [(bodyId, w * t)])
    match inserted with
    | none => none
    | some (s1, ins) =>
      match Node.transformChildren childTransform (s1.list (ListRef.children this)) s1 with
      | none => none
      | some (s2, ins2) => some (s2, ins ++ ins2)

/-- The loop `for ( Node * child : children.list() ) child->flags.node.hidden = true;`
of `LODNode::transform`. -/
def LODNode.hideAll {T : Type} : List NodePtr → State T → Option (State T)
  | [], s => some s
  | child :: rest, s =>
    match s.deref child with
    | none => none
    | some nd => LODNode.hideAll rest (s.setNode child { nd with hidden := true })

/-- The value that the second loop of `LODNode::transform` assigns to the hidden
flag of the child number `c`:
`!( ranges[c].first <= distance && distance < ranges[c].second )` when
`c < ranges.count()`, and `true` otherwise. -/
def LODNode.rangeHidden {D : Type} [LinearOrder D] (ranges : List (D × D)) (distance : D)
    (c : Nat) : Bool :=
  if hc : c < ranges.length then
    !(decide ((ranges[c]).1 ≤ distance) && decide (distance < (ranges[c]).2))
  else
    true

/-- The second loop of `LODNode::transform`, `c` counting the children:
`for ( Node * child : children.list() ) { child->flags.node.hidden = ...; c++; }`. -/
def LODNode.applyRanges {T D : Type} [LinearOrder D] (ranges : List (D × D)) (distance : D) :
    Nat → List NodePtr → State T → Option (State T)
  | _, [], s => some s
  | c, child :: rest, s =>
    match s.deref child with
    | none => none
    | some nd =>
      LODNode.applyRanges ranges distance (c + 1) rest
        (s.setNode child { nd with hidden := LODNode.rangeHidden ranges distance c })

/-- Method `LODNode::transform`:
`Node::transform();
 if ( children.list().isEmpty() ) return;
 if ( ranges.isEmpty() ) { (all children hidden)
   children.list().first()->flags.node.hidden = false; return; }
 float distance = ( viewTrans() * center ).length();
 (the loop over the children and the ranges)`.
The members `center` and `ranges` of the node are arguments; `distanceOf vt c`
stands for `( vt * c ).length()`, both operations being defined outside
`glnode.cpp`; `childTransform` is the virtual `transform()` of a child, called by
the base `Node::transform()`. -/
def LODNode.transform {V M R D : Type} [Mul (Transform V M R)] [LinearOrder D] (identity : M)
    (controllableTransform : NodePtr → State (Transform V M R) →
      Option (State (Transform V M R)))
    (body : NodePtr → State (Transform V M R) → Option (Int × Transform V M R))
    (childTransform : NodePtr → State (Transform V M R) →
      Option (State (Transform V M R) × List (Int × Transform V M R)))
    (distanceOf : Transform V M R → V → D) (wfuel : Nat) (this : NodePtr)
    (center : V) (ranges : List (D × D)) (s : State (Transform V M R)) :
    Option (State (Transform V M R) × List (Int × Transform V M R)) :=
  match Node.transform controllableTransform body childTransform wfuel this s with
  | none => none
  | some (s0, inserted) =>
    match s0.deref this with
    | none => none
    | some _ =>
      match s0.list (ListRef.children this) with
      | [] => some (s0, inserted)
      | first :: others =>
        if ranges.isEmpty then
          match LODNode.hideAll (first :: others) s0 with
          | none => none
          | some s1 =>
            match s1.deref first with
            | none => none
            | some nd => some (s1.setNode first { nd with hidden := false }, inserted)
        else
          match viewTransVirtual identity wfuel this s0 with
          | none => none
          | some (vt, s1) =>
            match LODNode.applyRanges ranges (distanceOf vt center) 0 (first :: others) s1 with
            | none => none
            | some s2 => some (s2, inserted)

/-- The dynamic class of a node as far as the virtual `transform()` is concerned:
a `Node` or `BillboardNode` (which runs `Node::transform`), an `LODNode` with its
members `center` and `ranges`, or a class defined outside `glnode.cpp` that
overrides `transform()`. -/
inductive NodeClass (V D : Type) where
  | node
  | lod (center : V) (ranges : List (D × D))
  | other

/-- The virtual call `node->transform()`, the recursion through the children
bounded by `fuel`: `Node::transform` or `LODNode::transform` according to the class
`classOf node` of the object, and the parameter `otherTransform` for a class
defined outside `glnode.cpp`.  A call on a pointer that is null or not live is
undefined (`none`), as is exhausted fuel. -/
def transformVirtual {V M R D : Type} [Mul (Transform V M R)] [LinearOrder D] (identity : M)
    (controllableTransform : NodePtr → State (Transform V M R) →
      Option (State (Transform V M R)))
    (body : NodePtr → State (Transform V M R) → Option (Int × Transform V M R))
    (classOf : NodePtr → NodeClass V D)
    (otherTransform : NodePtr → State (Transform V M R) →
      Option (State (Transform V M R) × List (Int × Transform V M R)))
    (distanceOf : Transform V M R → V → D) (wfuel : Nat) :
    Nat → NodePtr → State (Transform V M R) →
      Option (State (Transform V M R) × List (Int × Transform V M R))
  | 0, _, _ => none
  | fuel + 1, this, s =>
    match s.deref this with
    | none => none
    | some _ =>
      match classOf this with
      | NodeClass.node =>
        Node.transform controllableTransform body
          (transformVirtual identity controllableTransform body classOf otherTransform
            distanceOf wfuel fuel) wfuel this s
      | NodeClass.lod center ranges =>
        LODNode.transform identity controllableTransform body
          (transformVirtual identity controllableTransform body classOf otherTransform
            distanceOf wfuel fuel) distanceOf wfuel this center ranges s
      | NodeClass.other => otherTransform this s

/-- The state `s1` has the lists of `s`, the same live nodes, and every live node
has the parent it has in `s`. -/
def State.SameShape {T : Type} (s s1 : State T) : Prop :=
  s1.list = s.list ∧
    ∀ m, (s1.deref m).map (fun nd => nd.parent) = (s.deref m).map (fun nd => nd.parent)

/-- The members of `VisibilityController` that `update( float )` reads or
writes: `active`, the `QPointer<Node>` `target` and `visLast`. -/
structure VisibilityController where
  active : Bool
  target : NodePtr
  visLast : Int

/-- Method `VisibilityController::update( float time )`:
`if ( !( active && target ) ) return;
 time = ctrlTime( time );
 bool isVisible;
 if ( interpolate( isVisible, iData, time, visLast ) )
     target->flags.node.hidden = !isVisible;`
A `QPointer` whose node has been destroyed is null.  `ctrlTime` and
`interpolate` are defined outside `glnode.cpp` and are parameters: `interpolate`
maps the controller time and `visLast` to the sample (`none` when the C++
function returns false) and to the new value of `visLast`. -/
def VisibilityController.update {T Time : Type} (ctrlTime : Time → Time)
    (interpolate : Time → Int → Option Bool × Int) (ctrl : VisibilityController)
    (time : Time) (s : State T) : VisibilityController × State T :=
  if ctrl.active then
    match s.deref ctrl.target with
    | none => (ctrl, s)
    | some nd =>
      match interpolate (ctrlTime time) ctrl.visLast with
      | (some isVisible, last) =>
        ({ ctrl with visLast := last }, s.setNode ctrl.target { nd with hidden := !isVisible })
      | (none, last) => ({ ctrl with visLast := last }, s)
  else
    (ctrl, s)

/-- The interpolator that `setInterpolator` creates for a block:
`if ( nif->isNiBlock( iInterpolator, "NiBSplineCompTransformInterpolator" ) )
   second = new BSplineTransformInterpolator( this );
 else if ( nif->isNiBlock( iInterpolator, "NiTransformInterpolator" ) )
   second = new TransformInterpolator( this );
 if ( second ) second->update( nif, iInterpolator );`
after the old one has been deleted and the pointer set to 0.  The model query
`isNiBlock` and the two constructions (with their `update`) are parameters. -/
def MultiTargetTransformController.newInterpolator {B I : Type} (isNiBlock : B → String → Bool)
    (newBSpline newTransform : B → I) (iInterpolator : B) : Option I :=
  if isNiBlock iInterpolator "NiBSplineCompTransformInterpolator" then
    some (newBSpline iInterpolator)
  else if isNiBlock iInterpolator "NiTransformInterpolator" then
    some (newTransform iInterpolator)
  else
    none

/-- The loop of `setInterpolator` over `extraTargets`: the first pair whose node
is `node` gets the new interpolator and the loop returns true; after the loop
the function returns false. -/
def MultiTargetTransformController.setInterpolatorLoop {B I : Type}
    (isNiBlock : B → String → Bool) (newBSpline newTransform : B → I) (node : NodePtr)
    (iInterpolator : B) : List (NodePtr × Option I) → Bool × List (NodePtr × Option I)
  | [] => (false, [])
  | tt :: rest =>
    if tt.1 = node then
      (true,
        (tt.1, MultiTargetTransformController.newInterpolator isNiBlock newBSpline newTransform
          iInterpolator) :: rest)
    else
      match MultiTargetTransformController.setInterpolatorLoop isNiBlock newBSpline
          newTransform node iInterpolator rest with
      | (found, rest1) => (found, tt :: rest1)

/-- Method `MultiTargetTransformController::setInterpolator( node, iInterpolator )`:
`if ( !nif || !iInterpolator.isValid() ) return false;` and then the loop.  The
block is `none` when there is no model or the index is invalid.  The result is
the returned value and the new content of `extraTargets`. -/
def MultiTargetTransformController.setInterpolator {B I : Type}
    (isNiBlock : B → String → Bool) (newBSpline newTransform : B → I) (node : NodePtr)
    (iInterpolator : Option B) (extraTargets : List (NodePtr × Option I)) :
    Bool × List (NodePtr × Option I) :=
  match iInterpolator with
  | none => (false, extraTargets)
  | some blk =>
    MultiTargetTransformController.setInterpolatorLoop isNiBlock newBSpline newTransform node
      blk extraTargets

/-- The loop `foreach ( Node * n, ns ) { del( n ); }` on the list `L`; `foreach`
iterates over a copy `ns` of the container taken before the first call. -/
def NodeList.delAll {T : Type} (dtor : Dtor T) (L : ListRef) :
    List NodePtr → State T → Option (State T)
  | [], s => some s
  | n :: rest, s =>
    match NodeList.del dtor L n s with
    | none => none
    | some s1 => NodeList.delAll dtor L rest s1

/-- Method `NodeList::clear`: `foreach ( Node * n, nodes ) { del( n ); }`. -/
def NodeList.clear {T : Type} (dtor : Dtor T) (L : ListRef) (s : State T) : Option (State T) :=
  NodeList.delAll dtor L (s.list L) s

/-- The loop `for ( Node * n : ns ) { add( n ); }` on the list `L`. -/
def NodeList.addAll {T : Type} (L : ListRef) : List NodePtr → State T → Option (State T)
  | [], s => some s
  | n :: rest, s =>
    match NodeList.add L n s with
    | none => none
    | some s1 => NodeList.addAll L rest s1

/-- Method `NodeList::operator=`:
`clear(); for ( Node * n : other.list() ) { add( n ); } return *this;`.
The content of `other` is read after `clear()`, so that assigning a list to
itself iterates over the emptied list. -/
def NodeList.assign {T : Type} (dtor : Dtor T) (L other : ListRef) (s : State T) :
    Option (State T) :=
  match NodeList.clear dtor L s with
  | none => none
  | some s1 => NodeList.addAll L (s1.list other) s1

/-- Method `NodeList::validate`:
`QList<Node *> rem;
 for ( Node * n : nodes ) { if ( !n->isValid() ) rem.append( n ); }
 foreach ( Node * n, rem ) { del( n ); }`.
`isValid` is a member of `Controllable`, declared outside `glnode.cpp`; its
value on the node at an address is the parameter `isValid`.  The first loop
dereferences every member of the list. -/
def NodeList.validate {T : Type} (dtor : Dtor T) (isValid : NodePtr → Bool) (L : ListRef)
    (s : State T) : Option (State T) :=
  if (s.list L).all (fun n => (s.deref n).isSome) then
    NodeList.delAll dtor L ((s.list L).filter (fun n => !isValid n)) s
  else
    none

/-- A call of one of the mutating members of `NodeList` on the list named by its
first argument; `sort` carries what `compareNodes` reads from the nodes at the
time of the call, `validate` what `isValid()` returns. -/
inductive ListOp (Z : Type) where
  | add (L : ListRef) (n : NodePtr)
  | del (L : ListRef) (n : NodePtr)
  | clear (L : ListRef)
  | validate (L : ListRef) (isValid : NodePtr → Bool)
  | sort (L : ListRef) (findAlphaProperty : NodePtr → Bool) (centerZ : NodePtr → Z)
  | assign (L other : ListRef)

/-- Effect of one call on the state; `none` for an invalid dereference. -/
def ListOp.run {T Z : Type} [LinearOrder Z] (dtor : Dtor T) : ListOp Z → State T → Option (State T)
  | ListOp.add L n, s => NodeList.add L n s
  | ListOp.del L n, s => NodeList.del dtor L n s
  | ListOp.clear L, s => NodeList.clear dtor L s
  | ListOp.validate L isValid, s => NodeList.validate dtor isValid L s
  | ListOp.sort L fa cz, s => some (NodeList.sort fa cz L s)
  | ListOp.assign L other, s => NodeList.assign dtor L other s

/-- A sequence of calls on the lists of the state, in order. -/
def runListOps {T Z : Type} [LinearOrder Z] (dtor : Dtor T) :
    List (ListOp Z) → State T → Option (State T)
  | [], s => some s
  | op :: rest, s =>
    match op.run dtor s with
    | none => none
    | some s1 => runListOps dtor rest s1

/-- No list of the state holds a null pointer or holds a node twice. -/
def ListsClean {T : Type} (s : State T) : Prop :=
  ∀ L, (s.list L).Nodup ∧ 0 ∉ s.list L

/-- What `drawHvkShape` reads from the `NifModel` to choose its recursive calls.
A valid `QModelIndex` of a shape is the number of its block.
`itemName b` is `nif->itemName( iShape )`; `subShapes b` is `none` when
`nif->getIndex( iShape, "Sub Shapes" )` is invalid and else lists, row by row,
`nif->getBlock( nif->getLink( iShapes.child( r, 0 ) ) )` (`none` for an invalid
index); `shapeLink b` is `nif->getBlock( nif->getLink( iShape, "Shape" ) )`. -/
structure NifModel where
  itemName : Nat → String
  subShapes : Nat → Option (List (Option Nat))
  shapeLink : Nat → Option Nat

/-- The loop `for ( int r = 0; r < nif->rowCount( iShapes ); r++ )` of
`drawHvkShape`: one call of `draw` per row, on the stack left by the call before. -/
def drawHvkShapeRows (draw : Option Nat → List Nat → Option (List Nat)) :
    List (Option Nat) → List Nat → Option (List Nat)
  | [], stack => some stack
  | r :: rest, stack =>
    match draw r stack with
    | none => none
    | some st => drawHvkShapeRows draw rest st

/-- Function `drawHvkShape`, as far as the stack and the recursion are concerned:
`if ( !nif || !iShape.isValid() || stack.contains( iShape ) ) return;
 stack.push( iShape ); QString name = nif->itemName( iShape );
 if ( name == "bhkListShape" ) { .. drawHvkShape( .. ) for every row of "Sub Shapes" .. }
 else if ( name == "bhkTransformShape" || name == "bhkConvexTransformShape" )
   { .. drawHvkShape( nif, nif->getBlock( nif->getLink( iShape, "Shape" ) ), stack, .. ); .. }
 else if .. else if ( name == "bhkMoppBvTreeShape" )
   { .. drawHvkShape( nif, nif->getBlock( nif->getLink( iShape, "Shape" ) ), stack, .. ); }
 else if ..
 stack.pop();`
The other branches draw one shape without a recursive call and without access
to the stack.  A null `nif` is `none`, an invalid `iShape` is `none`; `push`
appends at the end of the stack and `pop` removes the last element.  The result
is the stack on return; `none` stands for exhausted `fuel`. -/
def drawHvkShape (nif : Option NifModel) : Nat → Option Nat → List Nat → Option (List Nat)
  | fuel, iShape, stack =>
    match nif, iShape with
    | some m, some sh =>
      if sh ∈ stack then
        some stack
      else
        match fuel with
        | 0 => none
        | f + 1 =>
          let pushed := stack ++ [sh]
          let name := m.itemName sh
          let drawn : Option (List Nat) :=
            if name = "bhkListShape" then
              match m.subShapes sh with
              | none => some pushed
              | some rows => drawHvkShapeRows (drawHvkShape nif f) rows pushed
            else if name = "bhkTransformShape" ∨ name = "bhkConvexTransformShape" then
              drawHvkShape nif f (m.shapeLink sh) pushed
            else if name = "bhkMoppBvTreeShape" then
              drawHvkShape nif f (m.shapeLink sh) pushed
            else
              some pushed
          match drawn with
          | none => none
          | some st => some st.dropLast
    | _, _ => some stack

/-- The members `animGroups` (a `QStringList`) and `animTags` (a
`QMap<QString, QMap<QString, float>>`) of the `Scene`; a map is the partial
function from its keys to their values. -/
structure AnimRegistry (F : Type) where
  animGroups : List String
  animTags : String → Option (String → Option F)

/-- The loop `for ( int r = 0; r < nif->rowCount( iTags ); r++ ) tags.insert( .. );`
of `ControllerManager::update`: `rows` lists, row by row, the `"Value"` and
`"Time"` read from the model; `QMap::insert` replaces the value of a present key. -/
def ControllerManager.insertTags {F : Type} (rows : List (String × F))
    (tags : String → Option F) : String → Option F :=
  rows.foldl (fun t r => Function.update t r.1 (some r.2)) tags

/-- Body of the loop over `lSequences` in `ControllerManager::update`:
`QModelIndex iSeq = nif->getBlock( l, "NiControllerSequence" );
 if ( iSeq.isValid() ) { QString name = nif->get<QString>( iSeq, "Name" );
   if ( !scene->animGroups.contains( name ) ) { scene->animGroups.append( name );
     QMap<QString, float> tags = scene->animTags[ name ]; .. tags.insert( .. ) ..
     scene->animTags[ name ] = tags; } }`
A link is `none` when `iSeq` is invalid and else carries the name of the sequence
and the rows of its text keys.  `scene->animTags[ name ]` on an absent key yields
an empty map. -/
def ControllerManager.registerSequence {F : Type} (seq : Option (String × List (String × F)))
    (scene : AnimRegistry F) : AnimRegistry F :=
  match seq with
  | none => scene
  | some (name, rows) =>
    if name ∈ scene.animGroups then
      scene
    else
      let tags : String → Option F := (scene.animTags name).getD (fun _ => none)
      { animGroups := scene.animGroups ++ [name]
        animTags :=
          Function.update scene.animTags name (some (ControllerManager.insertTags rows tags)) }

/-- Method `ControllerManager::update( nif, index )`:
`if ( Controller::update( nif, index ) ) { if ( target ) { .. for ( const auto l :
 lSequences ) { .. } } return true; } return false;`.
`Controller::update` is defined outside `glnode.cpp`; its result is the parameter
`controllerUpdate`.  `target` tells whether the member `target` is non-null and
`lSequences` is what the model yields for the links of `"Controller Sequences"`.
The result is the returned flag and the registry of the scene. -/
def ControllerManager.update {F : Type} (controllerUpdate target : Bool)
    (lSequences : List (Option (String × List (String × F)))) (scene : AnimRegistry F) :
    Bool × AnimRegistry F :=
  if controllerUpdate then
    (true,
      if target then
        lSequences.foldl (fun sc l => ControllerManager.registerSequence l sc) scene
      else
        scene)
  else
    (false, scene)

/-- The loop of `Node::findChild( const QString & name )` over `children.list()`:
`Node * n = child->findChild( name ); if ( n ) return n;` and `return nullptr;`
after the loop; `find` is the recursive call. -/
def Node.findChildLoop (find : NodePtr → Option NodePtr) : List NodePtr → Option NodePtr
  | [] => some 0
  | child :: rest =>
    match find child with
    | none => none
    | some n => if n ≠ 0 then some n else Node.findChildLoop find rest

/-- Method `Node::findChild( const QString & name )`, the recursion through the
children bounded by `fuel`:
`if ( this->name == name ) return this;` and then the loop over the children.
The member `name` is declared in `Controllable`, outside `glnode.cpp`; `nodeName`
gives its value for the node at an address.  The result is the returned pointer;
`none` stands for an invalid dereference or for exhausted fuel. -/
def Node.findChild {T : Type} (nodeName : NodePtr → String) (name : String) :
    Nat → NodePtr → State T → Option NodePtr
  | 0, _, _ => none
  | fuel + 1, this, s =>
    match s.deref this with
    | none => none
    | some _ =>
      if nodeName this = name then some this
      else
        Node.findChildLoop (fun child => Node.findChild nodeName name fuel child s)
          (s.list (ListRef.children this))

/-- The node `b` is in the subtree of the node `a`: it is `a` or is in the subtree
of a member of the children of `a`. -/
inductive InSubtree {T : Type} (s : State T) : NodePtr → NodePtr → Prop where
  | self (a : NodePtr) : InSubtree s a a
  | child (a c b : NodePtr) (hc : c ∈ s.list (ListRef.children a)) (hb : InSubtree s c b) :
    InSubtree s a b

/-- The subtree of the node `n` is finite, of height at most `d`, and consists of
live nodes: `n` is live and the subtree of every member of its children has
height at most `d - 1`. -/
def State.SubtreeWithin {T : Type} (s : State T) : Nat → NodePtr → Prop
  | 0, _ => False
  | d + 1, n =>
    (∃ nd, s.deref n = some nd) ∧
      ∀ c, c ∈ s.list (ListRef.children n) → State.SubtreeWithin s d c

/-- The members `start`, `stop`, `phase` and `frequency` of a `Controller`. -/
structure Timing (F : Type) where
  start : F
  stop : F
  phase : F
  frequency : F
  deriving DecidableEq, Repr

/-- One row of `"Controlled Blocks"` as `setSequence` reads it from the model:
the block of `"Interpolator"` (`none` for an invalid index) and the strings
`"Node Name"`, `"Property Type"`, `"Controller Type"`, `"Variable 1"`,
`"Variable 2"`, each with the string displayed for its `.. Offset` field. -/
structure ControlledBlock (B : Type) where
  interpolator : Option B
  nodeName : String
  nodeNameOffset : String
  propertyType : String
  propertyTypeOffset : String
  controllerType : String
  controllerTypeOffset : String
  variable1 : String
  variable1Offset : String
  variable2 : String
  variable2Offset : String

/-- The pattern `QString x = nif->get<QString>( iCB, field );
 if ( x.isEmpty() ) { .. x = (display string of the offset field); }`. -/
def ControlledBlock.pick (value offset : String) : String :=
  if value = "" then offset else value

/-- What `setSequence` reads from a valid `NiControllerSequence` block. -/
structure ControllerSequence (F B : Type) where
  name : String
  startTime : F
  stopTime : F
  phase : F
  frequency : F
  controlledBlocks : List (ControlledBlock B)

/-- The state of the controllers that `setSequence` can write: the timing members
of the controller at each address, the member `extraTargets` of the
`multiTargetTransformer`, and in `other` whatever the virtual
`Controller::setInterpolator` of the other controllers writes. -/
structure ControllerState (F I K : Type) where
  timing : Nat → Timing F
  extraTargets : List (NodePtr × Option I)
  other : K

/-- The functions and members used by `setSequence` that are declared outside
`glnode.cpp`: the `name` of a node and its `properties`, `NifModel::isNiBlock`,
the two interpolator constructions, `Property::typeId`,
`Property::findController`, `Controllable::findController` on a node, and the
virtual `Controller::setInterpolator( iInterpolator )` on the controller at an
address. -/
structure ControllerEnv (F B I K P : Type) where
  nodeName : NodePtr → String
  isNiBlock : B → String → Bool
  newBSpline : B → I
  newTransform : B → I
  properties : NodePtr → List P
  typeId : P → String
  propertyFindController : P → String → String → String → Option Nat
  controllableFindController : NodePtr → String → String → String → Option Nat
  setInterpolator : Nat → Option B → ControllerState F I K → ControllerState F I K

/-- Body of the loop over the rows of `"Controlled Blocks"` in
`ControllerManager::setSequence`:
`Node * node = target->findChild( nodename ); if ( !node ) continue;
 if ( ctrltype == "NiTransformController" && multiTargetTransformer ) {
   if ( multiTargetTransformer->setInterpolator( node, iInterpolator ) ) {
     multiTargetTransformer->start = start; .. continue; } }
 Controller * ctrl = node->findController( proptype, ctrltype, var1, var2 );
 if ( ctrl ) { ctrl->start = start; .. ctrl->setInterpolator( iInterpolator ); }`.
`this` is the address of the manager, whose timing is what `start`, `stop`,
`phase` and `frequency` denote; `multi` is `multiTargetTransformer`. -/
def ControllerManager.controlledBlock {T F B I K P : Type} (env : ControllerEnv F B I K P)
    (s : State T) (fuel : Nat) (this : Nat) (target : NodePtr) (multi : Option Nat)
    (e : ControlledBlock B) (st : ControllerState F I K) : Option (ControllerState F I K) :=
  let nodename := ControlledBlock.pick e.nodeName e.nodeNameOffset
  let proptype := ControlledBlock.pick e.propertyType e.propertyTypeOffset
  let ctrltype := ControlledBlock.pick e.controllerType e.controllerTypeOffset
  let var1 := ControlledBlock.pick e.variable1 e.variable1Offset
  let var2 := ControlledBlock.pick e.variable2 e.variable2Offset
  match Node.findChild env.nodeName nodename fuel target s with
  | none => none
  | some node =>
    if node = 0 then
      some st
    else
      let viaMulti : Bool × ControllerState F I K :=
        if ctrltype = "NiTransformController" then
          match multi with
          | some m =>
            match MultiTargetTransformController.setInterpolator env.isNiBlock env.newBSpline
                env.newTransform node e.interpolator st.extraTargets with
            | (found, targets) =>
              let st1 : ControllerState F I K := { st with extraTargets := targets }
              if found then
                (true, { st1 with timing := Function.update st1.timing m (st1.timing this) })
              else
                (false, st1)
          | none => (false, st)
        else
          (false, st)
      if viaMulti.1 then
        some viaMulti.2
      else
        match Node.findController env.typeId env.propertyFindController
            (env.controllableFindController node) (env.properties node)
            proptype ctrltype var1 var2 with
        | none => some viaMulti.2
        | some ctrl =>
          some (env.setInterpolator ctrl e.interpolator
            { viaMulti.2 with
              timing := Function.update viaMulti.2.timing ctrl (viaMulti.2.timing this) })

/-- The loop `for ( int r = 0; r < nif->rowCount( iCtrlBlcks ); r++ )` of
`setSequence`, over the rows in order. -/
def ControllerManager.controlledBlocks {T F B I K P : Type} (env : ControllerEnv F B I K P)
    (s : State T) (fuel : Nat) (this : Nat) (target : NodePtr) (multi : Option Nat) :
    List (ControlledBlock B) → ControllerState F I K → Option (ControllerState F I K)
  | [], st => some st
  | e :: rest, st =>
    match ControllerManager.controlledBlock env s fuel this target multi e st with
    | none => none
    | some st1 => ControllerManager.controlledBlocks env s fuel this target multi rest st1

/-- Body of the loop over `lSequences` in `setSequence`:
`if ( iSeq.isValid() && nif->get<QString>( iSeq, "Name" ) == seqname ) {
   start = ..; stop = ..; phase = ..; frequency = ..; (the loop over the rows) }`.
A link is `none` when `iSeq` is invalid. -/
def ControllerManager.sequence {T F B I K P : Type} (env : ControllerEnv F B I K P)
    (s : State T) (fuel : Nat) (this : Nat) (target : NodePtr) (multi : Option Nat)
    (seqname : String) (l : Option (ControllerSequence F B)) (st : ControllerState F I K) :
    Option (ControllerState F I K) :=
  match l with
  | none => some st
  | some sq =>
    if sq.name = seqname then
      ControllerManager.controlledBlocks env s fuel this target multi sq.controlledBlocks
        { st with
          timing := Function.update st.timing this
            { start := sq.startTime, stop := sq.stopTime, phase := sq.phase,
              frequency := sq.frequency } }
    else
      some st

/-- The loop `for ( const auto l : lSequences )` of `setSequence`. -/
def ControllerManager.sequences {T F B I K P : Type} (env : ControllerEnv F B I K P)
    (s : State T) (fuel : Nat) (this : Nat) (target : NodePtr) (multi : Option Nat)
    (seqname : String) :
    List (Option (ControllerSequence F B)) → ControllerState F I K →
      Option (ControllerState F I K)
  | [], st => some st
  | l :: rest, st =>
    match ControllerManager.sequence env s fuel this target multi seqname l st with
    | none => none
    | some st1 => ControllerManager.sequences env s fuel this target multi seqname rest st1

/-- Method `ControllerManager::setSequence( seqname )`:
`if ( target && iBlock.isValid() && nif ) { (find the first controller of the
 target whose typeId() is "NiMultiTargetTransformController") (the loop over
 lSequences) }`.
`target` is a `QPointer`, null once its node is destroyed; `controllers` lists the
addresses of `target->controllers` and `ctrlTypeId` is `Controller::typeId`. -/
def ControllerManager.setSequence {T F B I K P : Type} (env : ControllerEnv F B I K P)
    (s : State T) (fuel : Nat) (this : Nat) (target : NodePtr) (iBlockValid nifPresent : Bool)
    (controllers : List Nat) (ctrlTypeId : Nat → String)
    (lSequences : List (Option (ControllerSequence F B))) (seqname : String)
    (st : ControllerState F I K) : Option (ControllerState F I K) :=
  match s.deref target with
  | none => some st
  | some _ =>
    if iBlockValid && nifPresent then
      let multiTargetTransformer : Option Nat :=
        controllers.find? (fun c => decide (ctrlTypeId c = "NiMultiTargetTransformController"))
      ControllerManager.sequences env s fuel this target multiTargetTransformer seqname
        lSequences st
    else
      some st

/-- The node name of the row `e` is the name of no node in the subtree of the
target, or `findChild` resolves it to a node for which neither the
`multiTargetTransformer` accepts the interpolator nor `findController` finds a
controller, in the controller state `st`. -/
def ControllerManager.EntrySkipped {T F B I K P : Type} (env : ControllerEnv F B I K P)
    (s : State T) (fuel : Nat) (target : NodePtr) (multi : Option Nat)
    (e : ControlledBlock B) (st : ControllerState F I K) : Prop :=
  (∀ b, InSubtree s target b →
    env.nodeName b ≠ ControlledBlock.pick e.nodeName e.nodeNameOffset) ∨
  ∃ node, node ≠ 0 ∧
    Node.findChild env.nodeName (ControlledBlock.pick e.nodeName e.nodeNameOffset) fuel target s =
      some node ∧
    (ControlledBlock.pick e.controllerType e.controllerTypeOffset = "NiTransformController" →
      ∀ m, multi = some m →
        (MultiTargetTransformController.setInterpolator env.isNiBlock env.newBSpline
          env.newTransform node e.interpolator st.extraTargets).1 = false) ∧
    Node.findController env.typeId env.propertyFindController
      (env.controllableFindController node) (env.properties node)
      (ControlledBlock.pick e.propertyType e.propertyTypeOffset)
      (ControlledBlock.pick e.controllerType e.controllerTypeOffset)
      (ControlledBlock.pick e.variable1 e.variable1Offset)
      (ControlledBlock.pick e.variable2 e.variable2Offset) = none

/-- What `Node::update` reads from the model for the block `iBlock`:
`nif->getBlockNumber( iBlock )`; the value of `flags.node.hidden` and of the other
bits of `flags.bits` after `flags.bits = nif->get<int>( iBlock, "Flags" )`;
`Transform( nif, iBlock )`; the content of the `PropertyList newProps` built by
the two loops over `"Properties"` and `"BS Properties"` (`Scene::getProperty` and
`PropertyList` are defined outside `glnode.cpp`); the links
`nif->getLink( iChildren.child( c, 0 ) )` of the rows of `"Children"` (`none` when
`iChildren` is invalid); and `nif->getChildLinks( .. )`. -/
structure NodeBlock (T : Type) where
  blockNumber : Int
  hidden : Bool
  otherFlags : Int
  local_ : T
  newProps : List Nat
  children : Option (List Int)
  childLinks : List Int

/-- Method `Node::clear`:
`Controllable::clear(); nodeId = 0; flags.bits = 0; local = Transform();
 children.clear(); properties.clear();`.
`Controllable::clear` is defined outside `glnode.cpp` and is a parameter;
`defaultTransform` is the default-constructed `Transform`. -/
def Node.clear {T : Type} (controllableClear : NodePtr → State T → Option (State T))
    (dtor : Dtor T) (defaultTransform : T) (this : NodePtr) (s : State T) : Option (State T) :=
  match controllableClear this s with
  | none => none
  | some s1 =>
    match s1.deref this with
    | none => none
    | some nd =>
      let s2 := s1.setNode this
        { nd with nodeId := 0, hidden := false, otherFlags := 0, local_ := defaultTransform }
      match NodeList.clear dtor (ListRef.children this) s2 with
      | none => none
      | some s3 =>
        match s3.deref this with
        | none => none
        | some nd3 => some (s3.setNode this { nd3 with properties := [] })

/-- The loop of `Node::update` over the rows of `"Children"`:
`qint32 link = ..; if ( lChildren.contains( link ) ) {
   Node * node = scene->getNode( nif, nif->getBlock( link ) );
   if ( node ) { node->makeParent( this ); } }`.
`Scene::getNode` is defined outside `glnode.cpp`; `sceneGetNode link` is its
effect for the block of `link`: the returned pointer and the new state. -/
def Node.updateChildren {T : Type}
    (sceneGetNode : Int → State T → Option (NodePtr × State T)) (dtor : Dtor T)
    (this : NodePtr) (lChildren : List Int) : List Int → State T → Option (State T)
  | [], s => some s
  | link :: rest, s =>
    if link ∈ lChildren then
      match sceneGetNode link s with
      | none => none
      | some (node, s1) =>
        if node ≠ 0 then
          match Node.makeParent dtor node this s1 with
          | none => none
          | some s2 => Node.updateChildren sceneGetNode dtor this lChildren rest s2
        else
          Node.updateChildren sceneGetNode dtor this lChildren rest s1
    else
      Node.updateChildren sceneGetNode dtor this lChildren rest s

/-- The end of `Node::update`, after `properties = newProps;`:
`children.clear(); QModelIndex iChildren = ..; QList<qint32> lChildren = ..;
 if ( iChildren.isValid() ) { (the loop over the rows) }`. -/
def Node.updateLinks {T : Type}
    (sceneGetNode : Int → State T → Option (NodePtr × State T)) (dtor : Dtor T)
    (this : NodePtr) (blk : NodeBlock T) (s : State T) : Option (State T) :=
  match NodeList.clear dtor (ListRef.children this) s with
  | none => none
  | some s3 =>
    match blk.children with
    | none => some s3
    | some rows => Node.updateChildren sceneGetNode dtor this blk.childLinks rows s3

/-- Method `Node::update( nif, index )`:
`Controllable::update( nif, index );
 if ( !iBlock.isValid() ) { clear(); return; }
 nodeId = nif->getBlockNumber( iBlock );
 if ( iBlock == index ) { flags.bits = ..; local = Transform( nif, iBlock ); }
 if ( iBlock == index || !index.isValid() ) {
   (build newProps) properties = newProps; children.clear(); (the loop over the rows) }`.
`Controllable::update` is defined outside `glnode.cpp` and is a parameter; `nif b`
is what the model yields for the block `b`; an invalid `index` is `none`. -/
def Node.update {T : Type}
    (controllableUpdate : NodePtr → Option Int → State T → Option (State T))
    (controllableClear : NodePtr → State T → Option (State T))
    (sceneGetNode : Int → State T → Option (NodePtr × State T))
    (dtor : Dtor T) (defaultTransform : T) (nif : Int → NodeBlock T)
    (this : NodePtr) (index : Option Int) (s : State T) : Option (State T) :=
  match controllableUpdate this index s with
  | none => none
  | some s1 =>
    match s1.deref this with
    | none => none
    | some nd =>
      match nd.iBlock with
      | none => Node.clear controllableClear dtor defaultTransform this s1
      | some b =>
        let nd1 : Node T := { nd with nodeId := (nif b).blockNumber }
        let nd2 : Node T :=
          if nd.iBlock = index then
            { nd1 with hidden := (nif b).hidden, otherFlags := (nif b).otherFlags,
                       local_ := (nif b).local_ }
          else
            nd1
        if nd.iBlock = index ∨ index = none then
          Node.updateLinks sceneGetNode dtor this (nif b)
            (s1.setNode this { nd2 with properties := (nif b).newProps })
        else
          some (s1.setNode this nd2)

/-- The members of a node that `NodeList` and `makeParent` leave alone: all but
`ref` and `parent`. -/
def Node.SameData {T : Type} (a b : Node T) : Prop :=
  b.nodeId = a.nodeId ∧ b.local_ = a.local_ ∧ b.hidden = a.hidden ∧
    b.otherFlags = a.otherFlags ∧ b.properties = a.properties ∧ b.iBlock = a.iBlock

/-- The nodes that the loop of `Node::update` attaches, in the order of the rows:
for every link of a row that `lChildren` contains, the node `getNode link` unless
it is null. -/
def Node.childNodes (getNode : Int → NodePtr) (lChildren rows : List Int) : List NodePtr :=
  ((rows.filter (fun link => decide (link ∈ lChildren))).map getNode).filter
    (fun n => decide (n ≠ 0))

/-- The node at `this`, if it is live in `s1`, was live in `s` with the same
members apart from `ref` and `parent`. -/
def State.KeepsData {T : Type} (this : NodePtr) (s s1 : State T) : Prop :=
  ∀ nd1, s1.node this = some nd1 → ∃ nd, s.node this = some nd ∧ Node.SameData nd nd1

/-- One call `n->makeParent( this )` on the children of `this`: `n` moves to the
end of the list. -/
def Node.moveToEnd (l : List NodePtr) (n : NodePtr) : List NodePtr :=
  l.filter (fun m => decide (m ≠ n)) ++ [n]

/-- Every member of the children of `this` is a live node whose parent is `this`. -/
def State.ChildrenPointBack {T : Type} (this : NodePtr) (s : State T) : Prop :=
  ∀ c, c ∈ s.list (ListRef.children this) → ∃ ndc, s.deref c = some ndc ∧ ndc.parent = this

/-- The hierarchy around the node `this` can be rebuilt: `this` is live, no list
belongs to the null pointer, every member of a children list is a live node
whose parent is the owner of the list, the parent of a live node is null or live,
and the reference count of every live node other than `this` exceeds the number
of its occurrences in the children of its parent (another owner, such as the node
list of the scene, holds it); for `this`, which may be a node under construction
that no list holds yet, this is required only when it is among the children of
its parent. -/
def State.Rebuildable {T : Type} (this : NodePtr) (s : State T) : Prop :=
  (∃ nd, s.deref this = some nd) ∧
  s.list (ListRef.children 0) = [] ∧
  (∀ p, State.ChildrenPointBack p s) ∧
  (∀ n nd, s.deref n = some nd → nd.parent ≠ 0 → ∃ po, s.deref nd.parent = some po) ∧
  (∀ n nd, s.deref n = some nd → (n ≠ this ∨ n ∈ s.list (ListRef.children nd.parent)) →
    ((s.list (ListRef.children nd.parent)).count n : Int) < nd.ref)

/-- What is assumed of `Scene::getNode` (defined outside `glnode.cpp`) during the
update of the node `this`: called for the block of a child link in a state in
which the hierarchy can be rebuilt, it returns the node `getNode link` that
stands for the block, found among the existing nodes or created (null when the
link resolves to no node), and leaves a state in which the hierarchy can still be
rebuilt, with the children and the data of `this` as they were and the returned
node live.  The node that stands for a child block is never `this` itself. -/
def Scene.GetNodeContract {T : Type}
    (sceneGetNode : Int → State T → Option (NodePtr × State T)) (getNode : Int → NodePtr)
    (this : NodePtr) : Prop :=
  ∀ link st, State.Rebuildable this st →
    getNode link ≠ this ∧
    ∃ st1, sceneGetNode link st = some (getNode link, st1) ∧
      State.Rebuildable this st1 ∧
      st1.list (ListRef.children this) = st.list (ListRef.children this) ∧
      State.KeepsData this st st1 ∧
      (getNode link ≠ 0 → ∃ nd, st1.deref (getNode link) = some nd)

/-- A destructor without side effects on other nodes (a node without children). -/
def leafDtor {T : Type} : Dtor T := fun _ s => s.node

/-- Example heap: node `1` with reference count `r1`, held in no list. -/
def exState1 (r1 : Int) : State Int where
  node := fun p => if p = 1 then some { ref := r1, local_ := 0 } else none
  list := fun _ => []
  view := 0
  worldTrans := fun _ => none
  viewTrans := fun _ => none

/-- Example heap: node `1` with reference count `r1`, already the only member
of the external list `0`. -/
def exState1In (r1 : Int) : State Int where
  node := fun p => if p = 1 then some { ref := r1, local_ := 0 } else none
  list := fun L => if L = ListRef.external 0 then [1] else []
  view := 0
  worldTrans := fun _ => none
  viewTrans := fun _ => none

/-- Example heap: node `1` with reference count `r1` and node `2` with reference
count 1; the external list `0` is `[1, 2, 1]`. -/
def exStateDup (r1 : Int) : State Int where
  node := fun p =>
    if p = 1 then some { ref := r1, local_ := 0 }
    else if p = 2 then some { ref := 1, local_ := 0 } else none
  list := fun L => if L = ListRef.external 0 then [1, 2, 1] else []
  view := 0
  worldTrans := fun _ => none
  viewTrans := fun _ => none

/-- Example hierarchy: node `1` is the parent of nodes `2` and `3`, in this
order; both children are also held by another owner (reference count 2). -/
def exFamily : State Int where
  node := fun p =>
    if p = 1 then some { ref := 1, local_ := 0 }
    else if p = 2 then some { ref := 2, parent := 1, local_ := 0 }
    else if p = 3 then some { ref := 2, parent := 1, local_ := 0 } else none
  list := fun L => if L = ListRef.children 1 then [2, 3] else []
  view := 0
  worldTrans := fun _ => none
  viewTrans := fun _ => none

/-- Example heap: the live nodes `1`, `2`, `3`, each held by one outside owner
(reference count 1), none of them with a parent or a child. -/
def exParentless : State Int where
  node := fun p => if p = 1 ∨ p = 2 ∨ p = 3 then some { ref := 1, local_ := 0 } else none
  list := fun _ => []
  view := 0
  worldTrans := fun _ => none
  viewTrans := fun _ => none

/-- Example draw list: nodes `1` and `2` are opaque, nodes `3` and `4` have an
`AlphaProperty`. -/
def exAlpha : NodePtr → Bool := fun p => decide (3 ≤ p)

/-- Example draw list: the third component of `center()` is 5 for node `1`, 1 for
node `2`, 3 for node `3` and 8 for node `4`. -/
def exCenterZ : NodePtr → Int := fun p =>
  if p = 1 then 5 else if p = 2 then 1 else if p = 3 then 3 else 8

/-- Example chain: node `1` is the root, node `2` its child, node `3` the child
of `2`; the local transforms are 2, 3 and 5, the node ids 1, 2 and 3, and both
caches are empty. -/
def exChain : State Int where
  node := fun p =>
    if p = 1 then some { ref := 1, nodeId := 1, local_ := 2 }
    else if p = 2 then some { ref := 2, parent := 1, nodeId := 2, local_ := 3 }
    else if p = 3 then some { ref := 2, parent := 2, nodeId := 3, local_ := 5 } else none
  list := fun L =>
    if L = ListRef.children 1 then [2] else if L = ListRef.children 2 then [3] else []
  view := 1
  worldTrans := fun _ => none
  viewTrans := fun _ => none

/-- Example chain with flags: as `exChain`, with the hidden flag of the root
`1` set and the flags of nodes `2` and `3` clear. -/
def exHiddenChain : State Int where
  node := fun p =>
    if p = 1 then some { ref := 1, nodeId := 1, local_ := 2, hidden := true }
    else if p = 2 then some { ref := 2, parent := 1, nodeId := 2, local_ := 3 }
    else if p = 3 then some { ref := 2, parent := 2, nodeId := 3, local_ := 5 } else none
  list := fun L =>
    if L = ListRef.children 1 then [2] else if L = ListRef.children 2 then [3] else []
  view := 1
  worldTrans := fun _ => none
  viewTrans := fun _ => none

/-- Example composition of transforms with one-dimensional rotations: the
rotations and the scales multiply, and the translation of the right factor is
rotated and scaled by the left factor and added to its translation. -/
instance exTransformMul : Mul (Transform (Vector3 Int) Int Int) where
  mul a b :=
    { rotation := a.rotation * b.rotation
      translation :=
        { x := a.translation.x + a.rotation * a.scale * b.translation.x
          y := a.translation.y + a.rotation * a.scale * b.translation.y
          z := a.translation.z + a.rotation * a.scale * b.translation.z }
      scale := a.scale * b.scale }

/-- Example scene: the root `1` (id 7, translation (1, 2, 3), rotation 2, scale
1) and its child `2`, a billboard (id 8, translation (10, 20, 30), rotation 3,
scale 1); the view is the identity and both caches are empty. -/
def exBillboard : State (Transform (Vector3 Int) Int Int) where
  node := fun p =>
    if p = 1 then
      some { ref := 1, nodeId := 7,
             local_ := { rotation := 2, translation := { x := 1, y := 2, z := 3 }, scale := 1 } }
    else if p = 2 then
      some { ref := 2, parent := 1, nodeId := 8, billboard := true,
             local_ := { rotation := 3, translation := { x := 10, y := 20, z := 30 },
                         scale := 1 } }
    else none
  list := fun L => if L = ListRef.children 1 then [2] else []
  view := { rotation := 1, translation := { x := 0, y := 0, z := 0 }, scale := 1 }
  worldTrans := fun _ => none
  viewTrans := fun _ => none

/-- Example LOD node: the root `1` with the children `2` and `3`; every local
transform and the view are the identity; the hidden flag of `2` is set and that
of `3` is clear before the pass. -/
def exLOD : State (Transform (Vector3 Int) Int Int) where
  node := fun p =>
    if p = 1 then
      some { ref := 1, nodeId := 1,
             local_ := { rotation := 1, translation := { x := 0, y := 0, z := 0 }, scale := 1 } }
    else if p = 2 then
      some { ref := 2, parent := 1, nodeId := 2, hidden := true,
             local_ := { rotation := 1, translation := { x := 0, y := 0, z := 0 }, scale := 1 } }
    else if p = 3 then
      some { ref := 2, parent := 1, nodeId := 3,
             local_ := { rotation := 1, translation := { x := 0, y := 0, z := 0 }, scale := 1 } }
    else none
  list := fun L => if L = ListRef.children 1 then [2, 3] else []
  view := { rotation := 1, translation := { x := 0, y := 0, z := 0 }, scale := 1 }
  worldTrans := fun _ => none
  viewTrans := fun _ => none

/-- Example distance: the first component of the transformed centre (a length
along one axis, for centres on its positive side). -/
def exDistance (vt : Transform (Vector3 Int) Int Int) (c : Vector3 Int) : Int :=
  vt.translation.x + vt.rotation * vt.scale * c.x

/-- Example ranges: the two levels `[0, 10)` and `[10, 100)`. -/
def exRanges : List (Int × Int) := [(0, 10), (10, 100)]

/-- The hidden flags of the nodes `2` and `3` in a result of `LODNode::transform`. -/
def exFlags (r : Option (State (Transform (Vector3 Int) Int Int) ×
    List (Int × Transform (Vector3 Int) Int Int))) : Option (Bool × Bool) :=
  match r with
  | none => none
  | some (s, _) => some (s.hiddenFlag 2, s.hiddenFlag 3)

/-- Example scene: the parentless nodes `1` (id 1001) and `2` (id 2000) with the
same local transform, hence the same world origin (4, 5, 6), and the node `3`
with the id 0 of a freshly constructed node. -/
def exFarIds : State (Transform (Vector3 Int) Int Int) where
  node := fun p =>
    if p = 1 then
      some { ref := 1, nodeId := 1001,
             local_ := { rotation := 1, translation := { x := 4, y := 5, z := 6 }, scale := 1 } }
    else if p = 2 then
      some { ref := 1, nodeId := 2000,
             local_ := { rotation := 1, translation := { x := 4, y := 5, z := 6 }, scale := 1 } }
    else if p = 3 then
      some { ref := 1, nodeId := 0,
             local_ := { rotation := 1, translation := { x := 4, y := 5, z := 6 }, scale := 1 } }
    else none
  list := fun _ => []
  view := { rotation := 1, translation := { x := 0, y := 0, z := 0 }, scale := 1 }
  worldTrans := fun _ => none
  viewTrans := fun _ => none

/-- Example scene: as `exBillboard`, with the plain node `3` (id 9, translation
(100, 200, 300), rotation 1, scale 1) as the child of the billboard `2`. -/
def exBillboardChild : State (Transform (Vector3 Int) Int Int) where
  node := fun p =>
    if p = 1 then
      some { ref := 1, nodeId := 7,
             local_ := { rotation := 2, translation := { x := 1, y := 2, z := 3 }, scale := 1 } }
    else if p = 2 then
      some { ref := 2, parent := 1, nodeId := 8, billboard := true,
             local_ := { rotation := 3, translation := { x := 10, y := 20, z := 30 },
                         scale := 1 } }
    else if p = 3 then
      some { ref := 2, parent := 2, nodeId := 9,
             local_ := { rotation := 1, translation := { x := 100, y := 200, z := 300 },
                         scale := 1 } }
    else none
  list := fun L =>
    if L = ListRef.children 1 then [2] else if L = ListRef.children 2 then [3] else []
  view := { rotation := 1, translation := { x := 0, y := 0, z := 0 }, scale := 1 }
  worldTrans := fun _ => none
  viewTrans := fun _ => none

/-- Example calls on the two external lists `0` and `1`: three `add` (the third
one of a node already held), an assignment, a sort, a `validate` for which only
node `1` is invalid, a `del` and a `clear`. -/
def exListOps : List (ListOp Int) :=
  [ListOp.add (ListRef.external 0) 1, ListOp.add (ListRef.external 0) 2,
   ListOp.add (ListRef.external 0) 1, ListOp.add (ListRef.external 0) 0,
   ListOp.assign (ListRef.external 1) (ListRef.external 0),
   ListOp.sort (ListRef.external 0) exAlpha exCenterZ,
   ListOp.validate (ListRef.external 1) (fun p => decide (p ≠ 1)),
   ListOp.del (ListRef.external 0) 2, ListOp.clear (ListRef.external 0),
   ListOp.add (ListRef.external 0) 3]

/-- Example shape graph on the blocks `0 .. 3`: block `0` is a list shape with
the rows `1`, an invalid link, `2` and `0` itself; block `1` is a transform shape
around block `0` (a cycle); block `2` is a MOPP tree around the sphere `3`. -/
def exShapes : NifModel where
  itemName := fun b =>
    if b = 0 then "bhkListShape" else if b = 1 then "bhkTransformShape"
    else if b = 2 then "bhkMoppBvTreeShape" else "bhkSphereShape"
  subShapes := fun b => if b = 0 then some [some 1, none, some 2, some 0] else none
  shapeLink := fun b => if b = 1 then some 0 else if b = 2 then some 3 else none

/-- Example links of `"Controller Sequences"`: the sequence `Idle` with two text
keys, an invalid link, the sequence `Walk`, and `Idle` once more with another key. -/
def exSequences : List (Option (String × List (String × Int))) :=
  [some ("Idle", [("start", 0), ("end", 10)]), none, some ("Walk", [("start", 0)]),
   some ("Idle", [("start", 5)])]

/-- Example registry: the group `Walk` is known, with the tag `loop`. -/
def exRegistry : AnimRegistry Int where
  animGroups := ["Walk"]
  animTags := fun n =>
    if n = "Walk" then some (fun k => if k = "loop" then some 3 else none) else none

/-- Example names of the nodes of `exFamily`. -/
def exNodeName : NodePtr → String := fun p =>
  if p = 1 then "Scene Root" else if p = 2 then "Bip01" else if p = 3 then "Bip01 Head" else ""

/-- Example environment: blocks and interpolators are numbers; the only
controller that `findController` finds is the controller `7` of node `3`, for the
controller type `NiVisController`; the virtual `setInterpolator` records its call. -/
def exControllerEnv : ControllerEnv Int Nat Nat (List (Nat × Option Nat)) Nat where
  nodeName := exNodeName
  isNiBlock := fun _ t => decide (t = "NiTransformInterpolator")
  newBSpline := fun b => b + 100
  newTransform := fun b => b + 200
  properties := fun _ => []
  typeId := fun _ => ""
  propertyFindController := fun _ _ _ _ => none
  controllableFindController := fun n ctrltype _ _ =>
    if n = 3 ∧ ctrltype = "NiVisController" then some 7 else none
  setInterpolator := fun c i st => { st with other := st.other ++ [(c, i)] }

/-- Example row for the node named `name` and the controller type `ctrltype`, with
the interpolator block `i`. -/
def exBlock (name ctrltype : String) (i : Nat) : ControlledBlock Nat where
  interpolator := some i
  nodeName := name
  nodeNameOffset := ""
  propertyType := ""
  propertyTypeOffset := ""
  controllerType := ""
  controllerTypeOffset := ctrltype
  variable1 := ""
  variable1Offset := ""
  variable2 := ""
  variable2Offset := ""

/-- Example controller state: the manager at address `4` has the timing
(1, 2, 3, 4), every other controller (0, 0, 0, 0); the multi-target controller
has node `2` as its only extra target. -/
def exControllerState : ControllerState Int Nat (List (Nat × Option Nat)) where
  timing := fun c =>
    if c = 4 then { start := 1, stop := 2, phase := 3, frequency := 4 }
    else { start := 0, stop := 0, phase := 0, frequency := 0 }
  extraTargets := [(2, none)]
  other := []

/-- What is compared of a controller state in the examples: the timing of the
controllers `5` and `7`, `extraTargets` and the recorded calls. -/
def exObserve (st : ControllerState Int Nat (List (Nat × Option Nat))) :
    Timing Int × Timing Int × List (NodePtr × Option Nat) × List (Nat × Option Nat) :=
  (st.timing 5, st.timing 7, st.extraTargets, st.other)

/-- Example scene for `Node::update`: node `1` is backed by block 10, is hidden,
has the local transform 5 and the property `20`, and is the parent of the nodes
`2` and `3`, which the scene holds as well; there is no node `4` yet. -/
def exUpdateScene : State Int where
  node := fun p =>
    if p = 1 then
      some { ref := 1, local_ := 5, hidden := true, otherFlags := 3, iBlock := some 10,
             properties := [20] }
    else if p = 2 then some { ref := 2, parent := 1, local_ := 0 }
    else if p = 3 then some { ref := 2, parent := 1, local_ := 0 } else none
  list := fun L => if L = ListRef.children 1 then [2, 3] else []
  view := 0
  worldTrans := fun _ => none
  viewTrans := fun _ => none

/-- Example model: every block reads as block 10 with clear flags, the local
transform 77, the properties `21` and `22`, and the child rows 12, 14, 99, 12, of
which 99 is not among the child links. -/
def exNif : Int → NodeBlock Int := fun _ =>
  { blockNumber := 10, hidden := false, otherFlags := 8, local_ := 77, newProps := [21, 22],
    children := some [12, 14, 99, 12], childLinks := [12, 14, 13] }

/-- Example nodes of the blocks: the blocks 12, 13, 14 are stood for by the nodes
`2`, `3`, `4`; any other link resolves to no node. -/
def exGetNode : Int → NodePtr := fun l =>
  if l = 12 then 2 else if l = 13 then 3 else if l = 14 then 4 else 0

/-- Example `Scene::getNode`, a lookup that creates what it does not find: the node
of the block is returned when it is live; otherwise a node is created at its
address and added to the node list of the scene (the external list `0`), which
holds it with reference count 1. -/
def exSceneGetNode (link : Int) (st : State Int) : Option (NodePtr × State Int) :=
  if exGetNode link = 0 then
    some (0, st)
  else
    match st.deref (exGetNode link) with
    | some _ => some (exGetNode link, st)
    | none =>
      some (exGetNode link,
        (st.setNode (exGetNode link) { ref := 1, local_ := 0 }).setList (ListRef.external 0)
          (st.list (ListRef.external 0) ++ [exGetNode link]))

/-- Example scene with a nested LOD node: the root `1` has the children `2` and
`3`, and node `2` has the children `4` and `5`; every local transform and the
view are the identity; the hidden flags of `2` and `4` are set and those of `3`
and `5` are clear before the pass. -/
def exNestedLOD : State (Transform (Vector3 Int) Int Int) where
  node := fun p =>
    if p = 1 then
      some { ref := 1, nodeId := 1,
             local_ := { rotation := 1, translation := { x := 0, y := 0, z := 0 }, scale := 1 } }
    else if p = 2 then
      some { ref := 2, parent := 1, nodeId := 2, hidden := true,
             local_ := { rotation := 1, translation := { x := 0, y := 0, z := 0 }, scale := 1 } }
    else if p = 3 then
      some { ref := 2, parent := 1, nodeId := 3,
             local_ := { rotation := 1, translation := { x := 0, y := 0, z := 0 }, scale := 1 } }
    else if p = 4 then
      some { ref := 2, parent := 2, nodeId := 4, hidden := true,
             local_ := { rotation := 1, translation := { x := 0, y := 0, z := 0 }, scale := 1 } }
    else if p = 5 then
      some { ref := 2, parent := 2, nodeId := 5,
             local_ := { rotation := 1, translation := { x := 0, y := 0, z := 0 }, scale := 1 } }
    else none
  list := fun L =>
    if L = ListRef.children 1 then [2, 3] else if L = ListRef.children 2 then [4, 5] else []
  view := { rotation := 1, translation := { x := 0, y := 0, z := 0 }, scale := 1 }
  worldTrans := fun _ => none
  viewTrans := fun _ => none

/-- Example classes: every node is a plain `Node`. -/
def exPlain : NodePtr → NodeClass (Vector3 Int) Int := fun _ => NodeClass.node

/-- Example classes for `exNestedLOD`: node `2` is an `LODNode` without ranges,
every other node a plain `Node`. -/
def exNestedClass : NodePtr → NodeClass (Vector3 Int) Int := fun p =>
  if p = 2 then NodeClass.lod { x := 0, y := 0, z := 0 } [] else NodeClass.node

/-- The virtual `transform()` of the examples: `Controllable::transform` changes
nothing, no node has a rigid body, and no class from outside is involved. -/
def exTransformVirtual (classOf : NodePtr → NodeClass (Vector3 Int) Int) :
    Nat → NodePtr → State (Transform (Vector3 Int) Int Int) →
      Option (State (Transform (Vector3 Int) Int Int) ×
        List (Int × Transform (Vector3 Int) Int Int)) :=
  transformVirtual 1 (fun _ s => some s) (fun _ _ => none) classOf (fun _ s => some (s, []))
    exDistance 2

/-- The hidden flags of the nodes `2`, `3`, `4` and `5` in a result of the
transform pass. -/
def exFlags4 (r : Option (State (Transform (Vector3 Int) Int Int) ×
    List (Int × Transform (Vector3 Int) Int Int))) : Option (Bool × Bool × Bool × Bool) :=
  match r with
  | none => none
  | some (s, _) => some (s.hiddenFlag 2, s.hiddenFlag 3, s.hiddenFlag 4, s.hiddenFlag 5)

/-! ## Basic facts about the heap -/

theorem State.deref_eq_some {T : Type} {s : State T} {n : NodePtr} {nd : Node T}
    (h : s.deref n = some nd) : n ≠ 0 ∧ s.node n = some nd := by
  unfold State.deref at h
  by_cases h0 : n = 0
  · simp [h0] at h
  · simp [h0] at h
    exact ⟨h0, h⟩

theorem State.deref_of_ne_zero {T : Type} (s : State T) {n : NodePtr} (h : n ≠ 0) :
    s.deref n = s.node n := by
  simp [State.deref, h]

theorem State.ext_fields {T : Type} {s t : State T} (h1 : s.node = t.node) (h2 : s.list = t.list)
    (h3 : s.view = t.view) (h4 : s.worldTrans = t.worldTrans) (h5 : s.viewTrans = t.viewTrans) :
    s = t := by
  cases s; cases t; simp_all

theorem filter_ne_append_self (l : List NodePtr) (n : NodePtr) (h : n ∉ l) :
    (l ++ [n]).filter (fun m => decide (m ≠ n)) = l := by
  have h1 : l.filter (fun m => decide (m ≠ n)) = l := by
    apply List.filter_eq_self.mpr
    intro a ha
    have : a ≠ n := fun e => h (e ▸ ha)
    simpa using this
  rw [List.filter_append, h1]
  simp

theorem count_append_self (l : List NodePtr) (n : NodePtr) (h : n ∉ l) :
    (l ++ [n]).count n = 1 := by
  simp [List.count_append, List.count_eq_zero_of_not_mem h]

/-! ## `NodeList::add` and `NodeList::del` -/

theorem NodeList.add_noop {T : Type} (L : ListRef) (n : NodePtr) (s : State T)
    (h : n = 0 ∨ n ∈ s.list L) : NodeList.add L n s = some s := by
  unfold NodeList.add
  rcases h with h | h
  · simp [h]
  · simp [h]

theorem NodeList.add_fresh {T : Type} (L : ListRef) (n : NodePtr) (s : State T) (nd : Node T)
    (hd : s.deref n = some nd) (h : n ∉ s.list L) :
    NodeList.add L n s =
      some ((s.setNode n { nd with ref := nd.ref + 1 }).setList L (s.list L ++ [n])) := by
  unfold NodeList.add
  have h0 := (State.deref_eq_some hd).1
  simp [h0, h, hd]

theorem NodeList.del_absent {T : Type} (dtor : Dtor T) (L : ListRef) (n : NodePtr) (s : State T)
    (h : n ∉ s.list L) : NodeList.del dtor L n s = some s := by
  unfold NodeList.del
  simp [h]

theorem NodeList.del_keep {T : Type} (dtor : Dtor T) (L : ListRef) (n : NodePtr) (s : State T)
    (nd : Node T) (hd : s.deref n = some nd) (h : n ∈ s.list L)
    (hr : ((s.list L).count n : Int) < nd.ref) :
    NodeList.del dtor L n s =
      some ((s.setList L ((s.list L).filter (fun m => decide (m ≠ n)))).setNode n
        { nd with ref := nd.ref - ((s.list L).count n : Int) }) := by
  unfold NodeList.del
  have hd1 : (s.setList L ((s.list L).filter (fun m => decide (m ≠ n)))).deref n = some nd := by
    simpa [State.deref, State.setList] using hd
  simp only [h, if_true, hd1]
  rw [if_neg (not_le.mpr hr)]

theorem NodeList.del_destroy {T : Type} (dtor : Dtor T) (L : ListRef) (n : NodePtr) (s : State T)
    (nd : Node T) (hd : s.deref n = some nd) (h : n ∈ s.list L)
    (hr : nd.ref ≤ ((s.list L).count n : Int)) :
    NodeList.del dtor L n s =
      some (deleteNode dtor n (s.setList L ((s.list L).filter (fun m => decide (m ≠ n))))) := by
  unfold NodeList.del
  have hd1 : (s.setList L ((s.list L).filter (fun m => decide (m ≠ n)))).deref n = some nd := by
    simpa [State.deref, State.setList] using hd
  simp only [h, if_true, hd1]
  rw [if_pos hr]

theorem length_filter_ne_add_count (l : List NodePtr) (n : NodePtr) :
    (l.filter (fun m => decide (m ≠ n))).length + l.count n = l.length := by
  induction l with
  | nil => simp
  | cons a l ih =>
    by_cases h : a = n
    · subst h
      simp only [ne_eq, decide_not] at ih
      simp [List.filter_cons]
      omega
    · have h' : (a == n) = false := by simpa using h
      simp only [ne_eq, decide_not] at ih
      simp [List.filter_cons, h, List.count_cons, h']
      omega

theorem not_mem_filter_ne (l : List NodePtr) (n : NodePtr) :
    n ∉ l.filter (fun m => decide (m ≠ n)) := by
  simp [List.mem_filter]

/-- C3: `add(n)` leaves the list and every node (hence every reference count)
unchanged when `n` is null or already occurs in `L`; for a live node `n` that does
not occur in `L` it appends `n` as the last element of `L`, keeping the earlier
elements in order, raises the reference count of `n` by exactly 1 and touches no
other node and no other list. -/
theorem C3_add_noop_or_append {T : Type} (L : ListRef) (n : NodePtr) (s : State T) :
    ((n = 0 ∨ n ∈ s.list L) → NodeList.add L n s = some s) ∧
    (∀ nd, s.deref n = some nd → n ∉ s.list L →
      ∃ s', NodeList.add L n s = some s' ∧
        s'.list L = s.list L ++ [n] ∧
        s'.node n = some { nd with ref := nd.ref + 1 } ∧
        (∀ m, m ≠ n → s'.node m = s.node m) ∧
        (∀ L', L' ≠ L → s'.list L' = s.list L')) := by
  refine ⟨NodeList.add_noop L n s, ?_⟩
  intro nd hd hnot
  refine ⟨_, NodeList.add_fresh L n s nd hd hnot, ?_, ?_, ?_, ?_⟩
  · simp [State.setList]
  · simp [State.setList, State.setNode]
  · intro m hm
    simp [State.setList, State.setNode, Function.update_noteq hm]
  · intro L' hL
    simp [State.setList, State.setNode, Function.update_noteq hL]

/-- C3 at a concrete input: adding node `1` (reference count 1) to the empty list
gives the list `[1]` and reference count 2; adding it again changes nothing. -/
theorem C3_add_noop_or_append_witness :
    (∃ s', NodeList.add (ListRef.external 0) 1 (exState1 1) = some s' ∧
        s'.list (ListRef.external 0) = [] ++ [1] ∧
        s'.node 1 = some { ref := 1 + 1, local_ := 0 } ∧
        (∀ m, m ≠ 1 → s'.node m = (exState1 1).node m) ∧
        (∀ L', L' ≠ ListRef.external 0 → s'.list L' = (exState1 1).list L')) ∧
    NodeList.add (ListRef.external 0) 1 (exState1In 2) = some (exState1In 2) :=
  ⟨(C3_add_noop_or_append (ListRef.external 0) 1 (exState1 1)).2
      { ref := 1, local_ := 0 } rfl (by decide),
   (C3_add_noop_or_append (ListRef.external 0) 1 (exState1In 2)).1 (Or.inr (by decide))⟩

/-- C4: when `n` does not occur in `L`, `del(n)` changes nothing.  When the live
node `n` occurs `k >= 1` times in `L`, `del(n)` removes all `k` occurrences and
keeps the other elements in their order; `n` is destroyed exactly when its
reference count before the call is at most `k`, and otherwise its reference
count drops by `k` while every other node and every other list is untouched. -/
theorem C4_del_removes_all {T : Type} (dtor : Dtor T) (L : ListRef) (n : NodePtr)
    (s : State T) :
    (n ∉ s.list L → NodeList.del dtor L n s = some s) ∧
    (∀ nd, s.deref n = some nd → n ∈ s.list L →
      ∃ s', NodeList.del dtor L n s = some s' ∧
        s'.list L = (s.list L).filter (fun m => decide (m ≠ n)) ∧
        n ∉ s'.list L ∧
        (s'.list L).length + (s.list L).count n = (s.list L).length ∧
        (s'.deref n = none ↔ nd.ref ≤ ((s.list L).count n : Int)) ∧
        (((s.list L).count n : Int) < nd.ref →
          s'.node n = some { nd with ref := nd.ref - ((s.list L).count n : Int) } ∧
          (∀ m, m ≠ n → s'.node m = s.node m) ∧
          (∀ L', L' ≠ L → s'.list L' = s.list L'))) := by
  refine ⟨NodeList.del_absent dtor L n s, ?_⟩
  intro nd hd hmem
  have hn0 := (State.deref_eq_some hd).1
  by_cases hr : nd.ref ≤ ((s.list L).count n : Int)
  · refine ⟨_, NodeList.del_destroy dtor L n s nd hd hmem hr, ?_, ?_, ?_, ?_, ?_⟩
    · simp [deleteNode, State.setList]
    · simp [deleteNode, State.setList]
    · simpa [deleteNode, State.setList] using length_filter_ne_add_count (s.list L) n
    · simp [deleteNode, State.deref, hr]
    · intro h
      exact absurd hr (not_le.mpr h)
  · have hr' := not_le.mp hr
    refine ⟨_, NodeList.del_keep dtor L n s nd hd hmem hr', ?_, ?_, ?_, ?_, ?_⟩
    · simp [State.setNode, State.setList]
    · simp [State.setNode, State.setList]
    · simpa [State.setNode, State.setList] using length_filter_ne_add_count (s.list L) n
    · simp [State.setNode, State.setList, State.deref, hn0, hr]
    · intro _
      refine ⟨by simp [State.setNode, State.setList], ?_, ?_⟩
      · intro m hm
        simp [State.setNode, State.setList, Function.update_noteq hm]
      · intro L' hL
        simp [State.setNode, State.setList, Function.update_noteq hL]

/-- C4 at concrete inputs: from the list `[1, 2, 1]` the call `del(1)` leaves
`[2]`; with reference count 3 node `1` survives with count 1, with reference
count 2 it is destroyed. -/
theorem C4_del_removes_all_witness :
    (∃ s', NodeList.del leafDtor (ListRef.external 0) 1 (exStateDup 3) = some s' ∧
        s'.list (ListRef.external 0) = [2] ∧ s'.node 1 = some { ref := 1, local_ := 0 }) ∧
    (∃ s', NodeList.del leafDtor (ListRef.external 0) 1 (exStateDup 2) = some s' ∧
        s'.list (ListRef.external 0) = [2] ∧ s'.deref 1 = none) := by
  constructor
  · obtain ⟨s', h1, h2, _, _, _, h6⟩ :=
      (C4_del_removes_all leafDtor (ListRef.external 0) 1 (exStateDup 3)).2
        { ref := 3, local_ := 0 } rfl (by decide)
    exact ⟨s', h1, h2, (h6 (by decide)).1⟩
  · obtain ⟨s', h1, h2, _, _, h5, _⟩ :=
      (C4_del_removes_all leafDtor (ListRef.external 0) 1 (exStateDup 2)).2
        { ref := 2, local_ := 0 } rfl (by decide)
    exact ⟨s', h1, h2, h5.mpr (by decide)⟩

/-- After `add(n)` of a live node that was not in `L`, `del(n)` finds exactly one
occurrence; with a reference count of at least 1 before the `add` the state is
the one before the `add`. -/
theorem NodeList.del_after_add {T : Type} (dtor : Dtor T) (L : ListRef) (n : NodePtr)
    (s : State T) (nd : Node T) (hd : s.deref n = some nd) (hnot : n ∉ s.list L)
    (hr : 1 ≤ nd.ref) :
    NodeList.del dtor L n
      ((s.setNode n { nd with ref := nd.ref + 1 }).setList L (s.list L ++ [n])) = some s := by
  have hn := State.deref_eq_some hd
  have hd' : ((s.setNode n { nd with ref := nd.ref + 1 }).setList L (s.list L ++ [n])).deref n =
      some { nd with ref := nd.ref + 1 } := by
    simp [State.deref, State.setList, State.setNode, hn.1]
  have hl : ((s.setNode n { nd with ref := nd.ref + 1 }).setList L (s.list L ++ [n])).list L =
      s.list L ++ [n] := by
    simp [State.setList]
  rw [NodeList.del_keep dtor L n _ _ hd' (by rw [hl]; simp)
    (by rw [hl, count_append_self _ _ hnot]; simp; omega)]
  congr 1
  apply State.ext_fields
  · funext m
    by_cases hm : m = n
    · subst hm
      simp [State.setList, State.setNode, hl, count_append_self _ _ hnot, hn.2]
    · simp [State.setList, State.setNode, Function.update_noteq hm]
  · funext L'
    by_cases hL : L' = L
    · subst hL
      simpa [State.setList, State.setNode] using filter_ne_append_self _ _ hnot
    · simp [State.setList, State.setNode, Function.update_noteq hL]
  · rfl
  · rfl
  · rfl

/-- After `add(n)` of a live node that was not in `L` and had a reference count
of at most 0, `del(n)` destroys `n`. -/
theorem NodeList.del_after_add_destroys {T : Type} (dtor : Dtor T) (L : ListRef) (n : NodePtr)
    (s : State T) (nd : Node T) (hd : s.deref n = some nd) (hnot : n ∉ s.list L)
    (hr : nd.ref ≤ 0) :
    ∃ s3, NodeList.del dtor L n
      ((s.setNode n { nd with ref := nd.ref + 1 }).setList L (s.list L ++ [n])) = some s3 ∧
      s3.list L = s.list L ∧ s3.deref n = none := by
  have hn := State.deref_eq_some hd
  have hd' : ((s.setNode n { nd with ref := nd.ref + 1 }).setList L (s.list L ++ [n])).deref n =
      some { nd with ref := nd.ref + 1 } := by
    simp [State.deref, State.setList, State.setNode, hn.1]
  have hl : ((s.setNode n { nd with ref := nd.ref + 1 }).setList L (s.list L ++ [n])).list L =
      s.list L ++ [n] := by
    simp [State.setList]
  refine ⟨_, NodeList.del_destroy dtor L n _ _ hd' (by rw [hl]; simp)
    (by rw [hl, count_append_self _ _ hnot]; simp; omega), ?_, ?_⟩
  · simpa [deleteNode, State.setList, State.setNode] using filter_ne_append_self _ _ hnot
  · simp [deleteNode, State.deref]

/-- C1, as stated, fails: node `1` (reference count 1) is not a member of the
empty list; after `add(1)`, `add(1)` it is a member with reference count 2, and
after the following `del(1)` it is not a member any more (its count is back to 1). -/
theorem C1_counterexample :
    (1 ∉ (exState1 1).list (ListRef.external 0)) ∧
    ((NodeList.add (ListRef.external 0) 1 (exState1 1)).bind
        (fun s1 => NodeList.add (ListRef.external 0) 1 s1)).map
      (fun s2 => (s2.list (ListRef.external 0), (s2.node 1).map (fun nd => nd.ref))) =
      some ([1], some 2) ∧
    ((NodeList.add (ListRef.external 0) 1 (exState1 1)).bind
        (fun s1 => (NodeList.add (ListRef.external 0) 1 s1).bind
          (fun s2 => NodeList.del leafDtor (ListRef.external 0) 1 s2))).map
      (fun s3 => (decide (1 ∈ s3.list (ListRef.external 0)), (s3.node 1).map (fun nd => nd.ref))) =
      some (false, some 1) := by
  decide

/-- C1, amended: for a live node `n` that is not a member of `L`, the second
`add(n)` is a no-op, so after `add(n)`, `add(n)` the node occurs once and its
reference count is one higher; the following `del(n)` removes it, so `n` is no
longer a member and `L` is as before the adds.  When the reference count before
the adds was at least 1 the node is back at that count, one lower than after the
two adds; when it was at most 0 the node is destroyed. -/
theorem C1_add_add_del_removes {T : Type} (dtor : Dtor T) (L : ListRef) (n : NodePtr)
    (s : State T) (nd : Node T) (hd : s.deref n = some nd) (hnot : n ∉ s.list L) :
    ∃ s2, (NodeList.add L n s).bind (fun s1 => NodeList.add L n s1) = some s2 ∧
      s2.list L = s.list L ++ [n] ∧
      s2.node n = some { nd with ref := nd.ref + 1 } ∧
      ∃ s3, NodeList.del dtor L n s2 = some s3 ∧
        n ∉ s3.list L ∧ s3.list L = s.list L ∧
        (1 ≤ nd.ref → s3.node n = some nd ∧ nd.ref < nd.ref + 1) ∧
        (nd.ref ≤ 0 → s3.deref n = none) := by
  have hn := State.deref_eq_some hd
  have hl : ((s.setNode n { nd with ref := nd.ref + 1 }).setList L (s.list L ++ [n])).list L =
      s.list L ++ [n] := by
    simp [State.setList]
  refine ⟨(s.setNode n { nd with ref := nd.ref + 1 }).setList L (s.list L ++ [n]), ?_, hl, ?_, ?_⟩
  · rw [NodeList.add_fresh L n s nd hd hnot]
    simp only [Option.some_bind]
    exact NodeList.add_noop L n _ (Or.inr (by rw [hl]; simp))
  · simp [State.setList, State.setNode]
  · by_cases hr : 1 ≤ nd.ref
    · refine ⟨s, NodeList.del_after_add dtor L n s nd hd hnot hr, hnot, rfl, ?_, ?_⟩
      · intro _
        exact ⟨hn.2, by omega⟩
      · intro h0
        omega
    · obtain ⟨s3, h1, h2, h3⟩ :=
        NodeList.del_after_add_destroys dtor L n s nd hd hnot (by omega)
      refine ⟨s3, h1, by rw [h2]; exact hnot, h2, ?_, ?_⟩
      · intro h
        exact absurd h hr
      · intro _
        exact h3

/-- C1 amended, at a concrete input: node `1` with reference count 1 and the
empty list. -/
theorem C1_add_add_del_removes_witness :
    ∃ s2, (NodeList.add (ListRef.external 0) 1 (exState1 1)).bind
        (fun s1 => NodeList.add (ListRef.external 0) 1 s1) = some s2 ∧
      s2.list (ListRef.external 0) = [1] ∧
      ∃ s3, NodeList.del leafDtor (ListRef.external 0) 1 s2 = some s3 ∧
        1 ∉ s3.list (ListRef.external 0) := by
  obtain ⟨s2, h1, h2, _, s3, h4, h5, _⟩ :=
    C1_add_add_del_removes leafDtor (ListRef.external 0) 1 (exState1 1)
      { ref := 1, local_ := 0 } rfl (by decide)
  exact ⟨s2, h1, h2, s3, h4, h5⟩

/-- C5, as stated, fails in two ways.  Node `1` with reference count 2 that is
already the member of the list: `add(1)` changes nothing and `del(1)` removes it,
leaving it out of the list with count 1.  Node `1` with reference count 0 that is
not a member: `add(1)` then `del(1)` destroys it. -/
theorem C5_counterexample :
    ((1 ∈ (exState1In 2).list (ListRef.external 0)) ∧
      ((NodeList.add (ListRef.external 0) 1 (exState1In 2)).bind
          (fun s1 => NodeList.del leafDtor (ListRef.external 0) 1 s1)).map
        (fun s2 => (decide (1 ∈ s2.list (ListRef.external 0)),
          (s2.node 1).map (fun nd => nd.ref))) = some (false, some 1)) ∧
    (((exState1 0).node 1).map (fun nd => nd.ref) = some 0 ∧
      ((NodeList.add (ListRef.external 0) 1 (exState1 0)).bind
          (fun s1 => NodeList.del leafDtor (ListRef.external 0) 1 s1)).map
        (fun s2 => (s2.node 1).map (fun nd => nd.ref)) = some none) := by
  decide

/-- C5, amended: for a live node `n` that is not a member of `L` and whose
reference count is at least 1, `add(n)` immediately followed by `del(n)` on `L`
gives back exactly the state before the `add`: the same list (so `n` is again
not a member), the same reference count of `n`, and every other node and list
untouched. -/
theorem C5_add_del_restores {T : Type} (dtor : Dtor T) (L : ListRef) (n : NodePtr)
    (s : State T) (nd : Node T) (hd : s.deref n = some nd) (hnot : n ∉ s.list L)
    (hr : 1 ≤ nd.ref) :
    (NodeList.add L n s).bind (fun s1 => NodeList.del dtor L n s1) = some s := by
  rw [NodeList.add_fresh L n s nd hd hnot]
  simp only [Option.some_bind]
  exact NodeList.del_after_add dtor L n s nd hd hnot hr

/-- C5 amended, at a concrete input: node `1` with reference count 1 and the
empty list. -/
theorem C5_add_del_restores_witness :
    (NodeList.add (ListRef.external 0) 1 (exState1 1)).bind
      (fun s1 => NodeList.del leafDtor (ListRef.external 0) 1 s1) = some (exState1 1) :=
  C5_add_del_restores leafDtor (ListRef.external 0) 1 (exState1 1)
    { ref := 1, local_ := 0 } rfl (by decide) (by decide)

/-! ## `Node::makeParent` -/

theorem filter_ne_of_not_mem (l : List NodePtr) (n : NodePtr) (h : n ∉ l) :
    l.filter (fun m => decide (m ≠ n)) = l := by
  apply List.filter_eq_self.mpr
  intro a ha
  have : a ≠ n := fun e => h (e ▸ ha)
  simpa using this

/-- The state after the detaching `del` of `makeParent`: all occurrences of `n`
are filtered out of `L` and the reference count of `n` drops by their number. -/
theorem NodeList.del_uniform {T : Type} (dtor : Dtor T) (L : ListRef) (n : NodePtr)
    (s : State T) (nd : Node T) (hd : s.deref n = some nd)
    (hr : n ∈ s.list L → ((s.list L).count n : Int) < nd.ref) :
    NodeList.del dtor L n s =
      some ((s.setList L ((s.list L).filter (fun m => decide (m ≠ n)))).setNode n
        { nd with ref := nd.ref - ((s.list L).count n : Int) }) := by
  by_cases hmem : n ∈ s.list L
  · exact NodeList.del_keep dtor L n s nd hd hmem (hr hmem)
  · rw [NodeList.del_absent dtor L n s hmem]
    congr 1
    have hn := State.deref_eq_some hd
    apply State.ext_fields
    · funext m
      by_cases hm : m = n
      · subst hm
        simp [State.setList, State.setNode, List.count_eq_zero_of_not_mem hmem, hn.2]
      · simp [State.setList, State.setNode, Function.update_noteq hm]
    · funext L'
      by_cases hL : L' = L
      · subst hL
        simp only [State.setList, State.setNode, Function.update_same]
        exact (filter_ne_of_not_mem _ _ hmem).symm
      · simp [State.setList, State.setNode, Function.update_noteq hL]
    · rfl
    · rfl
    · rfl


/-- The part of `makeParent` after the detaching `del`: write `parent`, then
`add` to the new parent's children. -/
theorem Node.makeParent_attach {T : Type} (n newParent : NodePtr) (s1 : State T) (nd1 : Node T)
    (hd1 : s1.deref n = some nd1)
    (hnew : newParent ≠ 0 → ∃ pn, s1.deref newParent = some pn) :
    ∃ s', (match s1.deref n with
      | none => none
      | some nd1 =>
        let s2 := s1.setNode n { nd1 with parent := newParent }
        if newParent ≠ 0 then
          match s2.deref newParent with
          | none => none
          | some _ => NodeList.add (ListRef.children newParent) n s2
        else
          some s2) = some s' ∧
      s'.view = s1.view ∧ s'.worldTrans = s1.worldTrans ∧ s'.viewTrans = s1.viewTrans ∧
      (∀ m, m ≠ n → s'.node m = s1.node m) ∧
      (∀ L, s'.list L =
        if newParent ≠ 0 ∧ L = ListRef.children newParent ∧ n ∉ s1.list L
        then s1.list L ++ [n] else s1.list L) ∧
      s'.node n = some { nd1 with
        parent := newParent,
        ref := nd1.ref +
          (if newParent ≠ 0 ∧ n ∉ s1.list (ListRef.children newParent) then 1 else 0) } := by
  have hn := State.deref_eq_some hd1
  simp only [hd1]
  by_cases hp : newParent = 0
  · subst hp
    refine ⟨s1.setNode n { nd1 with parent := 0 }, by simp, rfl, rfl, rfl, ?_, ?_, ?_⟩
    · intro m hm
      simp [State.setNode, Function.update_noteq hm]
    · intro L
      simp [State.setNode]
    · simp [State.setNode]
  · obtain ⟨pn, hpn⟩ := hnew hp
    have hpn2 : ∃ pn', (s1.setNode n { nd1 with parent := newParent }).deref newParent = some pn' := by
      by_cases e : newParent = n
      · exact ⟨{ nd1 with parent := newParent },
          by simp [State.deref, State.setNode, e, hn.1]⟩
      · exact ⟨pn, by simpa [State.deref, State.setNode, hp, Function.update_noteq e] using hpn⟩
    obtain ⟨pn', hpn'⟩ := hpn2
    simp only [hp, ne_eq, not_false_eq_true, if_true, hpn']
    have hdn : (s1.setNode n { nd1 with parent := newParent }).deref n =
        some { nd1 with parent := newParent } := by
      simp [State.deref, State.setNode, hn.1]
    by_cases hmem : n ∈ s1.list (ListRef.children newParent)
    · refine ⟨_, NodeList.add_noop _ _ _ (Or.inr (by simpa [State.setNode] using hmem)),
        rfl, rfl, rfl, ?_, ?_, ?_⟩
      · intro m hm
        simp [State.setNode, Function.update_noteq hm]
      · intro L
        by_cases hL : L = ListRef.children newParent
        · subst hL
          simp [State.setNode, hmem]
        · simp [State.setNode, hL]
      · simp [State.setNode, hmem]
    · refine ⟨_, NodeList.add_fresh _ _ _ _ hdn (by simpa [State.setNode] using hmem),
        rfl, rfl, rfl, ?_, ?_, ?_⟩
      · intro m hm
        simp [State.setList, State.setNode, Function.update_noteq hm]
      · intro L
        by_cases hL : L = ListRef.children newParent
        · subst hL
          simp [State.setList, State.setNode, hmem]
        · simp [State.setList, State.setNode, hL, Function.update_noteq hL]
      · simp [State.setList, State.setNode, hmem]

/-- What `makeParent` does to a live node `n` whose old parent is null or live,
whose new parent is null or live, and which is not destroyed by the detaching
`del` (it is not in the old parent's children, or its reference count exceeds the
number of its occurrences there). -/
theorem Node.makeParent_spec {T : Type} (dtor : Dtor T) (n newParent : NodePtr) (s : State T)
    (nd : Node T) (hd : s.deref n = some nd)
    (hold : nd.parent ≠ 0 → ∃ po, s.deref nd.parent = some po)
    (hkeep : nd.parent ≠ 0 → n ∈ s.list (ListRef.children nd.parent) →
      ((s.list (ListRef.children nd.parent)).count n : Int) < nd.ref)
    (hnew : newParent ≠ 0 → ∃ pn, s.deref newParent = some pn) :
    ∃ s', Node.makeParent dtor n newParent s = some s' ∧
      s'.view = s.view ∧ s'.worldTrans = s.worldTrans ∧ s'.viewTrans = s.viewTrans ∧
      (∀ m, m ≠ n → s'.node m = s.node m) ∧
      (∀ L, s'.list L =
        if newParent ≠ 0 ∧ L = ListRef.children newParent ∧ n ∉ Node.detachedList s n nd.parent L
        then Node.detachedList s n nd.parent L ++ [n] else Node.detachedList s n nd.parent L) ∧
      s'.node n = some { nd with
        parent := newParent,
        ref := nd.ref -
          (if nd.parent ≠ 0 then ((s.list (ListRef.children nd.parent)).count n : Int) else 0) +
          (if newParent ≠ 0 ∧
              n ∉ Node.detachedList s n nd.parent (ListRef.children newParent) then 1 else 0) } := by
  have hn := State.deref_eq_some hd
  unfold Node.makeParent
  simp only [hd]
  by_cases ho : nd.parent = 0
  · simp only [ho, ne_eq, not_true_eq_false, if_false]
    obtain ⟨s', h1, h2, h3, h4, h5, h6, h7⟩ := Node.makeParent_attach n newParent s nd hd hnew
    refine ⟨s', h1, h2, h3, h4, h5, ?_, ?_⟩
    · intro L
      simpa [Node.detachedList] using h6 L
    · simpa [Node.detachedList] using h7
  · obtain ⟨po, hpo⟩ := hold ho
    simp only [ho, ne_eq, not_false_eq_true, if_true, hpo]
    rw [NodeList.del_uniform dtor (ListRef.children nd.parent) n s nd hd (hkeep ho)]
    simp only []
    have hd1 : ((s.setList (ListRef.children nd.parent)
        ((s.list (ListRef.children nd.parent)).filter (fun m => decide (m ≠ n)))).setNode n
          { nd with ref := nd.ref - ((s.list (ListRef.children nd.parent)).count n : Int) }).deref n
        = some { nd with ref := nd.ref - ((s.list (ListRef.children nd.parent)).count n : Int) } := by
      simp [State.deref, State.setList, State.setNode, hn.1]
    have hnew1 : newParent ≠ 0 → ∃ pn, ((s.setList (ListRef.children nd.parent)
        ((s.list (ListRef.children nd.parent)).filter (fun m => decide (m ≠ n)))).setNode n
          { nd with ref := nd.ref - ((s.list (ListRef.children nd.parent)).count n : Int) }).deref
            newParent = some pn := by
      intro hp
      obtain ⟨pn, hpn⟩ := hnew hp
      by_cases e : newParent = n
      · rw [e]
        exact ⟨_, hd1⟩
      · exact ⟨pn, by
          simpa [State.deref, State.setList, State.setNode, hp, Function.update_noteq e] using hpn⟩
    obtain ⟨s', h1, h2, h3, h4, h5, h6, h7⟩ := Node.makeParent_attach n newParent _ _ hd1 hnew1
    have hlist : ∀ L, ((s.setList (ListRef.children nd.parent)
        ((s.list (ListRef.children nd.parent)).filter (fun m => decide (m ≠ n)))).setNode n
          { nd with ref := nd.ref - ((s.list (ListRef.children nd.parent)).count n : Int) }).list L
        = Node.detachedList s n nd.parent L := by
      intro L
      by_cases hL : L = ListRef.children nd.parent
      · subst hL
        simp [Node.detachedList, State.setList, State.setNode, ho]
      · simp [Node.detachedList, State.setList, State.setNode, hL, Function.update_noteq hL]
    refine ⟨s', h1, h2, h3, h4, ?_, ?_, ?_⟩
    · intro m hm
      rw [h5 m hm]
      simp [State.setList, State.setNode, Function.update_noteq hm]
    · intro L
      rw [h6 L, hlist L]
    · rw [h7, hlist]

/-- C2, as stated, fails: node `2` is the first of the two children `[2, 3]` of
its parent `1`; after `makeParent( 1 )` the children of `1` are `[3, 2]`. -/
theorem C2_counterexample :
    (exFamily.node 2).map (fun nd => nd.parent) = some 1 ∧
    exFamily.list (ListRef.children 1) = [2, 3] ∧
    (Node.makeParent leafDtor 2 1 exFamily).map (fun s => s.list (ListRef.children 1)) =
      some [3, 2] := by
  decide

/-- C2, amended: for a live node `n` whose current parent `p` is a live node, with
`n` occurring exactly once in `p.children` and a reference count of at least 2,
`n.makeParent(p)` leaves every node (so `n.parent` and every reference count),
every other list and the scene unchanged, and `p.children` keeps its elements
with `n` moved to the end, the other children in their order; the whole state is
unchanged exactly when `n` was already the last child. -/
theorem C2_makeParent_same_parent {T : Type} (dtor : Dtor T) (n p : NodePtr) (s : State T)
    (nd po : Node T) (hd : s.deref n = some nd) (hp : nd.parent = p)
    (hlive : s.deref p = some po)
    (hcount : (s.list (ListRef.children p)).count n = 1) (href : 2 ≤ nd.ref) :
    ∃ s', Node.makeParent dtor n p s = some s' ∧
      s'.node = s.node ∧
      s'.list (ListRef.children p) =
        (s.list (ListRef.children p)).filter (fun m => decide (m ≠ n)) ++ [n] ∧
      (∀ L, L ≠ ListRef.children p → s'.list L = s.list L) ∧
      s'.view = s.view ∧ s'.worldTrans = s.worldTrans ∧ s'.viewTrans = s.viewTrans ∧
      (s' = s ↔ ∃ l0, s.list (ListRef.children p) = l0 ++ [n]) := by
  subst hp
  have hn := State.deref_eq_some hd
  have hp0 := (State.deref_eq_some hlive).1
  obtain ⟨s', h1, h2, h3, h4, h5, h6, h7⟩ :=
    Node.makeParent_spec dtor n nd.parent s nd hd (fun _ => ⟨po, hlive⟩)
      (fun _ _ => by rw [hcount]; simp; omega) (fun _ => ⟨po, hlive⟩)
  have hdl : Node.detachedList s n nd.parent (ListRef.children nd.parent) =
      (s.list (ListRef.children nd.parent)).filter (fun m => decide (m ≠ n)) := by
    simp [Node.detachedList, hp0]
  have hnot : n ∉ Node.detachedList s n nd.parent (ListRef.children nd.parent) := by
    rw [hdl]
    exact not_mem_filter_ne _ _
  have hnode : s'.node = s.node := by
    funext m
    by_cases hm : m = n
    · subst hm
      rw [h7, hn.2]
      simp [hp0, hnot, hcount]
    · exact h5 m hm
  have hlp : s'.list (ListRef.children nd.parent) =
      (s.list (ListRef.children nd.parent)).filter (fun m => decide (m ≠ n)) ++ [n] := by
    rw [h6, if_pos ⟨hp0, rfl, hnot⟩, hdl]
  have hlo : ∀ L, L ≠ ListRef.children nd.parent → s'.list L = s.list L := by
    intro L hL
    rw [h6]
    simp [Node.detachedList, hL]
  refine ⟨s', h1, hnode, hlp, hlo, h2, h3, h4, ?_⟩
  constructor
  · intro e
    refine ⟨(s.list (ListRef.children nd.parent)).filter (fun m => decide (m ≠ n)), ?_⟩
    rw [← hlp, e]
  · rintro ⟨l0, hl0⟩
    have hn0 : n ∉ l0 := by
      intro hmem
      have h2c : 2 ≤ (s.list (ListRef.children nd.parent)).count n := by
        rw [hl0, List.count_append]
        have hpos := List.count_pos_iff.mpr hmem
        have hone : List.count n [n] = 1 := by simp
        omega
      omega
    apply State.ext_fields hnode _ h2 h3 h4
    funext L
    by_cases hL : L = ListRef.children nd.parent
    · subst hL
      rw [hlp, hl0, filter_ne_append_self _ _ hn0]
    · exact hlo L hL

/-- C2 amended, at a concrete input: in `exFamily` node `2` is re-attached to its
parent `1` and ends up last. -/
theorem C2_makeParent_same_parent_witness :
    ∃ s', Node.makeParent leafDtor 2 1 exFamily = some s' ∧
      s'.node = exFamily.node ∧ s'.list (ListRef.children 1) = [3, 2] := by
  obtain ⟨s', h1, h2, h3, _⟩ :=
    C2_makeParent_same_parent leafDtor 2 1 exFamily { ref := 2, parent := 1, local_ := 0 }
      { ref := 1, local_ := 0 } rfl rfl rfl (by decide) (by decide)
  exact ⟨s', h1, h2, h3⟩

theorem count_filter_ne (l : List NodePtr) (n m : NodePtr) :
    (l.filter (fun x => decide (x ≠ n))).count m = if m = n then 0 else l.count m := by
  by_cases h : m = n
  · subst h
    rw [if_pos rfl]
    exact List.count_eq_zero_of_not_mem (not_mem_filter_ne l m)
  · rw [if_neg h, List.count_filter]
    simpa using h

theorem Node.count_detachedList {T : Type} (s : State T) (n old m : NodePtr) (L : ListRef) :
    (Node.detachedList s n old L).count m =
      if old ≠ 0 ∧ L = ListRef.children old ∧ m = n then 0 else (s.list L).count m := by
  unfold Node.detachedList
  by_cases h : old ≠ 0 ∧ L = ListRef.children old
  · rw [if_pos h, count_filter_ne]
    by_cases hm : m = n
    · simp [hm, h.1, h.2]
    · simp [hm]
  · rw [if_neg h]
    have : ¬(old ≠ 0 ∧ L = ListRef.children old ∧ m = n) := fun h' => h ⟨h'.1, h'.2.1⟩
    rw [if_neg this]

/-- In a consistent hierarchy a live node occurs only in the children of its parent. -/
theorem WellFormed.count_eq_zero {T : Type} {s : State T} (hw : WellFormed s) {n : NodePtr}
    {nd : Node T} (hd : s.deref n = some nd) {q : NodePtr} (hq : q ≠ nd.parent) :
    (s.list (ListRef.children q)).count n = 0 := by
  apply List.count_eq_zero_of_not_mem
  intro hmem
  obtain ⟨_, _, nd', hd', hp'⟩ := hw.1 q n hmem
  rw [hd] at hd'
  cases hd'
  exact hq hp'.symm

theorem WellFormed.count_children_zero {T : Type} {s : State T} (hw : WellFormed s)
    (n : NodePtr) : (s.list (ListRef.children 0)).count n = 0 := by
  apply List.count_eq_zero_of_not_mem
  intro hmem
  exact (hw.1 0 n hmem).1 rfl

/-- After the detaching `del` a node of a consistent hierarchy is in no child list. -/
theorem WellFormed.count_detached_self {T : Type} {s : State T} (hw : WellFormed s)
    {n : NodePtr} {nd : Node T} (hd : s.deref n = some nd) (q : NodePtr) :
    (Node.detachedList s n nd.parent (ListRef.children q)).count n = 0 := by
  rw [Node.count_detachedList]
  by_cases h : nd.parent ≠ 0 ∧ ListRef.children q = ListRef.children nd.parent ∧ n = n
  · rw [if_pos h]
  · rw [if_neg h]
    by_cases hq : q = nd.parent
    · have h0 : nd.parent = 0 := by
        by_contra h0
        exact h ⟨h0, by rw [hq], rfl⟩
      rw [hq, h0]
      exact hw.count_children_zero n
    · exact hw.count_eq_zero hd hq

/-- One `makeParent` call on a consistent hierarchy succeeds, keeps the hierarchy
consistent and keeps every node alive. -/
theorem Node.makeParent_wellFormed {T : Type} (dtor : Dtor T) (n newParent : NodePtr)
    (s : State T) (hw : WellFormed s) (hv : ValidCall s (n, newParent)) :
    ∃ s', Node.makeParent dtor n newParent s = some s' ∧ WellFormed s' ∧
      (∀ m, (s'.deref m).isSome = (s.deref m).isSome) := by
  obtain ⟨hv1, hv2⟩ := hv
  obtain ⟨nd, hd⟩ := Option.isSome_iff_exists.mp hv1
  have hn := State.deref_eq_some hd
  obtain ⟨hpar, href⟩ := hw.2 n nd hd
  obtain ⟨s', h1, _, _, _, h5, h6, h7⟩ :=
    Node.makeParent_spec dtor n newParent s nd hd hpar (fun _ _ => href)
      (fun hp => Option.isSome_iff_exists.mp (hv2 hp))
  have hself := fun q => hw.count_detached_self hd q
  have hnotmem : ∀ q, n ∉ Node.detachedList s n nd.parent (ListRef.children q) :=
    fun q hmem => absurd (List.count_pos_iff.mpr hmem) (by rw [hself q]; omega)
  -- occurrences after the call
  have hcnt : ∀ q m, (s'.list (ListRef.children q)).count m =
      if m = n then (if newParent ≠ 0 ∧ q = newParent then 1 else 0)
      else (s.list (ListRef.children q)).count m := by
    intro q m
    rw [h6]
    by_cases hq : newParent ≠ 0 ∧ q = newParent
    · have hc : newParent ≠ 0 ∧ ListRef.children q = ListRef.children newParent ∧
          n ∉ Node.detachedList s n nd.parent (ListRef.children q) :=
        ⟨hq.1, by rw [hq.2], hnotmem q⟩
      rw [if_pos hc, List.count_append]
      by_cases hm : m = n
      · subst hm
        rw [hself q]
        simp [hq]
      · rw [if_neg hm, Node.count_detachedList]
        have hmn : ¬(nd.parent ≠ 0 ∧ ListRef.children q = ListRef.children nd.parent ∧ m = n) :=
          fun h => hm h.2.2
        rw [if_neg hmn]
        have : List.count m [n] = 0 := by
          apply List.count_eq_zero_of_not_mem
          simpa using hm
        omega
    · have hc : ¬(newParent ≠ 0 ∧ ListRef.children q = ListRef.children newParent ∧
          n ∉ Node.detachedList s n nd.parent (ListRef.children q)) := by
        intro h
        exact hq ⟨h.1, ListRef.children.inj h.2.1⟩
      rw [if_neg hc]
      by_cases hm : m = n
      · subst hm
        rw [hself q]
        simp [hq]
      · rw [if_neg hm, Node.count_detachedList]
        have hmn : ¬(nd.parent ≠ 0 ∧ ListRef.children q = ListRef.children nd.parent ∧ m = n) :=
          fun h => hm h.2.2
        rw [if_neg hmn]
  -- the node table after the call
  have hderef_other : ∀ m, m ≠ n → s'.deref m = s.deref m := by
    intro m hm
    unfold State.deref
    rw [h5 m hm]
  have hc : (if nd.parent ≠ 0 then ((s.list (ListRef.children nd.parent)).count n : Int) else 0)
      < nd.ref := by
    have h0 : (0 : Int) ≤ ((s.list (ListRef.children nd.parent)).count n : Int) :=
      Int.ofNat_nonneg _
    split <;> omega
  have ha : (if newParent ≠ 0 ∧
      n ∉ Node.detachedList s n nd.parent (ListRef.children newParent) then (1 : Int) else 0) =
      if newParent ≠ 0 then 1 else 0 := by
    by_cases hp : newParent = 0
    · simp [hp]
    · simp [hp, hnotmem newParent]
  obtain ⟨r, hr1, hr2⟩ : ∃ r : Int, (if newParent ≠ 0 then (1 : Int) else 0) < r ∧
      s'.deref n = some { nd with parent := newParent, ref := r } := by
    refine ⟨nd.ref -
        (if nd.parent ≠ 0 then ((s.list (ListRef.children nd.parent)).count n : Int) else 0) +
        (if newParent ≠ 0 ∧
            n ∉ Node.detachedList s n nd.parent (ListRef.children newParent) then 1 else 0),
      ?_, ?_⟩
    · rw [ha]
      by_cases hp : newParent = 0
      · simp only [hp, ne_eq, not_true_eq_false, if_false]
        omega
      · simp only [hp, ne_eq, not_false_eq_true, if_true]
        omega
    · rw [State.deref_of_ne_zero _ hn.1, h7]
  have hlive : ∀ m, (s'.deref m).isSome = (s.deref m).isSome := by
    intro m
    by_cases hm : m = n
    · subst hm
      rw [hr2, hd]
      rfl
    · rw [hderef_other m hm]
  refine ⟨s', h1, ⟨?_, ?_⟩, hlive⟩
  · intro p m hmem
    have hpos := List.count_pos_iff.mpr hmem
    rw [hcnt p m] at hpos
    by_cases hm : m = n
    · subst hm
      rw [if_pos rfl] at hpos
      by_cases hq : newParent ≠ 0 ∧ p = newParent
      · refine ⟨hq.2 ▸ hq.1, ?_, _, hr2, hq.2.symm⟩
        rw [hcnt p m, if_pos rfl, if_pos hq]
      · rw [if_neg hq] at hpos
        omega
    · rw [if_neg hm] at hpos
      obtain ⟨hp0, hc1, md, hmd, hmp⟩ := hw.1 p m (List.count_pos_iff.mp hpos)
      refine ⟨hp0, ?_, md, ?_, hmp⟩
      · rw [hcnt p m, if_neg hm, hc1]
      · rw [hderef_other m hm, hmd]
  · intro m md hmd
    by_cases hm : m = n
    · subst hm
      rw [hr2] at hmd
      cases hmd
      constructor
      · intro hp
        have := hv2 hp
        rw [← hlive newParent] at this
        exact Option.isSome_iff_exists.mp this
      · show ((s'.list (ListRef.children newParent)).count m : Int) < r
        rw [hcnt newParent m, if_pos rfl]
        by_cases hp : newParent = 0
        · rw [if_neg (fun h => h.1 hp)]
          rw [if_neg (fun h => h hp)] at hr1
          exact_mod_cast hr1
        · rw [if_pos ⟨hp, rfl⟩]
          rw [if_pos hp] at hr1
          exact_mod_cast hr1
    · rw [hderef_other m hm] at hmd
      obtain ⟨hpar', href'⟩ := hw.2 m md hmd
      constructor
      · intro hp
        obtain ⟨po, hpo⟩ := hpar' hp
        have : (s'.deref md.parent).isSome = true := by
          rw [hlive, hpo]
          rfl
        exact Option.isSome_iff_exists.mp this
      · rw [hcnt md.parent m, if_neg hm]
        exact href'

theorem ValidCall.of_live {T : Type} {s s' : State T}
    (h : ∀ m, (s'.deref m).isSome = (s.deref m).isSome) {c : NodePtr × NodePtr}
    (hv : ValidCall s c) : ValidCall s' c := by
  constructor
  · rw [h]
    exact hv.1
  · intro hc
    rw [h]
    exact hv.2 hc

/-- A sequence of valid `makeParent` calls on a consistent hierarchy succeeds and
ends in a consistent hierarchy. -/
theorem runMakeParent_wellFormed {T : Type} (dtor : Dtor T) (calls : List (NodePtr × NodePtr)) :
    ∀ s : State T, WellFormed s → (∀ c ∈ calls, ValidCall s c) →
      ∃ s', runMakeParent dtor calls s = some s' ∧ WellFormed s' := by
  induction calls with
  | nil =>
    intro s hw _
    exact ⟨s, rfl, hw⟩
  | cons c rest ih =>
    intro s hw hv
    obtain ⟨n, p⟩ := c
    obtain ⟨s1, h1, hw1, hl1⟩ :=
      Node.makeParent_wellFormed dtor n p s hw (hv (n, p) (List.mem_cons_self _ _))
    obtain ⟨s', h2, hw2⟩ := ih s1 hw1
      (fun c hc => ValidCall.of_live hl1 (hv c (List.mem_cons_of_mem _ hc)))
    exact ⟨s', by simp only [runMakeParent, h1, h2], hw2⟩

theorem Parentless.wellFormed {T : Type} {s : State T} (h : Parentless s) : WellFormed s := by
  constructor
  · intro p n hmem
    rw [h.1 p] at hmem
    simp at hmem
  · intro n nd hd
    obtain ⟨hp, hr⟩ := h.2 n nd hd
    constructor
    · intro hne
      exact absurd hp hne
    · rw [h.1]
      simp
      omega

/-- C9: let `n` be a live node whose current parent `old` is null or live, let
`newParent` (null or live) differ from `old`, let `n` be kept alive by another
owner (its reference count exceeds its occurrences in `old.children`), and let
`newParent.children` hold `n` at most once.  Then `n.makeParent(newParent)`
succeeds; afterwards `n` does not occur in `old.children`, `n.parent` is
`newParent`, and for a non-null `newParent` the node occurs exactly once in
`newParent.children`.  Consequently, after any sequence of `makeParent` calls on
live nodes that starts from parentless nodes, a node occurs in the child list of
at most one node, and at most once there. -/
theorem C9_makeParent_reparents {T : Type} (dtor : Dtor T) :
    (∀ (n newParent : NodePtr) (s : State T) (nd : Node T),
      s.deref n = some nd → newParent ≠ nd.parent →
      (nd.parent ≠ 0 → ∃ po, s.deref nd.parent = some po) →
      (nd.parent ≠ 0 → ((s.list (ListRef.children nd.parent)).count n : Int) < nd.ref) →
      (newParent ≠ 0 → ∃ pn, s.deref newParent = some pn) →
      (s.list (ListRef.children newParent)).count n ≤ 1 →
      ∃ s', Node.makeParent dtor n newParent s = some s' ∧
        (nd.parent ≠ 0 → n ∉ s'.list (ListRef.children nd.parent)) ∧
        (∃ nd', s'.deref n = some nd' ∧ nd'.parent = newParent) ∧
        (newParent ≠ 0 → (s'.list (ListRef.children newParent)).count n = 1)) ∧
    (∀ (calls : List (NodePtr × NodePtr)) (s0 : State T),
      Parentless s0 → (∀ c ∈ calls, ValidCall s0 c) →
      ∃ s', runMakeParent dtor calls s0 = some s' ∧
        (∀ n p q, n ∈ s'.list (ListRef.children p) → n ∈ s'.list (ListRef.children q) → p = q) ∧
        (∀ n p, (s'.list (ListRef.children p)).count n ≤ 1)) := by
  constructor
  · intro n newParent s nd hd hne hold hkeep hnew hdup
    have hn := State.deref_eq_some hd
    obtain ⟨s', h1, _, _, _, _, h6, h7⟩ :=
      Node.makeParent_spec dtor n newParent s nd hd hold (fun h _ => hkeep h) hnew
    refine ⟨s', h1, ?_, ⟨_, by rw [State.deref_of_ne_zero _ hn.1, h7], rfl⟩, ?_⟩
    · intro ho
      rw [h6]
      have hc : ¬(newParent ≠ 0 ∧ ListRef.children nd.parent = ListRef.children newParent ∧
          n ∉ Node.detachedList s n nd.parent (ListRef.children nd.parent)) :=
        fun h => hne (ListRef.children.inj h.2.1).symm
      rw [if_neg hc]
      simp only [Node.detachedList, ho, ne_eq, not_false_eq_true, true_and, if_true]
      exact not_mem_filter_ne _ _
    · intro hp
      rw [h6]
      have hdl : Node.detachedList s n nd.parent (ListRef.children newParent) =
          s.list (ListRef.children newParent) := by
        unfold Node.detachedList
        rw [if_neg]
        intro h
        exact hne (ListRef.children.inj h.2)
      rw [hdl]
      by_cases hmem : n ∈ s.list (ListRef.children newParent)
      · rw [if_neg (fun h => h.2.2 hmem)]
        have := List.count_pos_iff.mpr hmem
        omega
      · rw [if_pos ⟨hp, rfl, hmem⟩, count_append_self _ _ hmem]
  · intro calls s0 hpl hv
    obtain ⟨s', h1, hw⟩ := runMakeParent_wellFormed dtor calls s0 hpl.wellFormed hv
    refine ⟨s', h1, ?_, ?_⟩
    · intro n p q hp hq
      obtain ⟨_, _, nd, hd, hpp⟩ := hw.1 p n hp
      obtain ⟨_, _, nd', hd', hpq⟩ := hw.1 q n hq
      rw [hd] at hd'
      cases hd'
      rw [← hpp, ← hpq]
    · intro n p
      by_cases hmem : n ∈ s'.list (ListRef.children p)
      · rw [(hw.1 p n hmem).2.1]
      · rw [List.count_eq_zero_of_not_mem hmem]
        omega

theorem exParentless_parentless : Parentless exParentless := by
  constructor
  · intro p
    rfl
  · intro n nd hd
    have hn := (State.deref_eq_some hd).2
    simp only [exParentless] at hn
    split at hn
    · cases hn
      exact ⟨rfl, by decide⟩
    · cases hn

/-- C9 at concrete inputs: in `exFamily` node `2` moves from parent `1` to parent
`3`; from three parentless nodes the calls `2->makeParent(1)`, `3->makeParent(1)`,
`2->makeParent(3)`, `3->makeParent(0)` leave every node in at most one child list. -/
theorem C9_makeParent_reparents_witness :
    (∃ s', Node.makeParent leafDtor 2 3 exFamily = some s' ∧
        (1 ≠ 0 → 2 ∉ s'.list (ListRef.children 1)) ∧
        (∃ nd', s'.deref 2 = some nd' ∧ nd'.parent = 3) ∧
        (3 ≠ 0 → (s'.list (ListRef.children 3)).count 2 = 1)) ∧
    (∃ s', runMakeParent leafDtor [(2, 1), (3, 1), (2, 3), (3, 0)] exParentless = some s' ∧
        (∀ n p q, n ∈ s'.list (ListRef.children p) → n ∈ s'.list (ListRef.children q) → p = q) ∧
        (∀ n p, (s'.list (ListRef.children p)).count n ≤ 1)) :=
  ⟨(C9_makeParent_reparents leafDtor).1 2 3 exFamily { ref := 2, parent := 1, local_ := 0 }
      rfl (by decide) (fun _ => ⟨{ ref := 1, local_ := 0 }, rfl⟩) (fun _ => by decide)
      (fun _ => ⟨{ ref := 2, parent := 1, local_ := 0 }, rfl⟩) (by decide),
   (C9_makeParent_reparents leafDtor).2 [(2, 1), (3, 1), (2, 3), (3, 0)] exParentless
      exParentless_parentless (by
        intro c hc
        simp only [List.mem_cons, List.mem_singleton, List.not_mem_nil, or_false] at hc
        rcases hc with rfl | rfl | rfl | rfl <;> exact ⟨by decide, by decide⟩)⟩

/-! ## `compareNodes` and `NodeList::sort` -/

theorem compareNodes_asymm {N Z : Type} [LinearOrder Z] (fa : N → Bool) (cz : N → Z) (a b : N)
    (h : compareNodes fa cz a b = true) : compareNodes fa cz b a = false := by
  unfold compareNodes at h ⊢
  cases ha : fa a <;> cases hb : fa b <;> simp_all <;> exact le_of_lt h

theorem compareNodes_negTrans {N Z : Type} [LinearOrder Z] (fa : N → Bool) (cz : N → Z)
    (a b c : N) (h1 : compareNodes fa cz b a = false) (h2 : compareNodes fa cz c b = false) :
    compareNodes fa cz c a = false := by
  unfold compareNodes at h1 h2 ⊢
  cases ha : fa a <;> cases hb : fa b <;> cases hc : fa c <;> simp_all <;>
    first
      | exact le_trans h1 h2
      | exact le_trans h2 h1

/-- The nodes are equivalent for `compareNodes` exactly when they have the same
alpha status and the same depth. -/
theorem compareEquiv_compareNodes {N Z : Type} [LinearOrder Z] (fa : N → Bool) (cz : N → Z)
    (a b : N) :
    compareEquiv (compareNodes fa cz) a b = true ↔ (fa a = fa b ∧ cz a = cz b) := by
  unfold compareEquiv compareNodes
  cases ha : fa a <;> cases hb : fa b <;> simp <;>
    first
      | exact ⟨fun h => le_antisymm h.1 h.2, fun h => ⟨le_of_eq h, le_of_eq h.symm⟩⟩
      | exact ⟨fun h => le_antisymm h.2 h.1, fun h => ⟨le_of_eq h.symm, le_of_eq h⟩⟩

theorem stableInsert_perm {N : Type} (comp : N → N → Bool) (x : N) (l : List N) :
    (stableInsert comp x l).Perm (x :: l) := by
  induction l with
  | nil => exact List.Perm.refl _
  | cons y ys ih =>
    unfold stableInsert
    split
    · exact (List.Perm.cons y ih).trans (List.Perm.swap x y ys)
    · exact List.Perm.refl _

theorem stableSort_perm {N : Type} (comp : N → N → Bool) (l : List N) :
    (stableSort comp l).Perm l := by
  induction l with
  | nil => exact List.Perm.refl _
  | cons x xs ih =>
    exact (stableInsert_perm comp x (stableSort comp xs)).trans (List.Perm.cons x ih)

theorem stableInsert_sorted {N : Type} (comp : N → N → Bool)
    (hasymm : ∀ a b, comp a b = true → comp b a = false)
    (hneg : ∀ a b c, comp b a = false → comp c b = false → comp c a = false)
    (x : N) (l : List N) (hl : l.Pairwise (fun a b => comp b a = false)) :
    (stableInsert comp x l).Pairwise (fun a b => comp b a = false) := by
  induction l with
  | nil => simp [stableInsert]
  | cons y ys ih =>
    rw [List.pairwise_cons] at hl
    unfold stableInsert
    split
    · rename_i hyx
      rw [List.pairwise_cons]
      refine ⟨?_, ih hl.2⟩
      intro z hz
      rcases List.mem_cons.mp ((stableInsert_perm comp x ys).mem_iff.mp hz) with hz' | hz'
      · rw [hz']
        exact hasymm y x hyx
      · exact hl.1 z hz'
    · rename_i hyx
      have hyx' : comp y x = false := by simpa using hyx
      rw [List.pairwise_cons]
      refine ⟨?_, List.pairwise_cons.mpr hl⟩
      intro z hz
      rcases List.mem_cons.mp hz with hz' | hz'
      · rw [hz']
        exact hyx'
      · exact hneg x y z hyx' (hl.1 z hz')

theorem stableSort_sorted {N : Type} (comp : N → N → Bool)
    (hasymm : ∀ a b, comp a b = true → comp b a = false)
    (hneg : ∀ a b c, comp b a = false → comp c b = false → comp c a = false)
    (l : List N) : (stableSort comp l).Pairwise (fun a b => comp b a = false) := by
  induction l with
  | nil => simp [stableSort]
  | cons x xs ih => exact stableInsert_sorted comp hasymm hneg x _ ih

/-- Inserting `x` does not change the order among the elements selected by `p`,
when `x` passes no selected element while it is itself selected. -/
theorem stableInsert_filter {N : Type} (comp : N → N → Bool) (p : N → Bool) (x : N)
    (hp : ∀ y, comp y x = true → p x = true → p y = false) (l : List N) :
    (stableInsert comp x l).filter p = (x :: l).filter p := by
  induction l with
  | nil => rfl
  | cons y ys ih =>
    unfold stableInsert
    split
    · rename_i hyx
      rw [List.filter_cons, ih]
      by_cases hx : p x = true
      · have hy := hp y hyx hx
        simp [List.filter_cons, hx, hy]
      · have hx' : p x = false := by simpa using hx
        simp [List.filter_cons, hx']
    · rfl

theorem stableSort_filter {N : Type} (comp : N → N → Bool) (p : N → Bool)
    (hp : ∀ x y, comp y x = true → p x = true → p y = false) (l : List N) :
    (stableSort comp l).filter p = l.filter p := by
  induction l with
  | nil => rfl
  | cons x xs ih =>
    show (stableInsert comp x (stableSort comp xs)).filter p = (x :: xs).filter p
    rw [stableInsert_filter comp p x (hp x), List.filter_cons, List.filter_cons, ih]

theorem NodeList.sort_list {T Z : Type} [LinearOrder Z] (fa : NodePtr → Bool)
    (cz : NodePtr → Z) (L : ListRef) (s : State T) :
    (NodeList.sort fa cz L s).list L = stableSort (compareNodes fa cz) (s.list L) := by
  simp [NodeList.sort, State.setList]

/-- C6: after `sort()` no node with an `AlphaProperty` stands before a node
without one, whatever the list and the (totally ordered) depths are.  For the
nodes opaque z=5, opaque z=1, alpha z=3, alpha z=8 every input order is sorted
to opaque z=5, opaque z=1, alpha z=3, alpha z=8. -/
theorem C6_sort_opaque_before_alpha :
    (∀ (T Z : Type) [LinearOrder Z] (fa : NodePtr → Bool) (cz : NodePtr → Z) (L : ListRef)
        (s : State T),
      ((NodeList.sort fa cz L s).list L).Pairwise (fun a b => fa a = true → fa b = true)) ∧
    (∀ (s : State Int) (L : ListRef), (s.list L).Perm [1, 2, 3, 4] →
      (NodeList.sort exAlpha exCenterZ L s).list L = [1, 2, 3, 4]) := by
  constructor
  · intro T Z _ fa cz L s
    rw [NodeList.sort_list]
    refine (stableSort_sorted _ (compareNodes_asymm fa cz) (compareNodes_negTrans fa cz)
      (s.list L)).imp ?_
    intro a b hba ha
    cases hb : fa b
    · simp [compareNodes, ha, hb] at hba
    · rfl
  · intro s L hperm
    rw [NodeList.sort_list]
    have hall : ∀ l ∈ List.permutations' [1, 2, 3, 4],
        stableSort (compareNodes exAlpha exCenterZ) l = [1, 2, 3, 4] := by decide
    exact hall _ (List.mem_permutations'.mpr hperm)

/-- C7: after `sort()`, of two nodes without an `AlphaProperty` the earlier one
has the larger or equal depth (descending), and of two nodes with one the earlier
has the smaller or equal depth (ascending).  For the nodes opaque z=5, opaque
z=1, alpha z=3, alpha z=8 the depths read 5, 1 and then 3, 8. -/
theorem C7_sort_depth_order :
    (∀ (T Z : Type) [LinearOrder Z] (fa : NodePtr → Bool) (cz : NodePtr → Z) (L : ListRef)
        (s : State T),
      (((NodeList.sort fa cz L s).list L).filter (fun a => !fa a)).Pairwise
          (fun a b => cz b ≤ cz a) ∧
      (((NodeList.sort fa cz L s).list L).filter fa).Pairwise (fun a b => cz a ≤ cz b)) ∧
    (∀ (s : State Int) (L : ListRef), (s.list L).Perm [1, 2, 3, 4] →
      (((NodeList.sort exAlpha exCenterZ L s).list L).filter (fun a => !exAlpha a)).map
          exCenterZ = [5, 1] ∧
      (((NodeList.sort exAlpha exCenterZ L s).list L).filter exAlpha).map exCenterZ = [3, 8]) := by
  constructor
  · intro T Z _ fa cz L s
    rw [NodeList.sort_list]
    have hs := stableSort_sorted _ (compareNodes_asymm fa cz) (compareNodes_negTrans fa cz)
      (s.list L)
    constructor
    · refine (hs.sublist (List.filter_sublist _)).imp_of_mem ?_
      intro a b hma hmb hba
      have ha : fa a = false := by simpa using (List.mem_filter.mp hma).2
      have hb : fa b = false := by simpa using (List.mem_filter.mp hmb).2
      simpa [compareNodes, ha, hb] using hba
    · refine (hs.sublist (List.filter_sublist _)).imp_of_mem ?_
      intro a b hma hmb hba
      have ha : fa a = true := (List.mem_filter.mp hma).2
      have hb : fa b = true := (List.mem_filter.mp hmb).2
      simpa [compareNodes, ha, hb] using hba
  · intro s L hperm
    rw [NodeList.sort_list]
    have hall : ∀ l ∈ List.permutations' [1, 2, 3, 4],
        stableSort (compareNodes exAlpha exCenterZ) l = [1, 2, 3, 4] := by decide
    rw [hall _ (List.mem_permutations'.mpr hperm)]
    decide

/-- C8: `sort()` is a stable sort.  The sorted list is a permutation of the list
before, no node (hence no reference count) and no other list changes, no node
stands before one that the comparator ranks first, and the nodes of one
equivalence class of the comparator (same alpha status and equal depth) stand in
the sorted list in their original order. -/
theorem C8_sort_stable {T Z : Type} [LinearOrder Z] (fa : NodePtr → Bool) (cz : NodePtr → Z)
    (L : ListRef) (s : State T) :
    ((NodeList.sort fa cz L s).list L).Perm (s.list L) ∧
    (NodeList.sort fa cz L s).node = s.node ∧
    (∀ L', L' ≠ L → (NodeList.sort fa cz L s).list L' = s.list L') ∧
    ((NodeList.sort fa cz L s).list L).Pairwise
      (fun a b => compareNodes fa cz b a = false) ∧
    (∀ x, ((NodeList.sort fa cz L s).list L).filter
        (fun y => decide (fa y = fa x ∧ cz y = cz x)) =
      (s.list L).filter (fun y => decide (fa y = fa x ∧ cz y = cz x))) ∧
    (∀ x y, compareEquiv (compareNodes fa cz) x y = true ↔ (fa x = fa y ∧ cz x = cz y)) := by
  refine ⟨?_, rfl, ?_, ?_, ?_, compareEquiv_compareNodes fa cz⟩
  · rw [NodeList.sort_list]
    exact stableSort_perm _ _
  · intro L' hL
    simp [NodeList.sort, State.setList, Function.update_noteq hL]
  · rw [NodeList.sort_list]
    exact stableSort_sorted _ (compareNodes_asymm fa cz) (compareNodes_negTrans fa cz) _
  · intro x
    rw [NodeList.sort_list]
    apply stableSort_filter
    intro a b hba ha
    simp only [decide_eq_true_eq] at ha
    by_contra hb
    simp only [Bool.not_eq_false, decide_eq_true_eq] at hb
    have heq : compareEquiv (compareNodes fa cz) b a = true :=
      (compareEquiv_compareNodes fa cz b a).mpr ⟨hb.1.trans ha.1.symm, hb.2.trans ha.2.symm⟩
    simp [compareEquiv, hba] at heq

/-! ## `Node::worldTrans` -/

/-- One step of `worldTrans` on a node whose id is not cached and that has no parent. -/
theorem Node.worldTrans_root {T : Type} [Mul T] (fuel : Nat) (r : NodePtr) (s : State T)
    (nd : Node T) (hd : s.deref r = some nd) (hp : nd.parent = 0)
    (hc : s.worldTrans nd.nodeId = none) :
    Node.worldTrans (fuel + 1) r s =
      some (nd.local_,
        { s with worldTrans := Function.update s.worldTrans nd.nodeId (some nd.local_) }) := by
  simp [Node.worldTrans, hd, hc, hp]

/-- One step of `worldTrans` on a node whose id is not cached and whose parent's
query returns `pw`. -/
theorem Node.worldTrans_child {T : Type} [Mul T] (fuel : Nat) (n : NodePtr) (s s1 : State T)
    (nd : Node T) (pw : T) (hd : s.deref n = some nd) (hp : nd.parent ≠ 0)
    (hc : s.worldTrans nd.nodeId = none)
    (hrec : Node.worldTrans fuel nd.parent s = some (pw, s1)) :
    Node.worldTrans (fuel + 1) n s =
      some (pw * nd.local_,
        { s1 with worldTrans :=
            Function.update s1.worldTrans nd.nodeId (some (pw * nd.local_)) }) := by
  simp [Node.worldTrans, hd, hc, hp, hrec]

/-- From an empty cache, with fuel for the whole chain, `worldTrans` returns the
world transform of the specification. -/
theorem Node.worldTrans_chain {T : Type} [Mul T] (s : State T)
    (hcache : ∀ id, s.worldTrans id = none) :
    ∀ (rest : List NodePtr) (n : NodePtr),
      IsParentChain s (n :: rest) → ∀ fuel, (n :: rest).length ≤ fuel →
      ∃ v s', specWorldTrans s (n :: rest) = some v ∧
        Node.worldTrans fuel n s = some (v, s') := by
  intro rest
  induction rest with
  | nil =>
    intro n hchain fuel hfuel
    obtain ⟨nd, hd, hp⟩ := hchain
    obtain ⟨f, rfl⟩ : ∃ f, fuel = f + 1 := ⟨fuel - 1, by simp at hfuel; omega⟩
    exact ⟨nd.local_, _, by simp [specWorldTrans, hd],
      Node.worldTrans_root f n s nd hd hp (hcache _)⟩
  | cons p rest' ih =>
    intro n hchain fuel hfuel
    obtain ⟨⟨nd, hd, hp, hp0⟩, htl⟩ := hchain
    obtain ⟨f, rfl⟩ : ∃ f, fuel = f + 1 := ⟨fuel - 1, by simp at hfuel; omega⟩
    obtain ⟨pw, s1, hspec, hrec⟩ := ih p htl f (by simp at hfuel ⊢; omega)
    exact ⟨pw * nd.local_, _, by simp [specWorldTrans, hspec, hd],
      Node.worldTrans_child f n s s1 nd pw hd (by rw [hp]; exact hp0) (hcache _)
        (by rw [hp]; exact hrec)⟩

/-- C10: with an empty world-transform cache, (1) for a root `A`, its child `B`
and `B`'s child `C`, `worldTrans(C)` is `(A.local * B.local) * C.local`; (2) for
every node `n` with parent `p` on a finite parent chain that ends in a root,
`worldTrans(n)` is `worldTrans(p) * n.local`; (3) `worldTrans(root)` is
`root.local`.  Each query returns as soon as the fuel covers the length of the
chain, and agrees with the world transform of the specification. -/
theorem C10_worldTrans_chain {T : Type} [Mul T] (s : State T)
    (hcache : ∀ id, s.worldTrans id = none) :
    (∀ (a b c : NodePtr) (ndA ndB ndC : Node T) (fuel : Nat),
      s.deref a = some ndA → ndA.parent = 0 →
      s.deref b = some ndB → ndB.parent = a →
      s.deref c = some ndC → ndC.parent = b → 3 ≤ fuel →
      Node.worldTransValue fuel c s = some ((ndA.local_ * ndB.local_) * ndC.local_)) ∧
    (∀ (n p : NodePtr) (rest : List NodePtr) (nd : Node T) (fuel : Nat),
      IsParentChain s (n :: p :: rest) → s.deref n = some nd →
      (n :: p :: rest).length ≤ fuel →
      ∃ pw, Node.worldTransValue fuel p s = some pw ∧
        Node.worldTransValue fuel n s = some (pw * nd.local_) ∧
        specWorldTrans s (n :: p :: rest) = some (pw * nd.local_)) ∧
    (∀ (r : NodePtr) (nd : Node T) (fuel : Nat),
      s.deref r = some nd → nd.parent = 0 → 1 ≤ fuel →
      Node.worldTransValue fuel r s = some nd.local_) := by
  have hroot : ∀ (r : NodePtr) (nd : Node T) (fuel : Nat),
      s.deref r = some nd → nd.parent = 0 → 1 ≤ fuel →
      Node.worldTransValue fuel r s = some nd.local_ := by
    intro r nd fuel hd hp hfuel
    obtain ⟨f, rfl⟩ : ∃ f, fuel = f + 1 := ⟨fuel - 1, by omega⟩
    simp [Node.worldTransValue, Node.worldTrans_root f r s nd hd hp (hcache _)]
  have hstep : ∀ (n p : NodePtr) (rest : List NodePtr) (nd : Node T) (fuel : Nat),
      IsParentChain s (n :: p :: rest) → s.deref n = some nd →
      (n :: p :: rest).length ≤ fuel →
      ∃ pw, Node.worldTransValue fuel p s = some pw ∧
        Node.worldTransValue fuel n s = some (pw * nd.local_) ∧
        specWorldTrans s (n :: p :: rest) = some (pw * nd.local_) := by
    intro n p rest nd fuel hchain hd hfuel
    obtain ⟨⟨nd', hd', hp, hp0⟩, htl⟩ := hchain
    rw [hd] at hd'
    cases hd'
    obtain ⟨f, rfl⟩ : ∃ f, fuel = f + 1 := ⟨fuel - 1, by simp at hfuel; omega⟩
    obtain ⟨pw, s1, hspec, hrec⟩ :=
      Node.worldTrans_chain s hcache rest p htl f (by simp at hfuel ⊢; omega)
    obtain ⟨pw', s1', hspec', hrec'⟩ :=
      Node.worldTrans_chain s hcache rest p htl (f + 1)
        (by simp at hfuel ⊢; omega)
    rw [hspec] at hspec'
    cases hspec'
    refine ⟨pw, by simp [Node.worldTransValue, hrec'], ?_, by simp [specWorldTrans, hspec, hd]⟩
    have := Node.worldTrans_child f n s s1 nd pw hd (by rw [hp]; exact hp0) (hcache _)
      (by rw [hp]; exact hrec)
    simp [Node.worldTransValue, this]
  refine ⟨?_, hstep, hroot⟩
  intro a b c ndA ndB ndC fuel hdA hpA hdB hpB hdC hpC hfuel
  have ha0 := (State.deref_eq_some hdA).1
  have hb0 := (State.deref_eq_some hdB).1
  have hchain : IsParentChain s [c, b, a] :=
    ⟨⟨ndC, hdC, hpC, hb0⟩, ⟨ndB, hdB, hpB, ha0⟩, ⟨ndA, hdA, hpA⟩⟩
  obtain ⟨pw, hpw, hc, _⟩ := hstep c b [a] ndC fuel hchain hdC (by simpa using hfuel)
  obtain ⟨pa, hpa, hb, _⟩ := hstep b a [] ndB fuel hchain.2 hdB (by simp; omega)
  rw [hroot a ndA fuel hdA hpA (by omega)] at hpa
  cases hpa
  rw [hb] at hpw
  cases hpw
  exact hc

/-- C10 at a concrete input: in `exChain` the world transform of node `3` is
`(2 * 3) * 5`, that of node `2` is `2 * 3`, that of the root `1` is `2`. -/
theorem C10_worldTrans_chain_witness :
    Node.worldTransValue 3 3 exChain = some ((2 * 3) * 5) ∧
    (∃ pw, Node.worldTransValue 3 2 exChain = some pw ∧
        Node.worldTransValue 3 3 exChain = some (pw * 5) ∧
        specWorldTrans exChain [3, 2, 1] = some (pw * 5)) ∧
    Node.worldTransValue 1 1 exChain = some 2 :=
  ⟨(C10_worldTrans_chain exChain (fun _ => rfl)).1 1 2 3
      { ref := 1, nodeId := 1, local_ := 2 }
      { ref := 2, parent := 1, nodeId := 2, local_ := 3 }
      { ref := 2, parent := 2, nodeId := 3, local_ := 5 } 3 rfl rfl rfl rfl rfl rfl (by decide),
   (C10_worldTrans_chain exChain (fun _ => rfl)).2.1 3 2 [1]
      { ref := 2, parent := 2, nodeId := 3, local_ := 5 } 3
      ⟨⟨_, rfl, rfl, by decide⟩, ⟨_, rfl, rfl, by decide⟩, ⟨_, rfl, rfl⟩⟩ rfl (by decide),
   (C10_worldTrans_chain exChain (fun _ => rfl)).2.2 1
      { ref := 1, nodeId := 1, local_ := 2 } 1 rfl rfl (by decide)⟩

/-! ## Memoisation of `Node::worldTrans` -/

/-- A query of `worldTrans()` changes nothing but the world-transform cache. -/
theorem Node.worldTrans_frame {T : Type} [Mul T] :
    ∀ (fuel : Nat) (m : NodePtr) (s s' : State T) (r : T),
      Node.worldTrans fuel m s = some (r, s') →
      s'.node = s.node ∧ s'.list = s.list ∧ s'.view = s.view ∧ s'.viewTrans = s.viewTrans := by
  intro fuel
  induction fuel with
  | zero =>
    intro m s s' r h
    simp [Node.worldTrans] at h
  | succ f ih =>
    intro m s s' r h
    unfold Node.worldTrans at h
    cases hd : s.deref m with
    | none => simp [hd] at h
    | some nd =>
      simp only [hd] at h
      cases hc : s.worldTrans nd.nodeId with
      | some cached =>
        simp only [hc, Option.some.injEq, Prod.mk.injEq] at h
        rw [← h.2]
        exact ⟨rfl, rfl, rfl, rfl⟩
      | none =>
        simp only [hc] at h
        by_cases hp : nd.parent = 0
        · simp [hp] at h
          rw [← h.2]
          exact ⟨rfl, rfl, rfl, rfl⟩
        · cases hrec : Node.worldTrans f nd.parent s with
          | none => simp [hp, hrec] at h
          | some res =>
            obtain ⟨pt, s1⟩ := res
            simp [hp, hrec] at h
            rw [← h.2]
            exact ih nd.parent s s1 pt hrec

/-- A query of `worldTrans()` never replaces an entry that is already cached. -/
theorem Node.worldTrans_keeps {T : Type} [Mul T] (k : Int) (v : T) :
    ∀ (fuel : Nat) (m : NodePtr) (s s' : State T) (r : T),
      Node.worldTrans fuel m s = some (r, s') →
      s.worldTrans k = some v → s'.worldTrans k = some v := by
  intro fuel
  induction fuel with
  | zero =>
    intro m s s' r h
    simp [Node.worldTrans] at h
  | succ f ih =>
    intro m s s' r h hk
    unfold Node.worldTrans at h
    cases hd : s.deref m with
    | none => simp [hd] at h
    | some nd =>
      simp only [hd] at h
      cases hc : s.worldTrans nd.nodeId with
      | some cached =>
        simp only [hc, Option.some.injEq, Prod.mk.injEq] at h
        rw [← h.2]
        exact hk
      | none =>
        simp only [hc] at h
        have hne : k ≠ nd.nodeId := by
          intro e
          rw [e, hc] at hk
          cases hk
        by_cases hp : nd.parent = 0
        · simp [hp] at h
          rw [← h.2]
          simp [Function.update_noteq hne, hk]
        · cases hrec : Node.worldTrans f nd.parent s with
          | none => simp [hp, hrec] at h
          | some res =>
            obtain ⟨pt, s1⟩ := res
            simp [hp, hrec] at h
            rw [← h.2]
            simp [Function.update_noteq hne, ih nd.parent s s1 pt hrec hk]

/-- The value returned by a query is the one the cache holds afterwards under
the node's id. -/
theorem Node.worldTrans_stores {T : Type} [Mul T] (fuel : Nat) (n : NodePtr) (s s' : State T)
    (nd : Node T) (v : T) (hd : s.deref n = some nd)
    (h : Node.worldTrans fuel n s = some (v, s')) : s'.worldTrans nd.nodeId = some v := by
  cases fuel with
  | zero => simp [Node.worldTrans] at h
  | succ f =>
    unfold Node.worldTrans at h
    simp only [hd] at h
    cases hc : s.worldTrans nd.nodeId with
    | some cached =>
      simp only [hc, Option.some.injEq, Prod.mk.injEq] at h
      rw [← h.2, hc, h.1]
    | none =>
      simp only [hc] at h
      by_cases hp : nd.parent = 0
      · simp [hp] at h
        rw [← h.2, ← h.1]
        simp
      · cases hrec : Node.worldTrans f nd.parent s with
        | none => simp [hp, hrec] at h
        | some res =>
          obtain ⟨pt, s1⟩ := res
          simp [hp, hrec] at h
          rw [← h.2, ← h.1]
          simp

/-- A query on a node whose id is cached returns the cached value and changes
nothing, whatever the local transforms are. -/
theorem Node.worldTrans_hit {T : Type} [Mul T] (f : Nat) (n : NodePtr) (s : State T)
    (nd : Node T) (v : T) (hd : s.deref n = some nd) (hc : s.worldTrans nd.nodeId = some v) :
    Node.worldTrans (f + 1) n s = some (v, s) := by
  simp [Node.worldTrans, hd, hc]

/-- The events of a pass keep a node alive with its id and keep the cache entry
stored under that id. -/
theorem runPass_keeps {T : Type} [Mul T] (n : NodePtr) (k : Int) (v : T)
    (ops : List (PassOp T)) :
    ∀ s s2 : State T, runPass ops s = some s2 →
      (∃ nd, s.deref n = some nd ∧ nd.nodeId = k) → s.worldTrans k = some v →
      (∃ nd2, s2.deref n = some nd2 ∧ nd2.nodeId = k) ∧ s2.worldTrans k = some v := by
  induction ops with
  | nil =>
    intro s s2 h hn hk
    simp only [runPass, Option.some.injEq] at h
    rw [← h]
    exact ⟨hn, hk⟩
  | cons op rest ih =>
    intro s s2 h hn hk
    unfold runPass at h
    cases hop : op.run s with
    | none => simp [hop] at h
    | some s1 =>
      simp only [hop] at h
      refine ih s1 s2 h ?_ ?_
      · obtain ⟨nd, hd, hid⟩ := hn
        cases op with
        | setLocal m t =>
          unfold PassOp.run at hop
          cases hm : s.deref m with
          | none => simp [hm] at hop
          | some md =>
            simp only [hm, Option.some.injEq] at hop
            rw [← hop]
            have hn0 := (State.deref_eq_some hd).1
            by_cases e : n = m
            · subst e
              rw [hd] at hm
              cases hm
              exact ⟨{ nd with local_ := t }, by simp [State.deref, State.setNode, hn0], hid⟩
            · exact ⟨nd, by
                simpa [State.deref, State.setNode, hn0, Function.update_noteq e] using
                  (State.deref_eq_some hd).2, hid⟩
        | query fuel m =>
          unfold PassOp.run at hop
          cases hq : Node.worldTrans fuel m s with
          | none => simp [hq] at hop
          | some res =>
            obtain ⟨r, s1'⟩ := res
            simp only [hq, Option.some.injEq] at hop
            subst hop
            refine ⟨nd, ?_, hid⟩
            unfold State.deref at hd ⊢
            rw [(Node.worldTrans_frame fuel m s s1' r hq).1]
            exact hd
      · cases op with
        | setLocal m t =>
          unfold PassOp.run at hop
          cases hm : s.deref m with
          | none => simp [hm] at hop
          | some md =>
            simp only [hm, Option.some.injEq] at hop
            rw [← hop]
            exact hk
        | query fuel m =>
          unfold PassOp.run at hop
          cases hq : Node.worldTrans fuel m s with
          | none => simp [hq] at hop
          | some res =>
            obtain ⟨r, s1'⟩ := res
            simp only [hq, Option.some.injEq] at hop
            subst hop
            exact Node.worldTrans_keeps k v fuel m s s1' r hq hk

/-- C11: let a query of `worldTrans(n)` return `v`.  After any events of the same
pass (local transforms of `n` or of other nodes overwritten, other queries made),
as long as the cache is not cleared, every query of `worldTrans(n)` returns `v`
again and changes nothing.  Once the cache is cleared, the next query on a node
whose parent chain ends in a root returns the world transform computed from the
local transforms of that moment. -/
theorem C11_worldTrans_memoized {T : Type} [Mul T] (s s1 : State T) (n : NodePtr) (nd : Node T)
    (fuel : Nat) (v : T) (hd : s.deref n = some nd)
    (hq : Node.worldTrans fuel n s = some (v, s1)) :
    (∀ (ops : List (PassOp T)) (s2 : State T), runPass ops s1 = some s2 →
      ∀ f, Node.worldTrans (f + 1) n s2 = some (v, s2)) ∧
    (∀ (ops : List (PassOp T)) (s2 : State T) (rest : List NodePtr) (f : Nat),
      runPass ops s1 = some s2 →
      IsParentChain s2.clearWorldTrans (n :: rest) → (n :: rest).length ≤ f →
      ∃ w s3, Node.worldTrans f n s2.clearWorldTrans = some (w, s3) ∧
        specWorldTrans s2.clearWorldTrans (n :: rest) = some w) := by
  have hd1 : s1.deref n = some nd := by
    unfold State.deref at hd ⊢
    rw [(Node.worldTrans_frame fuel n s s1 v hq).1]
    exact hd
  have hc1 := Node.worldTrans_stores fuel n s s1 nd v hd hq
  constructor
  · intro ops s2 hrun f
    obtain ⟨⟨nd2, hd2, hid2⟩, hc2⟩ :=
      runPass_keeps n nd.nodeId v ops s1 s2 hrun ⟨nd, hd1, rfl⟩ hc1
    exact Node.worldTrans_hit f n s2 nd2 v hd2 (by rw [hid2]; exact hc2)
  · intro ops s2 rest f _ hchain hf
    obtain ⟨w, s3, hspec, hw⟩ :=
      Node.worldTrans_chain s2.clearWorldTrans (fun _ => rfl) rest n hchain f hf
    exact ⟨w, s3, hw, hspec⟩

/-- C11 at a concrete input: in `exChain` the first query of node `3` returns
`(2 * 3) * 5 = 30`; after the local transform of the root is set to 7 (and node
`2` is queried) the query still returns 30; after the cache is cleared it
returns `(7 * 3) * 5 = 105`. -/
theorem C11_worldTrans_memoized_witness :
    ∃ s1, Node.worldTrans 3 3 exChain = some (30, s1) ∧
      (∀ (ops : List (PassOp Int)) (s2 : State Int), runPass ops s1 = some s2 →
        ∀ f, Node.worldTrans (f + 1) 3 s2 = some (30, s2)) ∧
      ∃ s2, runPass [PassOp.setLocal 1 7, PassOp.query 2 2] s1 = some s2 ∧
        Node.worldTransValue 3 3 s2 = some 30 ∧
        Node.worldTransValue 3 3 s2.clearWorldTrans = some 105 :=
  ⟨_, rfl,
    (C11_worldTrans_memoized exChain _ 3 { ref := 2, parent := 2, nodeId := 3, local_ := 5 } 3 30
      rfl rfl).1,
    _, rfl, by decide, by decide⟩

/-! ## `Node::isHidden` -/

/-- With fuel for the whole parent chain, `isHidden()` returns whether some node
of the chain has its hidden flag set or a name that matches the exclusion. -/
theorem Node.isHidden_chain {T : Type} (cull : NodePtr → Bool) (s : State T) :
    ∀ (rest : List NodePtr) (n : NodePtr), IsParentChain s (n :: rest) →
      ∀ fuel, (n :: rest).length ≤ fuel →
      Node.isHidden cull fuel n s =
        some ((n :: rest).any (fun a => s.hiddenFlag a || cull a)) := by
  intro rest
  induction rest with
  | nil =>
    intro n hchain fuel hfuel
    obtain ⟨nd, hd, hp⟩ := hchain
    obtain ⟨f, rfl⟩ : ∃ f, fuel = f + 1 := ⟨fuel - 1, by simp at hfuel; omega⟩
    have hfl : s.hiddenFlag n = nd.hidden := by simp [State.hiddenFlag, hd]
    unfold Node.isHidden
    simp only [hd, hp, ne_eq, not_true_eq_false, if_false, List.any_cons, List.any_nil, hfl]
    cases nd.hidden <;> simp
  | cons p rest' ih =>
    intro n hchain fuel hfuel
    obtain ⟨⟨nd, hd, hp, hp0⟩, htl⟩ := hchain
    obtain ⟨f, rfl⟩ : ∃ f, fuel = f + 1 := ⟨fuel - 1, by simp at hfuel; omega⟩
    have hrec := ih p htl f (by simp at hfuel ⊢; omega)
    have hpne : nd.parent ≠ 0 := by rw [hp]; exact hp0
    unfold Node.isHidden
    simp only [hd, hpne, ne_eq, not_false_eq_true, if_true]
    have hfl : s.hiddenFlag n = nd.hidden := by simp [State.hiddenFlag, hd]
    obtain ⟨anc, hanc⟩ : ∃ anc, (p :: rest').any (fun a => s.hiddenFlag a || cull a) = anc :=
      ⟨_, rfl⟩
    have hrhs : (n :: p :: rest').any (fun a => s.hiddenFlag a || cull a) =
        ((nd.hidden || cull n) || anc) := by
      rw [List.any_cons, hanc, hfl]
    rw [hanc] at hrec
    rw [hp, hrec, hrhs]
    cases nd.hidden <;> cases anc <;> simp

/-- C14: on a finite parent chain, with fuel for the chain, `isHidden(n)` returns
a value, and that value is true when the hidden flag of `n` is set, when
`isHidden(parent(n))` is true, and when any ancestor of `n` has its hidden flag
set (whatever the flag of `n` and the name match of `n` are). -/
theorem C14_isHidden_inherited {T : Type} (cull : NodePtr → Bool) (s : State T) (n : NodePtr)
    (rest : List NodePtr) (nd : Node T) (fuel : Nat)
    (hchain : IsParentChain s (n :: rest)) (hd : s.deref n = some nd)
    (hfuel : (n :: rest).length ≤ fuel) :
    ∃ b, Node.isHidden cull fuel n s = some b ∧
      (nd.hidden = true → b = true) ∧
      (nd.parent ≠ 0 → Node.isHidden cull fuel nd.parent s = some true → b = true) ∧
      ((∃ a, a ∈ rest ∧ s.hiddenFlag a = true) → b = true) := by
  refine ⟨_, Node.isHidden_chain cull s rest n hchain fuel hfuel, ?_, ?_, ?_⟩
  · intro hh
    simp [State.hiddenFlag, hd, hh]
  · intro hp hpar
    cases rest with
    | nil =>
      obtain ⟨nd', hd', hp'⟩ := hchain
      rw [hd] at hd'
      cases hd'
      exact absurd hp' hp
    | cons p rest' =>
      obtain ⟨⟨nd', hd', hp', _⟩, htl⟩ := hchain
      rw [hd] at hd'
      cases hd'
      rw [hp', Node.isHidden_chain cull s rest' p htl fuel (by simp at hfuel ⊢; omega)] at hpar
      simp only [Option.some.injEq] at hpar
      rw [List.any_cons, hpar]
      simp
  · rintro ⟨a, ha, hfa⟩
    rw [List.any_cons]
    have : rest.any (fun a => s.hiddenFlag a || cull a) = true :=
      List.any_eq_true.mpr ⟨a, ha, by simp [hfa]⟩
    simp [this]

/-- C14 at a concrete input: in `exHiddenChain` only the root `1` has its hidden
flag set and no name matches; `isHidden()` is true for the grandchild `3`. -/
theorem C14_isHidden_inherited_witness :
    Node.isHidden (fun _ => false) 3 3 exHiddenChain = some true := by
  obtain ⟨b, hb, _, _, h3⟩ :=
    C14_isHidden_inherited (fun _ => false) exHiddenChain 3 [2, 1]
      { ref := 2, parent := 2, nodeId := 3, local_ := 5 } 3
      ⟨⟨_, rfl, rfl, by decide⟩, ⟨_, rfl, rfl, by decide⟩, ⟨_, rfl, rfl⟩⟩ rfl (by decide)
  rw [hb, h3 ⟨1, by decide, rfl⟩]

/-! ## `Node::findController` -/

theorem Node.findControllerLoop_find {P C : Type} (typeId : P → String)
    (pf : P → String → String → String → Option C) (proptype ctrltype var1 var2 : String)
    (properties : List P) :
    Node.findControllerLoop typeId pf proptype ctrltype var1 var2 properties =
      match properties.find? (fun prp => decide (typeId prp = proptype)) with
      | some prp => pf prp ctrltype var1 var2
      | none => none := by
  induction properties with
  | nil => rfl
  | cons prp rest ih =>
    unfold Node.findControllerLoop
    by_cases h : typeId prp = proptype
    · simp [h]
    · simp [h, ih]

/-- C16: when `proptype` is non-empty and differs from `"<empty>"` and some
attached property has that type id, `findController` returns what
`findController(ctrltype, var1, var2)` of the first such property returns; when
`proptype` is empty or equals `"<empty>"`, it returns what the search of the
node's own controllers (`Controllable::findController`) returns. -/
theorem C16_findController_dispatch {P C : Type} (typeId : P → String)
    (pf : P → String → String → String → Option C) (cf : String → String → String → Option C)
    (properties : List P) (proptype ctrltype var1 var2 : String) :
    (∀ prp, proptype ≠ "" → proptype ≠ "<empty>" →
      properties.find? (fun q => decide (typeId q = proptype)) = some prp →
      Node.findController typeId pf cf properties proptype ctrltype var1 var2 =
        pf prp ctrltype var1 var2) ∧
    ((proptype = "" ∨ proptype = "<empty>") →
      Node.findController typeId pf cf properties proptype ctrltype var1 var2 =
        cf ctrltype var1 var2) := by
  constructor
  · intro prp h1 h2 hfind
    unfold Node.findController
    rw [if_pos ⟨h2, h1⟩, Node.findControllerLoop_find, hfind]
  · intro h
    unfold Node.findController
    rw [if_neg]
    rintro ⟨h1, h2⟩
    rcases h with h | h
    · exact h2 h
    · exact h1 h

/-- C16 at a concrete input: properties with type ids 5, 7, 7 (as strings), each
answering with its own position; the query for type `"7"` is answered by the
first property of that type, the query for the empty type by the node itself. -/
theorem C16_findController_dispatch_witness :
    Node.findController (fun q : Nat × String => q.2) (fun q _ _ _ => some q.1)
        (fun _ _ _ => some 100) [(0, "5"), (1, "7"), (2, "7")] "7" "c" "a" "b" = some 1 ∧
    Node.findController (fun q : Nat × String => q.2) (fun q _ _ _ => some q.1)
        (fun _ _ _ => some 100) [(0, "5"), (1, "7"), (2, "7")] "" "c" "a" "b" = some 100 :=
  ⟨(C16_findController_dispatch (fun q : Nat × String => q.2) (fun q _ _ _ => some q.1)
      (fun _ _ _ => some 100) [(0, "5"), (1, "7"), (2, "7")] "7" "c" "a" "b").1 (1, "7")
      (by decide) (by decide) (by decide),
   (C16_findController_dispatch (fun q : Nat × String => q.2) (fun q _ _ _ => some q.1)
      (fun _ _ _ => some 100) [(0, "5"), (1, "7"), (2, "7")] "" "c" "a" "b").2
      (Or.inl rfl)⟩

/-! ## `Node::localTransFrom` -/

/-- With fuel for the whole parent chain and the final test, the loop of
`localTransFrom` multiplies the local transforms of the nodes before the first
node whose id is `r` onto the accumulator, each one from the left. -/
theorem Node.localTransFromLoop_chain {T : Type} [Mul T] [One T] (r : Int) (s : State T) :
    ∀ (rest : List NodePtr) (n : NodePtr) (acc : T), IsParentChain s (n :: rest) →
      ∀ fuel, (n :: rest).length + 1 ≤ fuel →
      Node.localTransFromLoop r fuel n acc s =
        some (((n :: rest).takeWhile (fun a => !s.hasId r a)).foldl
          (fun t m => s.localOf m * t) acc) := by
  intro rest
  induction rest with
  | nil =>
    intro n acc hchain fuel hfuel
    obtain ⟨nd, hd, hp⟩ := hchain
    have hn0 := (State.deref_eq_some hd).1
    obtain ⟨f, rfl⟩ : ∃ f, fuel = f + 2 := ⟨fuel - 2, by simp at hfuel; omega⟩
    by_cases hid : nd.nodeId = r
    · simp [Node.localTransFromLoop, hn0, hd, hid, State.hasId, List.takeWhile]
    · simp [Node.localTransFromLoop, hn0, hd, hid, hp, State.hasId, State.localOf,
        List.takeWhile]
  | cons p rest' ih =>
    intro n acc hchain fuel hfuel
    obtain ⟨⟨nd, hd, hp, hp0⟩, htl⟩ := hchain
    have hn0 := (State.deref_eq_some hd).1
    obtain ⟨f, rfl⟩ : ∃ f, fuel = f + 1 := ⟨fuel - 1, by simp at hfuel; omega⟩
    by_cases hid : nd.nodeId = r
    · simp [Node.localTransFromLoop, hn0, hd, hid, State.hasId, List.takeWhile]
    · have hrec := ih p (nd.local_ * acc) htl f (by simp at hfuel ⊢; omega)
      have hhas : s.hasId r n = false := by simp [State.hasId, hd, hid]
      have hloc : s.localOf n = nd.local_ := by simp [State.localOf, hd]
      unfold Node.localTransFromLoop
      simp only [hn0, if_false, hd, ne_eq, hid, not_false_eq_true, if_true]
      have hrhs : (n :: p :: rest').takeWhile (fun a => !s.hasId r a) =
          n :: (p :: rest').takeWhile (fun a => !s.hasId r a) := by
        rw [List.takeWhile_cons]
        simp [hhas]
      rw [hp, hrec, hrhs, List.foldl_cons, hloc]

/-- C17: on a finite parent chain, with fuel for the chain, `localTransFrom(r)`
returns the composition of the local transforms of `n` and of its ancestors that
lie before the nearest node of the chain (from `n` upwards) whose id is `r`, the
topmost of them leftmost and the identity rightmost.  When no node of the chain
has the id `r` these are the local transforms of the whole chain down from the
root; when `n` itself has the id `r` the result is the identity. -/
theorem C17_localTransFrom_chain {T : Type} [Mul T] [One T] (s : State T) (n : NodePtr)
    (rest : List NodePtr) (r : Int) (fuel : Nat)
    (hchain : IsParentChain s (n :: rest)) (hfuel : (n :: rest).length + 1 ≤ fuel) :
    Node.localTransFrom fuel n r s =
      some (composeLocals s ((n :: rest).takeWhile (fun a => !s.hasId r a))) ∧
    ((∀ a, a ∈ n :: rest → s.hasId r a = false) →
      Node.localTransFrom fuel n r s = some (composeLocals s (n :: rest))) ∧
    (s.hasId r n = true → Node.localTransFrom fuel n r s = some 1) := by
  have hmain : Node.localTransFrom fuel n r s =
      some (composeLocals s ((n :: rest).takeWhile (fun a => !s.hasId r a))) :=
    Node.localTransFromLoop_chain r s rest n 1 hchain fuel hfuel
  refine ⟨hmain, ?_, ?_⟩
  · intro hall
    rw [hmain]
    have : (n :: rest).takeWhile (fun a => !s.hasId r a) = n :: rest := by
      apply List.takeWhile_eq_self_iff.mpr
      intro a ha
      simp [hall a ha]
    rw [this]
  · intro hn
    rw [hmain, List.takeWhile_cons]
    simp [hn, composeLocals]

/-- C17 at a concrete input: in `exChain` (ids 1, 2, 3 and local transforms 2, 3,
5 from the root down) node `3` has `localTransFrom(1) = 3 * (5 * 1)`,
`localTransFrom(99) = 2 * (3 * (5 * 1))` and `localTransFrom(3) = 1`. -/
theorem C17_localTransFrom_chain_witness :
    Node.localTransFrom 4 3 1 exChain = some (3 * (5 * 1)) ∧
    Node.localTransFrom 4 3 99 exChain = some (2 * (3 * (5 * 1))) ∧
    Node.localTransFrom 4 3 3 exChain = some 1 :=
  ⟨(C17_localTransFrom_chain exChain 3 [2, 1] 1 4
      ⟨⟨_, rfl, rfl, by decide⟩, ⟨_, rfl, rfl, by decide⟩, ⟨_, rfl, rfl⟩⟩ (by decide)).1,
   (C17_localTransFrom_chain exChain 3 [2, 1] 99 4
      ⟨⟨_, rfl, rfl, by decide⟩, ⟨_, rfl, rfl, by decide⟩, ⟨_, rfl, rfl⟩⟩ (by decide)).2.1
      (by decide),
   (C17_localTransFrom_chain exChain 3 [2, 1] 3 4
      ⟨⟨_, rfl, rfl, by decide⟩, ⟨_, rfl, rfl, by decide⟩, ⟨_, rfl, rfl⟩⟩ (by decide)).2.2
      (by decide)⟩

/-! ## `Node::center` -/

/-- With fuel for the whole parent chain, `worldTrans()` returns, whatever the
cache holds. -/
theorem Node.worldTrans_total {T : Type} [Mul T] (s : State T) :
    ∀ (rest : List NodePtr) (n : NodePtr), IsParentChain s (n :: rest) →
      ∀ fuel, (n :: rest).length ≤ fuel →
      ∃ w s1, Node.worldTrans fuel n s = some (w, s1) := by
  intro rest
  induction rest with
  | nil =>
    intro n hchain fuel hfuel
    obtain ⟨nd, hd, hp⟩ := hchain
    obtain ⟨f, rfl⟩ : ∃ f, fuel = f + 1 := ⟨fuel - 1, by simp at hfuel; omega⟩
    cases hc : s.worldTrans nd.nodeId with
    | some cached => exact ⟨cached, s, Node.worldTrans_hit f n s nd cached hd hc⟩
    | none => exact ⟨_, _, Node.worldTrans_root f n s nd hd hp hc⟩
  | cons p rest' ih =>
    intro n hchain fuel hfuel
    obtain ⟨⟨nd, hd, hp, hp0⟩, htl⟩ := hchain
    obtain ⟨f, rfl⟩ : ∃ f, fuel = f + 1 := ⟨fuel - 1, by simp at hfuel; omega⟩
    cases hc : s.worldTrans nd.nodeId with
    | some cached => exact ⟨cached, s, Node.worldTrans_hit f n s nd cached hd hc⟩
    | none =>
      obtain ⟨pw, s1, hrec⟩ := ih p htl f (by simp at hfuel ⊢; omega)
      exact ⟨_, _, Node.worldTrans_child f n s s1 nd pw hd (by rw [hp]; exact hp0) hc
        (by rw [hp]; exact hrec)⟩

theorem Node.viewTrans_hit {T : Type} [Mul T]
    (pvt : NodePtr → State T → Option (T × State T)) (wfuel : Nat) (n : NodePtr) (s : State T)
    (nd : Node T) (v : T) (hd : s.deref n = some nd) (hc : s.viewTrans nd.nodeId = some v) :
    Node.viewTrans pvt wfuel n s = some (v, s) := by
  simp [Node.viewTrans, hd, hc]

theorem BillboardNode.billboardViewTrans_hit {V M R : Type} [Mul (Transform V M R)] (identity : M)
    (pvt : NodePtr → State (Transform V M R) →
      Option (Transform V M R × State (Transform V M R)))
    (wfuel : Nat) (n : NodePtr) (s : State (Transform V M R)) (nd : Node (Transform V M R))
    (v : Transform V M R) (hd : s.deref n = some nd) (hc : s.viewTrans nd.nodeId = some v) :
    BillboardNode.viewTrans identity pvt wfuel n s = some (v, s) := by
  simp [BillboardNode.viewTrans, hd, hc]

theorem Node.viewTrans_child {T : Type} [Mul T]
    (pvt : NodePtr → State T → Option (T × State T)) (wfuel : Nat) (n : NodePtr)
    (s s1 : State T) (nd : Node T) (pv : T) (hd : s.deref n = some nd) (hp : nd.parent ≠ 0)
    (hc : s.viewTrans nd.nodeId = none) (hrec : pvt nd.parent s = some (pv, s1)) :
    Node.viewTrans pvt wfuel n s =
      some (pv * nd.local_,
        { s1 with viewTrans := Function.update s1.viewTrans nd.nodeId (some (pv * nd.local_)) }) := by
  simp [Node.viewTrans, hd, hc, hp, hrec]

theorem Node.viewTrans_root {T : Type} [Mul T]
    (pvt : NodePtr → State T → Option (T × State T)) (wfuel : Nat) (n : NodePtr)
    (s s1 : State T) (nd : Node T) (w : T) (hd : s.deref n = some nd) (hp : nd.parent = 0)
    (hc : s.viewTrans nd.nodeId = none) (hw : Node.worldTrans wfuel n s = some (w, s1)) :
    Node.viewTrans pvt wfuel n s =
      some (s.view * w,
        { s1 with viewTrans := Function.update s1.viewTrans nd.nodeId (some (s.view * w)) }) := by
  simp [Node.viewTrans, hd, hc, hp, hw]

theorem BillboardNode.billboardViewTrans_child {V M R : Type} [Mul (Transform V M R)] (identity : M)
    (pvt : NodePtr → State (Transform V M R) →
      Option (Transform V M R × State (Transform V M R)))
    (wfuel : Nat) (n : NodePtr) (s s1 : State (Transform V M R))
    (nd : Node (Transform V M R)) (pv : Transform V M R)
    (hd : s.deref n = some nd) (hp : nd.parent ≠ 0)
    (hc : s.viewTrans nd.nodeId = none) (hrec : pvt nd.parent s = some (pv, s1)) :
    BillboardNode.viewTrans identity pvt wfuel n s =
      some ({ (pv * nd.local_) with rotation := identity },
        { s1 with viewTrans := (Function.update s1.viewTrans nd.nodeId
            (some { (pv * nd.local_) with rotation := identity })) }) := by
  simp [BillboardNode.viewTrans, hd, hc, hp, hrec]

theorem BillboardNode.billboardViewTrans_root {V M R : Type} [Mul (Transform V M R)] (identity : M)
    (pvt : NodePtr → State (Transform V M R) →
      Option (Transform V M R × State (Transform V M R)))
    (wfuel : Nat) (n : NodePtr) (s s1 : State (Transform V M R))
    (nd : Node (Transform V M R)) (w : Transform V M R)
    (hd : s.deref n = some nd) (hp : nd.parent = 0)
    (hc : s.viewTrans nd.nodeId = none) (hw : Node.worldTrans wfuel n s = some (w, s1)) :
    BillboardNode.viewTrans identity pvt wfuel n s =
      some ({ (s.view * w) with rotation := identity },
        { s1 with viewTrans := (Function.update s1.viewTrans nd.nodeId
            (some { (s.view * w) with rotation := identity })) }) := by
  simp [BillboardNode.viewTrans, hd, hc, hp, hw]

/-- With fuel for the whole parent chain, the virtual `viewTrans()` returns,
whatever the caches hold. -/
theorem viewTransVirtual_total {V M R : Type} [Mul (Transform V M R)] (identity : M)
    (s : State (Transform V M R)) :
    ∀ (rest : List NodePtr) (n : NodePtr), IsParentChain s (n :: rest) →
      ∀ fuel, (n :: rest).length ≤ fuel →
      ∃ t s1, viewTransVirtual identity fuel n s = some (t, s1) := by
  intro rest
  induction rest with
  | nil =>
    intro n hchain fuel hfuel
    obtain ⟨f, rfl⟩ : ∃ f, fuel = f + 1 := ⟨fuel - 1, by simp at hfuel; omega⟩
    obtain ⟨w, s1, hw⟩ := Node.worldTrans_total s [] n hchain (f + 1) hfuel
    obtain ⟨nd, hd, hp⟩ := hchain
    unfold viewTransVirtual
    simp only [hd]
    cases hc : s.viewTrans nd.nodeId with
    | some cached =>
      cases nd.billboard
      · exact ⟨cached, s, by simpa using Node.viewTrans_hit _ _ n s nd cached hd hc⟩
      · exact ⟨cached, s, by
          simpa using BillboardNode.billboardViewTrans_hit identity _ _ n s nd cached hd hc⟩
    | none =>
      cases nd.billboard
      · exact ⟨_, _, by simpa using Node.viewTrans_root _ _ n s s1 nd w hd hp hc hw⟩
      · exact ⟨_, _, by
          simpa using BillboardNode.billboardViewTrans_root identity _ _ n s s1 nd w hd hp hc hw⟩
  | cons p rest' ih =>
    intro n hchain fuel hfuel
    obtain ⟨⟨nd, hd, hp, hp0⟩, htl⟩ := hchain
    obtain ⟨f, rfl⟩ : ∃ f, fuel = f + 1 := ⟨fuel - 1, by simp at hfuel; omega⟩
    obtain ⟨pv, s1, hrec⟩ := ih p htl f (by simp at hfuel ⊢; omega)
    have hpne : nd.parent ≠ 0 := by rw [hp]; exact hp0
    rw [← hp] at hrec
    unfold viewTransVirtual
    simp only [hd]
    cases hc : s.viewTrans nd.nodeId with
    | some cached =>
      cases nd.billboard
      · exact ⟨cached, s, by simpa using Node.viewTrans_hit _ _ n s nd cached hd hc⟩
      · exact ⟨cached, s, by
          simpa using BillboardNode.billboardViewTrans_hit identity _ _ n s nd cached hd hc⟩
    | none =>
      cases nd.billboard
      · exact ⟨_, _, by simpa using Node.viewTrans_child _ _ n s s1 nd pv hd hpne hc hrec⟩
      · exact ⟨_, _, by
          simpa using BillboardNode.billboardViewTrans_child identity _ _ n s s1 nd pv hd hpne hc hrec⟩

theorem Node.viewTrans_frame {T : Type} [Mul T]
    (pvt : NodePtr → State T → Option (T × State T))
    (hpvt : ∀ m s s' r, pvt m s = some (r, s') →
      s'.node = s.node ∧ s'.list = s.list ∧ s'.view = s.view)
    (wfuel : Nat) (n : NodePtr) (s s' : State T) (t : T)
    (h : Node.viewTrans pvt wfuel n s = some (t, s')) :
    s'.node = s.node ∧ s'.list = s.list ∧ s'.view = s.view := by
  unfold Node.viewTrans at h
  cases hd : s.deref n with
  | none => simp [hd] at h
  | some nd =>
    simp only [hd] at h
    cases hc : s.viewTrans nd.nodeId with
    | some cached =>
      simp only [hc, Option.some.injEq, Prod.mk.injEq] at h
      rw [← h.2]
      exact ⟨rfl, rfl, rfl⟩
    | none =>
      simp only [hc] at h
      by_cases hp : nd.parent = 0
      · cases hw : Node.worldTrans wfuel n s with
        | none => simp [hp, hw] at h
        | some res =>
          obtain ⟨w, s1⟩ := res
          simp [hp, hw] at h
          rw [← h.2]
          have hf := Node.worldTrans_frame wfuel n s s1 w hw
          exact ⟨hf.1, hf.2.1, hf.2.2.1⟩
      · cases hrec : pvt nd.parent s with
        | none => simp [hp, hrec] at h
        | some res =>
          obtain ⟨pv, s1⟩ := res
          simp [hp, hrec] at h
          rw [← h.2]
          exact hpvt nd.parent s s1 pv hrec

theorem BillboardNode.billboardViewTrans_frame {V M R : Type} [Mul (Transform V M R)] (identity : M)
    (pvt : NodePtr → State (Transform V M R) →
      Option (Transform V M R × State (Transform V M R)))
    (hpvt : ∀ m s s' r, pvt m s = some (r, s') →
      s'.node = s.node ∧ s'.list = s.list ∧ s'.view = s.view)
    (wfuel : Nat) (n : NodePtr) (s s' : State (Transform V M R)) (t : Transform V M R)
    (h : BillboardNode.viewTrans identity pvt wfuel n s = some (t, s')) :
    s'.node = s.node ∧ s'.list = s.list ∧ s'.view = s.view := by
  unfold BillboardNode.viewTrans at h
  cases hd : s.deref n with
  | none => simp [hd] at h
  | some nd =>
    simp only [hd] at h
    cases hc : s.viewTrans nd.nodeId with
    | some cached =>
      simp only [hc, Option.some.injEq, Prod.mk.injEq] at h
      rw [← h.2]
      exact ⟨rfl, rfl, rfl⟩
    | none =>
      simp only [hc] at h
      by_cases hp : nd.parent = 0
      · cases hw : Node.worldTrans wfuel n s with
        | none => simp [hp, hw] at h
        | some res =>
          obtain ⟨w, s1⟩ := res
          simp [hp, hw] at h
          rw [← h.2]
          have hf := Node.worldTrans_frame wfuel n s s1 w hw
          exact ⟨hf.1, hf.2.1, hf.2.2.1⟩
      · cases hrec : pvt nd.parent s with
        | none => simp [hp, hrec] at h
        | some res =>
          obtain ⟨pv, s1⟩ := res
          simp [hp, hrec] at h
          rw [← h.2]
          exact hpvt nd.parent s s1 pv hrec

/-- A query of the virtual `viewTrans()` changes nothing but the two caches. -/
theorem viewTransVirtual_frame {V M R : Type} [Mul (Transform V M R)] (identity : M) :
    ∀ (fuel : Nat) (m : NodePtr) (s s' : State (Transform V M R)) (r : Transform V M R),
      viewTransVirtual identity fuel m s = some (r, s') →
      s'.node = s.node ∧ s'.list = s.list ∧ s'.view = s.view := by
  intro fuel
  induction fuel with
  | zero =>
    intro m s s' r h
    simp [viewTransVirtual] at h
  | succ f ih =>
    intro m s s' r h
    unfold viewTransVirtual at h
    cases hd : s.deref m with
    | none => simp [hd] at h
    | some nd =>
      simp only [hd] at h
      cases hb : nd.billboard
      · simp only [hb] at h
        exact Node.viewTrans_frame _ ih _ m s s' r (by simpa using h)
      · simp only [hb, if_true] at h
        exact BillboardNode.billboardViewTrans_frame identity _ ih _ m s s' r h

/-- C18: let `b` be a billboard on a finite parent chain whose id has no entry in
the view cache, queried with fuel for the chain.  The base computation returns a
transform `base`: `parent.viewTrans() * local` when `b` has a parent,
`scene.view * worldTrans()` otherwise.  Then `viewTrans()` of `b` returns a
transform whose rotation is the identity matrix and whose translation and scale
are those of `base`; the view cache holds exactly that transform under the id of
`b` afterwards, and a further query returns it again without changing anything. -/
theorem C18_billboard_viewTrans {V M R : Type} [Mul (Transform V M R)] (identity : M)
    (s : State (Transform V M R)) (b : NodePtr) (rest : List NodePtr)
    (nd : Node (Transform V M R)) (f : Nat)
    (hchain : IsParentChain s (b :: rest)) (hd : s.deref b = some nd)
    (hbb : nd.billboard = true) (hmiss : s.viewTrans nd.nodeId = none)
    (hfuel : (b :: rest).length ≤ f + 1) :
    ∃ base s1 t s2,
      (nd.parent ≠ 0 → ∃ pv, viewTransVirtual identity f nd.parent s = some (pv, s1) ∧
        base = pv * nd.local_) ∧
      (nd.parent = 0 → ∃ w, Node.worldTrans (f + 1) b s = some (w, s1) ∧ base = s.view * w) ∧
      viewTransVirtual identity (f + 1) b s = some (t, s2) ∧
      BillboardNode.viewTrans identity (viewTransVirtual identity f) (f + 1) b s = some (t, s2) ∧
      t.rotation = identity ∧ t.translation = base.translation ∧ t.scale = base.scale ∧
      s2.viewTrans nd.nodeId = some t ∧
      (∀ g, viewTransVirtual identity (g + 1) b s2 = some (t, s2)) := by
  have hvirt : viewTransVirtual identity (f + 1) b s =
      BillboardNode.viewTrans identity (viewTransVirtual identity f) (f + 1) b s := by
    rw [viewTransVirtual]
    simp only [hd, hbb, if_true]
  have hsecond : ∀ (t : Transform V M R) (s1 : State (Transform V M R)) (g : Nat),
      viewTransVirtual identity (g + 1) b
          { s1 with viewTrans := Function.update s1.viewTrans nd.nodeId (some t) } =
        some (t, { s1 with viewTrans := Function.update s1.viewTrans nd.nodeId (some t) }) ∨
      s1.node ≠ s.node := by
    intro t s1 g
    by_cases hnode : s1.node = s.node
    · left
      have hd2 : State.deref
          { s1 with viewTrans := Function.update s1.viewTrans nd.nodeId (some t) } b =
          some nd := by
        unfold State.deref at hd ⊢
        simpa [hnode] using hd
      rw [viewTransVirtual]
      simp only [hd2, hbb, if_true]
      exact BillboardNode.billboardViewTrans_hit identity _ _ b _ nd t hd2 (by simp)
    · exact Or.inr hnode
  by_cases hp : nd.parent = 0
  · obtain ⟨w, s1, hw⟩ := Node.worldTrans_total s rest b hchain (f + 1) hfuel
    have hres := BillboardNode.billboardViewTrans_root identity (viewTransVirtual identity f) (f + 1)
      b s s1 nd w hd hp hmiss hw
    refine ⟨s.view * w, s1, { (s.view * w) with rotation := identity }, _,
      fun h => absurd hp h, fun _ => ⟨w, hw, rfl⟩, hvirt.trans hres, hres, rfl, rfl, rfl,
      by simp, ?_⟩
    intro g
    rcases hsecond { (s.view * w) with rotation := identity } s1 g with h | h
    · exact h
    · exact absurd (Node.worldTrans_frame (f + 1) b s s1 w hw).1 h
  · cases rest with
    | nil =>
      obtain ⟨nd', hd', hp'⟩ := hchain
      rw [hd] at hd'
      cases hd'
      exact absurd hp' hp
    | cons p rest' =>
      obtain ⟨⟨nd', hd', hp', _⟩, htl⟩ := hchain
      rw [hd] at hd'
      cases hd'
      obtain ⟨pv, s1, hrec⟩ :=
        viewTransVirtual_total identity s rest' p htl f (by simp at hfuel ⊢; omega)
      rw [← hp'] at hrec
      have hres := BillboardNode.billboardViewTrans_child identity (viewTransVirtual identity f) (f + 1)
        b s s1 nd pv hd hp hmiss hrec
      refine ⟨pv * nd.local_, s1, { (pv * nd.local_) with rotation := identity }, _,
        fun _ => ⟨pv, hrec, rfl⟩, fun h => absurd h hp, hvirt.trans hres, hres, rfl, rfl, rfl,
        by simp, ?_⟩
      intro g
      rcases hsecond { (pv * nd.local_) with rotation := identity } s1 g with h | h
      · exact h
      · exact absurd (viewTransVirtual_frame identity f nd.parent s s1 pv hrec).1 h

/-- C18 at a concrete input: in `exBillboard` the billboard `2` (id 8) under the
root `1` gets the view transform with rotation 1 (the identity), translation
(21, 42, 63) and scale 1, where the base computation has rotation 6; the
transform is cached under id 8 and returned again by a second query. -/
theorem C18_billboard_viewTrans_witness :
    (viewTransVirtual 1 2 2 exBillboard).map Prod.fst =
      some { rotation := 1, translation := { x := 21, y := 42, z := 63 }, scale := 1 } ∧
    ∃ t s2, viewTransVirtual 1 2 2 exBillboard = some (t, s2) ∧ t.rotation = 1 ∧
      s2.viewTrans 8 = some t ∧ ∀ g, viewTransVirtual 1 (g + 1) 2 s2 = some (t, s2) := by
  refine ⟨rfl, ?_⟩
  obtain ⟨base, s1, t, s2, _, _, h3, _, hr, _, _, hc, h2⟩ :=
    C18_billboard_viewTrans 1 exBillboard 2 [1]
      { ref := 2, parent := 1, nodeId := 8, billboard := true,
        local_ := { rotation := 3, translation := { x := 10, y := 20, z := 30 }, scale := 1 } }
      1 ⟨⟨_, rfl, rfl, by decide⟩, ⟨_, rfl, rfl⟩⟩ rfl rfl rfl (by decide)
  exact ⟨t, s2, h3, hr, hc, h2⟩

/-! ## `LODNode::transform` -/

theorem State.deref_setNode {T : Type} (s : State T) (c m : NodePtr) (x : Node T)
    (hc : c ≠ 0) : (s.setNode c x).deref m = if m = c then some x else s.deref m := by
  unfold State.deref State.setNode
  by_cases hm : m = c
  · subst hm
    simp [hc]
  · simp [hm, Function.update_noteq hm]

/-- The first loop of `LODNode::transform` sets the hidden flag of every listed
node and changes nothing else. -/
theorem LODNode.hideAll_spec {T : Type} :
    ∀ (l : List NodePtr) (s : State T), (∀ c, c ∈ l → ∃ nd, s.deref c = some nd) →
      ∃ s', LODNode.hideAll l s = some s' ∧ s'.list = s.list ∧
        (∀ m, s'.deref m =
          if m ∈ l then (s.deref m).map (fun nd => { nd with hidden := true })
          else s.deref m) := by
  intro l
  induction l with
  | nil =>
    intro s _
    exact ⟨s, rfl, rfl, fun m => by simp⟩
  | cons c rest ih =>
    intro s hlive
    obtain ⟨nd, hd⟩ := hlive c (List.mem_cons_self _ _)
    have hc0 := (State.deref_eq_some hd).1
    have hlive1 : ∀ m, m ∈ rest →
        ∃ md, (s.setNode c { nd with hidden := true }).deref m = some md := by
      intro m hm
      rw [State.deref_setNode _ _ _ _ hc0]
      by_cases e : m = c
      · exact ⟨_, by rw [if_pos e]⟩
      · rw [if_neg e]
        exact hlive m (List.mem_cons_of_mem _ hm)
    obtain ⟨s', h1, h2, h3⟩ := ih (s.setNode c { nd with hidden := true }) hlive1
    refine ⟨s', by simp only [LODNode.hideAll, hd, h1], by rw [h2]; rfl, ?_⟩
    intro m
    rw [h3 m, State.deref_setNode _ _ _ _ hc0]
    by_cases e : m = c
    · subst e
      by_cases hr : m ∈ rest
      · simp [hr, hd]
      · simp [hr, hd]
    · by_cases hr : m ∈ rest
      · simp [hr, e]
      · simp [hr, e]

/-- The second loop of `LODNode::transform` assigns to the child number `i` of a
duplicate-free list the value computed for the index `c0 + i` and changes
nothing else. -/
theorem LODNode.applyRanges_spec {T D : Type} [LinearOrder D] (ranges : List (D × D)) (d : D) :
    ∀ (l : List NodePtr) (c0 : Nat) (s : State T), l.Nodup →
      (∀ c, c ∈ l → ∃ nd, s.deref c = some nd) →
      ∃ s', LODNode.applyRanges ranges d c0 l s = some s' ∧ s'.list = s.list ∧
        (∀ m, m ∉ l → s'.deref m = s.deref m) ∧
        (∀ i (hi : i < l.length), s'.deref l[i] =
          (s.deref l[i]).map
            (fun nd => { nd with hidden := LODNode.rangeHidden ranges d (c0 + i) })) := by
  intro l
  induction l with
  | nil =>
    intro c0 s _ _
    exact ⟨s, rfl, rfl, fun _ _ => rfl, fun i hi => absurd hi (by simp)⟩
  | cons c rest ih =>
    intro c0 s hnd hlive
    obtain ⟨nd, hd⟩ := hlive c (List.mem_cons_self _ _)
    have hc0 := (State.deref_eq_some hd).1
    have hcr : c ∉ rest := (List.nodup_cons.mp hnd).1
    have hlive1 : ∀ m, m ∈ rest → ∃ md,
        (s.setNode c { nd with hidden := LODNode.rangeHidden ranges d c0 }).deref m =
          some md := by
      intro m hm
      rw [State.deref_setNode _ _ _ _ hc0]
      by_cases e : m = c
      · exact ⟨_, by rw [if_pos e]⟩
      · rw [if_neg e]
        exact hlive m (List.mem_cons_of_mem _ hm)
    obtain ⟨s', h1, h2, h3, h4⟩ :=
      ih (c0 + 1) (s.setNode c { nd with hidden := LODNode.rangeHidden ranges d c0 })
        (List.nodup_cons.mp hnd).2 hlive1
    refine ⟨s', by simp only [LODNode.applyRanges, hd, h1], by rw [h2]; rfl, ?_, ?_⟩
    · intro m hm
      have hmc : m ≠ c := fun e => hm (e ▸ List.mem_cons_self _ _)
      have hmr : m ∉ rest := fun h => hm (List.mem_cons_of_mem _ h)
      rw [h3 m hmr, State.deref_setNode _ _ _ _ hc0, if_neg hmc]
    · intro i hi
      cases i with
      | zero =>
        simp only [List.getElem_cons_zero, Nat.add_zero]
        rw [h3 c hcr, State.deref_setNode _ _ _ _ hc0, if_pos rfl, hd]
        rfl
      | succ j =>
        simp only [List.getElem_cons_succ]
        have hj : j < rest.length := by simpa using hi
        have hne : rest[j] ≠ c := fun e => hcr (e ▸ List.getElem_mem _)
        rw [h4 j hj, State.deref_setNode _ _ _ _ hc0, if_neg hne]
        have : c0 + 1 + j = c0 + (j + 1) := by omega
        rw [this]

theorem LODNode.rangeHidden_eq_false {D : Type} [LinearOrder D] (ranges : List (D × D))
    (d : D) (c : Nat) :
    LODNode.rangeHidden ranges d c = false ↔
      ∃ h : c < ranges.length, (ranges[c]).1 ≤ d ∧ d < (ranges[c]).2 := by
  unfold LODNode.rangeHidden
  by_cases hc : c < ranges.length
  · simp [hc]
  · simp [hc]

theorem IsParentChain.head_live {T : Type} {s : State T} {n : NodePtr} {rest : List NodePtr}
    (h : IsParentChain s (n :: rest)) : ∃ nd, s.deref n = some nd := by
  cases rest with
  | nil =>
    obtain ⟨nd, hd, _⟩ := h
    exact ⟨nd, hd⟩
  | cons p rest' =>
    obtain ⟨⟨nd, hd, _⟩, _⟩ := h
    exact ⟨nd, hd⟩

/-! ### States of the same shape -/

theorem State.SameShape.shape_refl {T : Type} (s : State T) : State.SameShape s s :=
  ⟨rfl, fun _ => rfl⟩

theorem State.SameShape.shape_trans {T : Type} {s s1 s2 : State T}
    (h1 : State.SameShape s s1) (h2 : State.SameShape s1 s2) : State.SameShape s s2 :=
  ⟨h2.1.trans h1.1, fun m => (h2.2 m).trans (h1.2 m)⟩

theorem State.SameShape.shape_symm {T : Type} {s s1 : State T}
    (h : State.SameShape s s1) : State.SameShape s1 s :=
  ⟨h.1.symm, fun m => (h.2 m).symm⟩

theorem State.SameShape.of_frame {T : Type} {s s1 : State T} (hn : s1.node = s.node)
    (hl : s1.list = s.list) : State.SameShape s s1 :=
  ⟨hl, fun m => by unfold State.deref; rw [hn]⟩

theorem State.SameShape.deref_some {T : Type} {s s1 : State T} (h : State.SameShape s s1)
    {m : NodePtr} {nd : Node T} (hd : s.deref m = some nd) :
    ∃ nd1, s1.deref m = some nd1 ∧ nd1.parent = nd.parent := by
  have hm := h.2 m
  rw [hd] at hm
  cases h1 : s1.deref m with
  | none => rw [h1] at hm; cases hm
  | some nd1 =>
    rw [h1] at hm
    exact ⟨nd1, rfl, Option.some.inj hm⟩

theorem State.SameShape.of_setNode {T : Type} {s : State T} {c : NodePtr} {nd x : Node T}
    (hd : s.deref c = some nd) (hp : x.parent = nd.parent) :
    State.SameShape s (s.setNode c x) := by
  refine ⟨rfl, fun m => ?_⟩
  rw [State.deref_setNode _ _ _ _ (State.deref_eq_some hd).1]
  by_cases e : m = c
  · subst e
    rw [if_pos rfl, hd]
    simp [hp]
  · rw [if_neg e]

theorem State.SameShape.parentChain {T : Type} {s s1 : State T} (h : State.SameShape s s1) :
    ∀ l : List NodePtr, IsParentChain s l → IsParentChain s1 l := by
  intro l
  induction l with
  | nil => intro hc; exact hc
  | cons n rest ih =>
    intro hc
    cases rest with
    | nil =>
      obtain ⟨nd, hd, hp⟩ := hc
      obtain ⟨nd1, hd1, hp1⟩ := h.deref_some hd
      exact ⟨nd1, hd1, hp1.trans hp⟩
    | cons p rest' =>
      obtain ⟨⟨nd, hd, hp, hp0⟩, htl⟩ := hc
      obtain ⟨nd1, hd1, hp1⟩ := h.deref_some hd
      exact ⟨⟨nd1, hd1, hp1.trans hp, hp0⟩, ih htl⟩

theorem State.SameShape.subtreeWithin {T : Type} {s s1 : State T} (h : State.SameShape s s1) :
    ∀ (d : Nat) (n : NodePtr), State.SubtreeWithin s d n → State.SubtreeWithin s1 d n := by
  intro d
  induction d with
  | zero => intro n hn; exact hn
  | succ d ih =>
    intro n hn
    obtain ⟨⟨nd, hd⟩, hk⟩ := hn
    obtain ⟨nd1, hd1, _⟩ := h.deref_some hd
    refine ⟨⟨nd1, hd1⟩, ?_⟩
    intro c hc
    rw [h.1] at hc
    exact ih c (hk c hc)

theorem State.SameShape.inSubtree {T : Type} {s s1 : State T} (h : State.SameShape s s1)
    {a b : NodePtr} (hab : InSubtree s1 a b) : InSubtree s a b := by
  induction hab with
  | self a => exact InSubtree.self a
  | child a c b hc _ ih =>
    rw [h.1] at hc
    exact InSubtree.child a c b hc ih

/-! ### The transform pass returns -/

/-- The first loop of `LODNode::transform` on live children returns and keeps the
shape of the state. -/
theorem LODNode.hideAll_shape {T : Type} (l : List NodePtr) (s : State T)
    (hlive : ∀ c, c ∈ l → ∃ nd, s.deref c = some nd) :
    ∃ s1, LODNode.hideAll l s = some s1 ∧ State.SameShape s s1 := by
  obtain ⟨s1, h1, h2, h3⟩ := LODNode.hideAll_spec l s hlive
  refine ⟨s1, h1, h2, fun m => ?_⟩
  rw [h3 m]
  by_cases hm : m ∈ l
  · rw [if_pos hm]
    cases s.deref m <;> rfl
  · rw [if_neg hm]

/-- The second loop of `LODNode::transform` on live children returns and keeps
the shape of the state. -/
theorem LODNode.applyRanges_shape {T D : Type} [LinearOrder D] (ranges : List (D × D)) (d : D) :
    ∀ (l : List NodePtr) (c0 : Nat) (s : State T),
      (∀ c, c ∈ l → ∃ nd, s.deref c = some nd) →
      ∃ s1, LODNode.applyRanges ranges d c0 l s = some s1 ∧ State.SameShape s s1 := by
  intro l
  induction l with
  | nil =>
    intro c0 s _
    exact ⟨s, rfl, State.SameShape.shape_refl s⟩
  | cons c rest ih =>
    intro c0 s hlive
    obtain ⟨nd, hd⟩ := hlive c (List.mem_cons_self _ _)
    have hsh : State.SameShape s
        (s.setNode c { nd with hidden := LODNode.rangeHidden ranges d c0 }) :=
      State.SameShape.of_setNode hd rfl
    obtain ⟨s1, h1, h2⟩ := ih (c0 + 1)
      (s.setNode c { nd with hidden := LODNode.rangeHidden ranges d c0 })
      (fun m hm => by
        obtain ⟨md, hmd⟩ := hlive m (List.mem_cons_of_mem _ hm)
        obtain ⟨md1, hmd1, _⟩ := hsh.deref_some hmd
        exact ⟨md1, hmd1⟩)
    exact ⟨s1, by simp only [LODNode.applyRanges, hd, h1], hsh.shape_trans h2⟩

/-- The closing loop of `Node::transform` returns when the virtual call returns on
every child, in every state of the shape of the first one. -/
theorem Node.transformChildren_total {T : Type}
    (child : NodePtr → State T → Option (State T × List (Int × T))) (s : State T) :
    ∀ cs : List NodePtr,
      (∀ c, c ∈ cs → ∀ st, State.SameShape s st →
        ∃ st1 ins, child c st = some (st1, ins) ∧ State.SameShape st st1) →
      ∀ st, State.SameShape s st →
        ∃ st1 ins, Node.transformChildren child cs st = some (st1, ins) ∧
          State.SameShape st st1 := by
  intro cs
  induction cs with
  | nil =>
    intro _ st _
    exact ⟨st, [], rfl, State.SameShape.shape_refl st⟩
  | cons c rest ih =>
    intro hchild st hst
    obtain ⟨st1, ins1, h1, hs1⟩ := hchild c (List.mem_cons_self _ _) st hst
    obtain ⟨st2, ins2, h2, hs2⟩ :=
      ih (fun m hm => hchild m (List.mem_cons_of_mem _ hm)) st1 (hst.shape_trans hs1)
    exact ⟨st2, ins1 ++ ins2, by simp only [Node.transformChildren, h1, h2],
      hs1.shape_trans hs2⟩

/-- The steps of `Node::transform` before the loop over the children: the state
differs from the one left by `Controllable::transform` in the caches only. -/
theorem Node.transform_head {T : Type} [Mul T]
    (body : NodePtr → State T → Option (Int × T)) (wfuel : Nat) (this : NodePtr)
    (sc : State T)
    (hchain : ∃ rest, IsParentChain sc (this :: rest) ∧ (this :: rest).length ≤ wfuel) :
    ∃ s1 ins,
      (match body this sc with
        | none => some (sc, ([] : List (Int × T)))
        | some (bodyId, t) =>
          match Node.worldTrans wfuel this sc with
          | none => none
          | some (w, s1) => some (s1, [(bodyId, w * t)])) = some (s1, ins) ∧
      s1.node = sc.node ∧ s1.list = sc.list := by
  cases hb : body this sc with
  | none => exact ⟨sc, [], rfl, rfl, rfl⟩
  | some bt =>
    obtain ⟨bodyId, t⟩ := bt
    obtain ⟨rest, hc, hlen⟩ := hchain
    obtain ⟨w, s1, hw⟩ := Node.worldTrans_total sc rest this hc wfuel hlen
    have hf := Node.worldTrans_frame wfuel this sc s1 w hw
    exact ⟨s1, [(bodyId, w * t)], by simp only [hw], hf.1, hf.2.1⟩

/-- The base step `Node::transform()` returns and keeps the shape of the state,
when `Controllable::transform` does and the virtual call returns on every child. -/
theorem Node.transform_total {T : Type} [Mul T]
    (ctrl : NodePtr → State T → Option (State T))
    (body : NodePtr → State T → Option (Int × T))
    (child : NodePtr → State T → Option (State T × List (Int × T)))
    (wfuel : Nat) (this : NodePtr) (s : State T)
    (hctrl : ∀ n st, ∃ st1, ctrl n st = some st1 ∧ State.SameShape st st1)
    (hchain : ∃ rest, IsParentChain s (this :: rest) ∧ (this :: rest).length ≤ wfuel)
    (hchild : ∀ c, c ∈ s.list (ListRef.children this) → ∀ st, State.SameShape s st →
      ∃ st1 ins, child c st = some (st1, ins) ∧ State.SameShape st st1) :
    ∃ s0 ins, Node.transform ctrl body child wfuel this s = some (s0, ins) ∧
      State.SameShape s s0 := by
  obtain ⟨sc, hsc, hshc⟩ := hctrl this s
  obtain ⟨rest, hc, hlen⟩ := hchain
  obtain ⟨s1, ins, h1, hn1, hl1⟩ :=
    Node.transform_head body wfuel this sc ⟨rest, hshc.parentChain _ hc, hlen⟩
  have hsh1 : State.SameShape s s1 := hshc.shape_trans (State.SameShape.of_frame hn1 hl1)
  have hlist : s1.list (ListRef.children this) = s.list (ListRef.children this) := by
    rw [hsh1.1]
  obtain ⟨s2, ins2, h2, hs2⟩ := Node.transformChildren_total child s
    (s.list (ListRef.children this)) hchild s1 hsh1
  refine ⟨s2, ins ++ ins2, ?_, hsh1.shape_trans hs2⟩
  unfold Node.transform
  simp only [hsc, h1, hlist, h2]

/-- The call `LODNode::transform()` returns and keeps the shape of the state, when
the base step does and the children are live. -/
theorem LODNode.lodTransform_total {V M R D : Type} [Mul (Transform V M R)] [LinearOrder D]
    (identity : M)
    (ctrl : NodePtr → State (Transform V M R) → Option (State (Transform V M R)))
    (body : NodePtr → State (Transform V M R) → Option (Int × Transform V M R))
    (child : NodePtr → State (Transform V M R) →
      Option (State (Transform V M R) × List (Int × Transform V M R)))
    (distanceOf : Transform V M R → V → D) (wfuel : Nat) (this : NodePtr) (center : V)
    (ranges : List (D × D)) (s : State (Transform V M R))
    (hctrl : ∀ n st, ∃ st1, ctrl n st = some st1 ∧ State.SameShape st st1)
    (hchain : ∃ rest, IsParentChain s (this :: rest) ∧ (this :: rest).length ≤ wfuel)
    (hchild : ∀ c, c ∈ s.list (ListRef.children this) → ∀ st, State.SameShape s st →
      ∃ st1 ins, child c st = some (st1, ins) ∧ State.SameShape st st1)
    (hlive : ∀ c, c ∈ s.list (ListRef.children this) → ∃ nd, s.deref c = some nd) :
    ∃ s1 ins, LODNode.transform identity ctrl body child distanceOf wfuel this center ranges s =
        some (s1, ins) ∧ State.SameShape s s1 := by
  obtain ⟨s0, ins, hbase, hsh0⟩ :=
    Node.transform_total ctrl body child wfuel this s hctrl hchain hchild
  obtain ⟨rest, hc, hlen⟩ := hchain
  obtain ⟨nd, hthis⟩ := hc.head_live
  obtain ⟨nd0, hthis0, _⟩ := hsh0.deref_some hthis
  have hlive0 : ∀ c, c ∈ s0.list (ListRef.children this) → ∃ cnd, s0.deref c = some cnd := by
    intro c hcm
    rw [hsh0.1] at hcm
    obtain ⟨cnd, hcnd⟩ := hlive c hcm
    obtain ⟨cnd0, hcnd0, _⟩ := hsh0.deref_some hcnd
    exact ⟨cnd0, hcnd0⟩
  unfold LODNode.transform
  simp only [hbase, hthis0]
  cases hk : s0.list (ListRef.children this) with
  | nil => exact ⟨s0, ins, rfl, hsh0⟩
  | cons first others =>
    rw [hk] at hlive0
    simp only []
    by_cases hre : ranges.isEmpty = true
    · simp only [hre, if_true]
      obtain ⟨s1, h1, hs1⟩ := LODNode.hideAll_shape (first :: others) s0 hlive0
      obtain ⟨fnd, hfnd⟩ := hlive0 first (List.mem_cons_self _ _)
      obtain ⟨fnd1, hfnd1, _⟩ := hs1.deref_some hfnd
      simp only [h1, hfnd1]
      exact ⟨_, ins, rfl,
        hsh0.shape_trans (hs1.shape_trans (State.SameShape.of_setNode hfnd1 rfl))⟩
    · simp only [hre, if_false, Bool.false_eq_true]
      obtain ⟨vt, s1, hvt⟩ :=
        viewTransVirtual_total identity s0 rest this (hsh0.parentChain _ hc) wfuel hlen
      have hfr := viewTransVirtual_frame identity wfuel this s0 s1 vt hvt
      have hs1 : State.SameShape s0 s1 := State.SameShape.of_frame hfr.1 hfr.2.1
      obtain ⟨s2, h2, hs2⟩ := LODNode.applyRanges_shape ranges (distanceOf vt center)
        (first :: others) 0 s1
        (fun c hcm => by
          obtain ⟨cnd, hcnd⟩ := hlive0 c hcm
          obtain ⟨cnd1, hcnd1, _⟩ := hs1.deref_some hcnd
          exact ⟨cnd1, hcnd1⟩)
      simp only [hvt, h2]
      exact ⟨s2, ins, rfl, hsh0.shape_trans (hs1.shape_trans hs2)⟩

/-- The virtual `transform()` returns on a finite subtree of live nodes whose
parent chains the transform queries can follow, and keeps the shape of the state;
`Controllable::transform` and the `transform()` of the classes defined outside
`glnode.cpp` are taken to return and to keep the shape. -/
theorem transformVirtual_total {V M R D : Type} [Mul (Transform V M R)] [LinearOrder D]
    (identity : M)
    (ctrl : NodePtr → State (Transform V M R) → Option (State (Transform V M R)))
    (body : NodePtr → State (Transform V M R) → Option (Int × Transform V M R))
    (classOf : NodePtr → NodeClass V D)
    (other : NodePtr → State (Transform V M R) →
      Option (State (Transform V M R) × List (Int × Transform V M R)))
    (distanceOf : Transform V M R → V → D) (wfuel : Nat)
    (hctrl : ∀ n st, ∃ st1, ctrl n st = some st1 ∧ State.SameShape st st1)
    (hother : ∀ n st, ∃ st1 ins, other n st = some (st1, ins) ∧ State.SameShape st st1) :
    ∀ (fuel : Nat) (this : NodePtr) (s : State (Transform V M R)),
      State.SubtreeWithin s fuel this →
      (∀ m, InSubtree s this m →
        ∃ rest, IsParentChain s (m :: rest) ∧ (m :: rest).length ≤ wfuel) →
      ∃ s1 ins, transformVirtual identity ctrl body classOf other distanceOf wfuel fuel this s =
          some (s1, ins) ∧ State.SameShape s s1 := by
  intro fuel
  induction fuel with
  | zero => intro this s h _; exact absurd h (by simp [State.SubtreeWithin])
  | succ f ih =>
    intro this s hfin hchains
    obtain ⟨⟨nd, hd⟩, hkids⟩ := hfin
    have hchild : ∀ c, c ∈ s.list (ListRef.children this) → ∀ st, State.SameShape s st →
        ∃ st1 ins, transformVirtual identity ctrl body classOf other distanceOf wfuel f c st =
          some (st1, ins) ∧ State.SameShape st st1 := by
      intro c hc st hst
      refine ih c st (hst.subtreeWithin f c (hkids c hc)) ?_
      intro m hm
      obtain ⟨rest, hr, hlen⟩ := hchains m (InSubtree.child this c m hc (hst.inSubtree hm))
      exact ⟨rest, hst.parentChain _ hr, hlen⟩
    have hlive : ∀ c, c ∈ s.list (ListRef.children this) → ∃ cnd, s.deref c = some cnd := by
      intro c hc
      cases f with
      | zero => exact absurd (hkids c hc) (by simp [State.SubtreeWithin])
      | succ f1 => exact (hkids c hc).1
    unfold transformVirtual
    simp only [hd]
    cases classOf this with
    | node =>
      exact Node.transform_total ctrl body _ wfuel this s hctrl
        (hchains this (InSubtree.self this)) hchild
    | lod center ranges =>
      exact LODNode.lodTransform_total identity ctrl body _ distanceOf wfuel this center ranges s
        hctrl (hchains this (InSubtree.self this)) hchild hlive
    | other => exact hother this s

/-- The virtual `transform()` returns on every child of a node with a finite
subtree. -/
theorem transformVirtual_children {V M R D : Type} [Mul (Transform V M R)] [LinearOrder D]
    (identity : M)
    (ctrl : NodePtr → State (Transform V M R) → Option (State (Transform V M R)))
    (body : NodePtr → State (Transform V M R) → Option (Int × Transform V M R))
    (classOf : NodePtr → NodeClass V D)
    (other : NodePtr → State (Transform V M R) →
      Option (State (Transform V M R) × List (Int × Transform V M R)))
    (distanceOf : Transform V M R → V → D) (wfuel fuel : Nat) (this : NodePtr)
    (s : State (Transform V M R))
    (hctrl : ∀ n st, ∃ st1, ctrl n st = some st1 ∧ State.SameShape st st1)
    (hother : ∀ n st, ∃ st1 ins, other n st = some (st1, ins) ∧ State.SameShape st st1)
    (hfin : State.SubtreeWithin s (fuel + 1) this)
    (hchains : ∀ m, InSubtree s this m →
      ∃ rest, IsParentChain s (m :: rest) ∧ (m :: rest).length ≤ wfuel) :
    ∀ c, c ∈ s.list (ListRef.children this) → ∀ st, State.SameShape s st →
      ∃ st1 ins, transformVirtual identity ctrl body classOf other distanceOf wfuel fuel c st =
        some (st1, ins) ∧ State.SameShape st st1 := by
  intro c hc st hst
  refine transformVirtual_total identity ctrl body classOf other distanceOf wfuel hctrl hother
    fuel c st (hst.subtreeWithin fuel c (hfin.2 c hc)) ?_
  intro m hm
  obtain ⟨rest, hr, hlen⟩ := hchains m (InSubtree.child this c m hc (hst.inSubtree hm))
  exact ⟨rest, hst.parentChain _ hr, hlen⟩

/-! ### The hidden flags after `LODNode::transform` -/

/-- C12: let an LOD node with a non-empty range list have a finite subtree of live
nodes (of height at most `fuel + 1`) whose parent chains have at most `wfuel`
nodes, and a non-empty, duplicate-free list of children.  Then the base step
`Node::transform()`, which runs the virtual `transform()` of every child, returns
a state `s0` with the same lists, `viewTrans()` returns a transform `vt` there,
and `transform()` returns.  With `d` the distance computed from `vt` and the
centre, the hidden flag of the child number `i` is clear afterwards exactly when
`i < ranges.count()` and `near_i <= d < far_i`, and it is set otherwise, in
particular for every `i >= ranges.count()`.  `Controllable::transform` and the
`transform()` of classes defined outside `glnode.cpp` are taken to return and to
leave lists, liveness and parents alone. -/
theorem C12_lod_ranges {V M R D : Type} [Mul (Transform V M R)] [LinearOrder D] (identity : M)
    (ctrl : NodePtr → State (Transform V M R) → Option (State (Transform V M R)))
    (body : NodePtr → State (Transform V M R) → Option (Int × Transform V M R))
    (classOf : NodePtr → NodeClass V D)
    (other : NodePtr → State (Transform V M R) →
      Option (State (Transform V M R) × List (Int × Transform V M R)))
    (distanceOf : Transform V M R → V → D) (wfuel fuel : Nat) (this : NodePtr) (center : V)
    (ranges : List (D × D)) (s : State (Transform V M R))
    (hctrl : ∀ n st, ∃ st1, ctrl n st = some st1 ∧ State.SameShape st st1)
    (hother : ∀ n st, ∃ st1 ins, other n st = some (st1, ins) ∧ State.SameShape st st1)
    (hfin : State.SubtreeWithin s (fuel + 1) this)
    (hchains : ∀ m, InSubtree s this m →
      ∃ rest, IsParentChain s (m :: rest) ∧ (m :: rest).length ≤ wfuel)
    (hkids : s.list (ListRef.children this) ≠ [])
    (hnodup : (s.list (ListRef.children this)).Nodup)
    (hranges : ranges ≠ []) :
    ∃ s0 ins vt s1 s2,
      Node.transform ctrl body
        (transformVirtual identity ctrl body classOf other distanceOf wfuel fuel)
        wfuel this s = some (s0, ins) ∧
      s0.list = s.list ∧
      viewTransVirtual identity wfuel this s0 = some (vt, s1) ∧
      LODNode.transform identity ctrl body
        (transformVirtual identity ctrl body classOf other distanceOf wfuel fuel)
        distanceOf wfuel this center ranges s = some (s2, ins) ∧
      s2.list = s.list ∧
      ∀ i (hi : i < (s.list (ListRef.children this)).length),
        ∃ cnd, s2.deref (s.list (ListRef.children this))[i] = some cnd ∧
          (cnd.hidden = false ↔
            ∃ h : i < ranges.length,
              (ranges[i]).1 ≤ distanceOf vt center ∧ distanceOf vt center < (ranges[i]).2) ∧
          (ranges.length ≤ i → cnd.hidden = true) := by
  have hchild := transformVirtual_children identity ctrl body classOf other distanceOf wfuel
    fuel this s hctrl hother hfin hchains
  obtain ⟨s0, ins, hbase, hsh0⟩ := Node.transform_total ctrl body
    (transformVirtual identity ctrl body classOf other distanceOf wfuel fuel) wfuel this s
    hctrl (hchains this (InSubtree.self this)) hchild
  obtain ⟨rest, hchain, hlen⟩ := hchains this (InSubtree.self this)
  obtain ⟨nd, hthis⟩ := hchain.head_live
  obtain ⟨nd0, hthis0, _⟩ := hsh0.deref_some hthis
  have hk0 : s0.list (ListRef.children this) = s.list (ListRef.children this) := by
    rw [hsh0.1]
  have hlive : ∀ c, c ∈ s.list (ListRef.children this) → ∃ cnd, s.deref c = some cnd := by
    intro c hc
    cases fuel with
    | zero => exact absurd (hfin.2 c hc) (by simp [State.SubtreeWithin])
    | succ f1 => exact (hfin.2 c hc).1
  obtain ⟨vt, s1, hvt⟩ :=
    viewTransVirtual_total identity s0 rest this (hsh0.parentChain _ hchain) wfuel hlen
  have hfr := viewTransVirtual_frame identity wfuel this s0 s1 vt hvt
  have hs1 : State.SameShape s s1 := hsh0.shape_trans (State.SameShape.of_frame hfr.1 hfr.2.1)
  have hlive1 : ∀ c, c ∈ s.list (ListRef.children this) → ∃ cnd, s1.deref c = some cnd := by
    intro c hc
    obtain ⟨cnd, hcnd⟩ := hlive c hc
    obtain ⟨cnd1, hcnd1, _⟩ := hs1.deref_some hcnd
    exact ⟨cnd1, hcnd1⟩
  obtain ⟨s2, h1, h2, _, h4⟩ :=
    LODNode.applyRanges_spec ranges (distanceOf vt center)
      (s.list (ListRef.children this)) 0 s1 hnodup hlive1
  refine ⟨s0, ins, vt, s1, s2, hbase, hsh0.1, hvt, ?_, ?_, ?_⟩
  · unfold LODNode.transform
    simp only [hbase, hthis0, hk0]
    cases hk : s.list (ListRef.children this) with
    | nil => exact absurd hk hkids
    | cons first others =>
      have hre : ranges.isEmpty = false := by
        cases ranges with
        | nil => exact absurd rfl hranges
        | cons _ _ => rfl
      rw [hk] at h1
      simp [hre, hvt, h1]
  · rw [h2, hs1.1]
  · intro i hi
    obtain ⟨cnd1, hcnd1⟩ := hlive1 _ (List.getElem_mem hi)
    refine ⟨{ cnd1 with hidden := LODNode.rangeHidden ranges (distanceOf vt center) i }, ?_,
      LODNode.rangeHidden_eq_false ranges _ i, ?_⟩
    · rw [h4 i hi, hcnd1]
      simp
    · intro hle
      simp [LODNode.rangeHidden, Nat.not_lt.mpr hle]

theorem InSubtree.inv {T : Type} {s : State T} {a b : NodePtr} (h : InSubtree s a b) :
    b = a ∨ ∃ c, c ∈ s.list (ListRef.children a) ∧ InSubtree s c b := by
  cases h with
  | self => exact Or.inl rfl
  | child _ c _ hc hb => exact Or.inr ⟨c, hc, hb⟩

/-- The subtree of node `1` in `exLOD` consists of the nodes `1`, `2` and `3`. -/
theorem exLOD_subtree : ∀ m, InSubtree exLOD 1 m → m = 1 ∨ m = 2 ∨ m = 3 := by
  intro m h
  rcases h.inv with rfl | ⟨c, hc, hb⟩
  · exact Or.inl rfl
  · have hc' : c = 2 ∨ c = 3 := by simpa [exLOD] using hc
    rcases hc' with rfl | rfl
    · rcases hb.inv with rfl | ⟨c1, hc1, _⟩
      · exact Or.inr (Or.inl rfl)
      · exact absurd hc1 (by simp [exLOD])
    · rcases hb.inv with rfl | ⟨c1, hc1, _⟩
      · exact Or.inr (Or.inr rfl)
      · exact absurd hc1 (by simp [exLOD])

/-- In `exLOD` the subtree of node `1` has height 2 and every parent chain has at
most 2 nodes. -/
theorem exLOD_finite :
    State.SubtreeWithin exLOD 2 1 ∧
    ∀ m, InSubtree exLOD 1 m → ∃ rest, IsParentChain exLOD (m :: rest) ∧
      (m :: rest).length ≤ 2 := by
  constructor
  · refine ⟨⟨_, rfl⟩, ?_⟩
    intro c hc
    have hc' : c = 2 ∨ c = 3 := by simpa [exLOD] using hc
    rcases hc' with rfl | rfl
    · exact ⟨⟨_, rfl⟩, fun c hc => absurd hc (by simp [exLOD])⟩
    · exact ⟨⟨_, rfl⟩, fun c hc => absurd hc (by simp [exLOD])⟩
  · intro m hm
    rcases exLOD_subtree m hm with rfl | rfl | rfl
    · exact ⟨[], ⟨_, rfl, rfl⟩, by decide⟩
    · exact ⟨[1], ⟨⟨_, rfl, rfl, by decide⟩, ⟨_, rfl, rfl⟩⟩, by decide⟩
    · exact ⟨[1], ⟨⟨_, rfl, rfl, by decide⟩, ⟨_, rfl, rfl⟩⟩, by decide⟩

/-- C12 at concrete inputs: the LOD node of `exLOD` with the ranges `[0, 10)`,
`[10, 100)` and two children shows only the first child at distance 5, only the
second at distance 50 and none at distance 500. -/
theorem C12_lod_ranges_witness :
    (∃ s0 ins vt s1 s2,
      Node.transform (fun _ s => some s) (fun _ _ => none) (exTransformVirtual exPlain 1)
        2 1 exLOD = some (s0, ins) ∧
      s0.list = exLOD.list ∧
      viewTransVirtual 1 2 1 s0 = some (vt, s1) ∧
      LODNode.transform 1 (fun _ s => some s) (fun _ _ => none) (exTransformVirtual exPlain 1)
        exDistance 2 1 { x := 5, y := 0, z := 0 } exRanges exLOD = some (s2, ins) ∧
      s2.list = exLOD.list ∧
      ∀ i (hi : i < (exLOD.list (ListRef.children 1)).length),
        ∃ cnd, s2.deref (exLOD.list (ListRef.children 1))[i] = some cnd ∧
          (cnd.hidden = false ↔
            ∃ h : i < exRanges.length,
              (exRanges[i]).1 ≤ exDistance vt { x := 5, y := 0, z := 0 } ∧
                exDistance vt { x := 5, y := 0, z := 0 } < (exRanges[i]).2) ∧
          (exRanges.length ≤ i → cnd.hidden = true)) ∧
    exFlags (LODNode.transform 1 (fun _ s => some s) (fun _ _ => none)
      (exTransformVirtual exPlain 1) exDistance 2 1
      { x := 5, y := 0, z := 0 } exRanges exLOD) = some (false, true) ∧
    exFlags (LODNode.transform 1 (fun _ s => some s) (fun _ _ => none)
      (exTransformVirtual exPlain 1) exDistance 2 1
      { x := 50, y := 0, z := 0 } exRanges exLOD) = some (true, false) ∧
    exFlags (LODNode.transform 1 (fun _ s => some s) (fun _ _ => none)
      (exTransformVirtual exPlain 1) exDistance 2 1
      { x := 500, y := 0, z := 0 } exRanges exLOD) = some (true, true) :=
  ⟨C12_lod_ranges 1 (fun _ s => some s) (fun _ _ => none) exPlain (fun _ s => some (s, []))
      exDistance 2 1 1 { x := 5, y := 0, z := 0 } exRanges exLOD
      (fun _ st => ⟨st, rfl, State.SameShape.shape_refl st⟩)
      (fun _ st => ⟨st, [], rfl, State.SameShape.shape_refl st⟩)
      exLOD_finite.1 exLOD_finite.2 (by decide) (by decide) (by decide),
    by decide, by decide, by decide⟩

/-- The pass on the nested scene `exNestedLOD`, run on the root as an LOD node with
the ranges `exRanges` at distance 5: the root shows its first child only, and
the `transform()` of the child `2`, an LOD node without ranges, has shown its
first child `4` and hidden its second child `5`. -/
theorem transformVirtual_nested_example :
    exFlags4 (LODNode.transform 1 (fun _ s => some s) (fun _ _ => none)
      (exTransformVirtual exNestedClass 2) exDistance 2 1
      { x := 5, y := 0, z := 0 } exRanges exNestedLOD) = some (false, true, false, true) := by
  decide

/-- C19: `update(t)` returns the state unchanged when the controller is inactive,
when it has no live target, and when the channel yields no sample at the
controller time.  When the controller is active, the target is live and the
channel yields `v`, the only change of the state is that the hidden flag of the
target becomes the negation of `v`: the other flag bits, the local transform and
every other member of the target, and all other nodes, stay as they were. -/
theorem C19_visibility_update {T Time : Type} (ctrlTime : Time → Time)
    (interpolate : Time → Int → Option Bool × Int) (ctrl : VisibilityController)
    (time : Time) (s : State T) :
    ((ctrl.active = false ∨ s.deref ctrl.target = none ∨
        (interpolate (ctrlTime time) ctrl.visLast).1 = none) →
      (VisibilityController.update ctrlTime interpolate ctrl time s).2 = s) ∧
    (∀ nd v, ctrl.active = true → s.deref ctrl.target = some nd →
      (interpolate (ctrlTime time) ctrl.visLast).1 = some v →
      (VisibilityController.update ctrlTime interpolate ctrl time s).2 =
        s.setNode ctrl.target { nd with hidden := !v } ∧
      (VisibilityController.update ctrlTime interpolate ctrl time s).2.deref ctrl.target =
        some { nd with hidden := !v } ∧
      (∀ m, m ≠ ctrl.target →
        (VisibilityController.update ctrlTime interpolate ctrl time s).2.node m = s.node m)) := by
  constructor
  · intro h
    unfold VisibilityController.update
    cases ha : ctrl.active
    · simp
    · cases hd : s.deref ctrl.target with
      | none => simp
      | some nd =>
        cases hi : interpolate (ctrlTime time) ctrl.visLast with
        | mk sample last =>
          rcases h with h | h | h
          · rw [ha] at h
            cases h
          · rw [hd] at h
            cases h
          · rw [hi] at h
            simp only at h
            subst h
            simp
  · intro nd v ha hd hv
    have hres : (VisibilityController.update ctrlTime interpolate ctrl time s).2 =
        s.setNode ctrl.target { nd with hidden := !v } := by
      unfold VisibilityController.update
      cases hi : interpolate (ctrlTime time) ctrl.visLast with
      | mk sample last =>
        rw [hi] at hv
        simp only at hv
        subst hv
        simp [ha, hd]
    have ht0 := (State.deref_eq_some hd).1
    refine ⟨hres, by rw [hres, State.deref_setNode _ _ _ _ ht0, if_pos rfl], ?_⟩
    intro m hm
    rw [hres]
    simp [State.setNode, Function.update_noteq hm]

/-- C19 at concrete inputs: node `3` of `exHiddenChain` is visible; a controller
whose channel yields no sample leaves the state as it is, one whose channel
yields `false` sets the hidden flag of node `3`. -/
theorem C19_visibility_update_witness :
    (VisibilityController.update (fun t : Int => t) (fun _ last => (none, last))
        { active := true, target := 3, visLast := 0 } 5 exHiddenChain).2 = exHiddenChain ∧
    (VisibilityController.update (fun t : Int => t) (fun _ last => (some false, last))
        { active := true, target := 3, visLast := 0 } 5 exHiddenChain).2 =
      exHiddenChain.setNode 3
        { ref := 2, parent := 2, nodeId := 3, local_ := 5, hidden := !false } :=
  ⟨(C19_visibility_update (fun t : Int => t) (fun _ last => (none, last))
      { active := true, target := 3, visLast := 0 } 5 exHiddenChain).1 (Or.inr (Or.inr rfl)),
   ((C19_visibility_update (fun t : Int => t) (fun _ last => (some false, last))
      { active := true, target := 3, visLast := 0 } 5 exHiddenChain).2
      { ref := 2, parent := 2, nodeId := 3, local_ := 5 } false rfl rfl rfl).1⟩

/-! ## `MultiTargetTransformController::setInterpolator` -/

theorem MultiTargetTransformController.setInterpolatorLoop_absent {B I : Type}
    (isNiBlock : B → String → Bool) (nb nt : B → I) (node : NodePtr) (blk : B) :
    ∀ targets : List (NodePtr × Option I), (∀ tt, tt ∈ targets → tt.1 ≠ node) →
      MultiTargetTransformController.setInterpolatorLoop isNiBlock nb nt node blk targets =
        (false, targets) := by
  intro targets
  induction targets with
  | nil =>
    intro _
    rfl
  | cons tt rest ih =>
    intro h
    unfold MultiTargetTransformController.setInterpolatorLoop
    rw [if_neg (h tt (List.mem_cons_self _ _)),
      ih (fun x hx => h x (List.mem_cons_of_mem _ hx))]

theorem MultiTargetTransformController.setInterpolatorLoop_first {B I : Type}
    (isNiBlock : B → String → Bool) (nb nt : B → I) (node : NodePtr) (blk : B) :
    ∀ (pre post : List (NodePtr × Option I)) (old : Option I),
      (∀ tt, tt ∈ pre → tt.1 ≠ node) →
      MultiTargetTransformController.setInterpolatorLoop isNiBlock nb nt node blk
          (pre ++ (node, old) :: post) =
        (true, pre ++ (node,
          MultiTargetTransformController.newInterpolator isNiBlock nb nt blk) :: post) := by
  intro pre
  induction pre with
  | nil =>
    intro post old _
    simp [MultiTargetTransformController.setInterpolatorLoop]
  | cons tt rest ih =>
    intro post old h
    rw [List.cons_append]
    unfold MultiTargetTransformController.setInterpolatorLoop
    rw [if_neg (h tt (List.mem_cons_self _ _)),
      ih post old (fun x hx => h x (List.mem_cons_of_mem _ hx))]
    rfl

/-- A list with a pair whose node is `node` splits at the first such pair. -/
theorem exists_first_target {I : Type} (node : NodePtr) :
    ∀ targets : List (NodePtr × Option I), (∃ tt, tt ∈ targets ∧ tt.1 = node) →
      ∃ pre old post, targets = pre ++ (node, old) :: post ∧
        ∀ tt, tt ∈ pre → tt.1 ≠ node := by
  intro targets
  induction targets with
  | nil =>
    rintro ⟨tt, hmem, _⟩
    simp at hmem
  | cons hd rest ih =>
    rintro ⟨tt, hmem, htt⟩
    by_cases hhd : hd.1 = node
    · refine ⟨[], hd.2, rest, ?_, fun _ h => by simp at h⟩
      rw [← hhd]
      rfl
    · rcases List.mem_cons.mp hmem with e | hr
      · exact absurd (e ▸ htt) hhd
      · obtain ⟨pre, old, post, hsplit, hpre⟩ := ih ⟨tt, hr, htt⟩
        refine ⟨hd :: pre, old, post, by rw [hsplit]; rfl, ?_⟩
        intro x hx
        rcases List.mem_cons.mp hx with e | hx'
        · rw [e]
          exact hhd
        · exact hpre x hx'

/-- C20: for a valid interpolator block, when `n` is the node of no pair of the
target list, `setInterpolator` returns false and leaves the list unchanged; when
`n` is the node of some pair, it returns true and the new list is the old one
with the interpolator of the first pair whose node is `n` replaced by the one
created for the block, so the number of pairs and the node of every pair are
as before. -/
theorem C20_setInterpolator_targets {B I : Type} (isNiBlock : B → String → Bool)
    (nb nt : B → I) (n : NodePtr) (blk : B) (targets : List (NodePtr × Option I)) :
    ((∀ tt, tt ∈ targets → tt.1 ≠ n) →
      MultiTargetTransformController.setInterpolator isNiBlock nb nt n (some blk) targets =
        (false, targets)) ∧
    ((∃ tt, tt ∈ targets ∧ tt.1 = n) →
      ∃ pre old post, targets = pre ++ (n, old) :: post ∧ (∀ tt, tt ∈ pre → tt.1 ≠ n) ∧
        MultiTargetTransformController.setInterpolator isNiBlock nb nt n (some blk) targets =
          (true, pre ++ (n,
            MultiTargetTransformController.newInterpolator isNiBlock nb nt blk) :: post)) ∧
    ((MultiTargetTransformController.setInterpolator isNiBlock nb nt n (some blk)
        targets).2.map Prod.fst = targets.map Prod.fst ∧
      (MultiTargetTransformController.setInterpolator isNiBlock nb nt n (some blk)
        targets).2.length = targets.length) := by
  have hfound : (∃ tt, tt ∈ targets ∧ tt.1 = n) →
      ∃ pre old post, targets = pre ++ (n, old) :: post ∧ (∀ tt, tt ∈ pre → tt.1 ≠ n) ∧
        MultiTargetTransformController.setInterpolator isNiBlock nb nt n (some blk) targets =
          (true, pre ++ (n,
            MultiTargetTransformController.newInterpolator isNiBlock nb nt blk) :: post) := by
    intro h
    obtain ⟨pre, old, post, hsplit, hpre⟩ := exists_first_target n targets h
    refine ⟨pre, old, post, hsplit, hpre, ?_⟩
    rw [hsplit]
    exact MultiTargetTransformController.setInterpolatorLoop_first isNiBlock nb nt n blk
      pre post old hpre
  have habsent : (∀ tt, tt ∈ targets → tt.1 ≠ n) →
      MultiTargetTransformController.setInterpolator isNiBlock nb nt n (some blk) targets =
        (false, targets) :=
    MultiTargetTransformController.setInterpolatorLoop_absent isNiBlock nb nt n blk targets
  refine ⟨habsent, hfound, ?_⟩
  by_cases h : ∃ tt, tt ∈ targets ∧ tt.1 = n
  · obtain ⟨pre, old, post, hsplit, _, hres⟩ := hfound h
    rw [hres]
    constructor
    · rw [hsplit]
      simp
    · rw [hsplit]
      simp
  · have h' : ∀ tt, tt ∈ targets → tt.1 ≠ n := fun tt hm e => h ⟨tt, hm, e⟩
    rw [habsent h']
    exact ⟨rfl, rfl⟩

/-- C20 at concrete inputs: with the targets `(1, -)`, `(2, a)`, `(2, b)` and a
transform-interpolator block, the call for node `7` changes nothing and returns
false; the call for node `2` replaces the interpolator of the first pair of node
`2` only and returns true. -/
theorem C20_setInterpolator_targets_witness :
    MultiTargetTransformController.setInterpolator
        (fun (b : String) ty => decide (b = ty)) (fun _ => "bspline") (fun _ => "transform")
        7 (some "NiTransformInterpolator") [(1, none), (2, some "a"), (2, some "b")] =
      (false, [(1, none), (2, some "a"), (2, some "b")]) ∧
    MultiTargetTransformController.setInterpolator
        (fun (b : String) ty => decide (b = ty)) (fun _ => "bspline") (fun _ => "transform")
        2 (some "NiTransformInterpolator") [(1, none), (2, some "a"), (2, some "b")] =
      (true, [(1, none), (2, some "transform"), (2, some "b")]) := by
  constructor
  · exact (C20_setInterpolator_targets (fun (b : String) ty => decide (b = ty))
      (fun _ => "bspline") (fun _ => "transform") 7 "NiTransformInterpolator"
      [(1, none), (2, some "a"), (2, some "b")]).1 (by decide)
  · obtain ⟨pre, old, post, _, _, hres⟩ :=
      (C20_setInterpolator_targets (fun (b : String) ty => decide (b = ty))
        (fun _ => "bspline") (fun _ => "transform") 2 "NiTransformInterpolator"
        [(1, none), (2, some "a"), (2, some "b")]).2.1 ⟨(2, some "a"), by decide, rfl⟩
    decide

/-! ## `compareNodes` as an ordering -/

theorem compareNodes_irrefl {N Z : Type} [LinearOrder Z] (fa : N → Bool) (cz : N → Z) (a : N) :
    compareNodes fa cz a a = false := by
  unfold compareNodes
  cases fa a <;> simp

theorem compareNodes_trans {N Z : Type} [LinearOrder Z] (fa : N → Bool) (cz : N → Z)
    (a b c : N) (h1 : compareNodes fa cz a b = true) (h2 : compareNodes fa cz b c = true) :
    compareNodes fa cz a c = true := by
  unfold compareNodes at h1 h2 ⊢
  cases ha : fa a <;> cases hb : fa b <;> cases hc : fa c <;> simp_all <;>
    first
      | exact lt_trans h1 h2
      | exact lt_trans h2 h1

/-- C25: for depths in a linear order `compareNodes` is a strict weak ordering:
it is irreflexive, asymmetric and transitive, and the equivalence it induces
(neither node goes before the other) is transitive; that equivalence is having
the same alpha status and the same depth. -/
theorem C25_compareNodes_strict_weak {N Z : Type} [LinearOrder Z] (fa : N → Bool)
    (cz : N → Z) :
    (∀ a, compareNodes fa cz a a = false) ∧
    (∀ a b, compareNodes fa cz a b = true → compareNodes fa cz b a = false) ∧
    (∀ a b c, compareNodes fa cz a b = true → compareNodes fa cz b c = true →
      compareNodes fa cz a c = true) ∧
    (∀ a b c, compareEquiv (compareNodes fa cz) a b = true →
      compareEquiv (compareNodes fa cz) b c = true →
      compareEquiv (compareNodes fa cz) a c = true) ∧
    (∀ a b, compareEquiv (compareNodes fa cz) a b = true ↔ (fa a = fa b ∧ cz a = cz b)) := by
  refine ⟨compareNodes_irrefl fa cz, compareNodes_asymm fa cz, compareNodes_trans fa cz, ?_,
    compareEquiv_compareNodes fa cz⟩
  intro a b c hab hbc
  rw [compareEquiv_compareNodes] at hab hbc ⊢
  exact ⟨hab.1.trans hbc.1, hab.2.trans hbc.2⟩

/-! ## `Node::findController` without a matching property -/

/-- C29: when `proptype` is non-empty and differs from `"<empty>"` and no
attached property has that type id, `findController` returns null, whatever the
search of the node's own controllers would return. -/
theorem C29_findController_no_property {P C : Type} (typeId : P → String)
    (pf : P → String → String → String → Option C) (cf : String → String → String → Option C)
    (properties : List P) (proptype ctrltype var1 var2 : String)
    (h1 : proptype ≠ "") (h2 : proptype ≠ "<empty>")
    (hno : ∀ prp, prp ∈ properties → typeId prp ≠ proptype) :
    Node.findController typeId pf cf properties proptype ctrltype var1 var2 = none := by
  unfold Node.findController
  rw [if_pos ⟨h2, h1⟩, Node.findControllerLoop_find]
  have : properties.find? (fun prp => decide (typeId prp = proptype)) = none := by
    apply List.find?_eq_none.mpr
    intro prp hprp
    simpa using hno prp hprp
  rw [this]

/-- C29 at a concrete input: the properties have the type ids 5 and 7, the node's
own controllers would answer with controller 100, and the query for the type
`"9"` returns null. -/
theorem C29_findController_no_property_witness :
    (fun (_ : String) (_ : String) (_ : String) => some 100) "c" "a" "b" = some 100 ∧
    Node.findController (fun q : Nat × String => q.2) (fun q _ _ _ => some q.1)
        (fun _ _ _ => some 100) [(0, "5"), (1, "7")] "9" "c" "a" "b" = none :=
  ⟨rfl, C29_findController_no_property (fun q : Nat × String => q.2) (fun q _ _ _ => some q.1)
    (fun _ _ _ => some 100) [(0, "5"), (1, "7")] "9" "c" "a" "b" (by decide) (by decide)
    (by decide)⟩

/-! ## The depth bias of `Node::center` -/

/-- C27: the bias of `center()` is the truncating quotient of the `int` division
`1000 / id`.  For a node whose identity exceeds 1000 that quotient is 0 and
`center()` returns the translation of the world transform.  For two nodes with
identities above 1000 whose world transforms have the same `z`, the depths that
`center()` yields are equal, and `compareNodes` puts neither before the other
when their alpha status is the same. -/
theorem C27_center_bias_truncates {M R : Type} [LinearOrderedRing R]
    [Mul (Transform (Vector3 R) M R)] :
    (∀ (s : State (Transform (Vector3 R) M R)) (n : NodePtr) (rest : List NodePtr)
        (nd : Node (Transform (Vector3 R) M R)) (fuel : Nat),
      IsParentChain s (n :: rest) → s.deref n = some nd → 1000 < nd.nodeId →
      (n :: rest).length ≤ fuel →
      Int.tdiv 1000 nd.nodeId = 0 ∧
      ∃ w s1, Node.worldTrans fuel n s = some (w, s1) ∧
        Node.center fuel n s = some (w.translation, s1)) ∧
    (∀ (fa : NodePtr → Bool) (cz : NodePtr → R) (a b : NodePtr)
        (wa wb : Transform (Vector3 R) M R) (ida idb : Int),
      1000 < ida → 1000 < idb → wa.translation.z = wb.translation.z →
      cz a = wa.translation.z + ((Int.tdiv 1000 ida : Int) : R) →
      cz b = wb.translation.z + ((Int.tdiv 1000 idb : Int) : R) →
      fa a = fa b →
      cz a = cz b ∧ compareNodes fa cz a b = false ∧ compareNodes fa cz b a = false) := by
  constructor
  · intro s n rest nd fuel hchain hd hid hfuel
    have hq : Int.tdiv 1000 nd.nodeId = 0 := Int.tdiv_eq_zero_of_lt (by decide) hid
    refine ⟨hq, ?_⟩
    obtain ⟨w, s1, hw⟩ := Node.worldTrans_total s rest n hchain fuel hfuel
    obtain ⟨f, rfl⟩ : ∃ f, fuel = f + 1 := ⟨fuel - 1, by simp at hfuel; omega⟩
    have hd1 : s1.deref n = some nd := by
      unfold State.deref at hd ⊢
      rw [(Node.worldTrans_frame (f + 1) n s s1 w hw).1]
      exact hd
    have hhit := Node.worldTrans_hit f n s1 nd w hd1
      (Node.worldTrans_stores (f + 1) n s s1 nd w hd hw)
    have hne : nd.nodeId ≠ 0 := by omega
    refine ⟨w, s1, hw, ?_⟩
    unfold Node.center
    simp only [hw, hhit, hd1, Node.id, hne, if_false, hq, Int.cast_zero, add_zero]
  · intro fa cz a b wa wb ida idb ha hb hz hca hcb hfab
    have hqa : Int.tdiv 1000 ida = 0 := Int.tdiv_eq_zero_of_lt (by decide) ha
    have hqb : Int.tdiv 1000 idb = 0 := Int.tdiv_eq_zero_of_lt (by decide) hb
    have heq : cz a = cz b := by
      rw [hca, hcb, hqa, hqb, hz]
    have he := (compareEquiv_compareNodes fa cz a b).mpr ⟨hfab, heq⟩
    simp only [compareEquiv, Bool.and_eq_true, Bool.not_eq_true'] at he
    exact ⟨heq, he.1, he.2⟩

/-- C27 at concrete inputs: the quotient for the identity 3 is 333; in `exFarIds`
the nodes `1` (id 1001) and `2` (id 2000) both get the centre (4, 5, 6), their
world translation. -/
theorem C27_center_bias_truncates_witness :
    Int.tdiv 1000 3 = 333 ∧
    (Node.center 1 1 exFarIds).map Prod.fst = some { x := 4, y := 5, z := 6 } ∧
    (Node.center 1 2 exFarIds).map Prod.fst = some { x := 4, y := 5, z := 6 } ∧
    ∃ w s1, Node.worldTrans 1 1 exFarIds = some (w, s1) ∧
      Node.center 1 1 exFarIds = some (w.translation, s1) :=
  ⟨by decide, rfl, rfl,
    ((@C27_center_bias_truncates Int Int _ _).1 exFarIds 1 []
      { ref := 1, nodeId := 1001,
        local_ := { rotation := 1, translation := { x := 4, y := 5, z := 6 }, scale := 1 } }
      1 ⟨_, rfl, rfl⟩ rfl (by decide) (by decide)).2⟩

/-- C28 fails on the code: `center()` of a node whose identity is 0 evaluates
`1000 / 0`, an `int` division by zero, and returns no value, whatever the fuel
and the state of the caches. -/
theorem C28_center_zero_identity {M R : Type} [Mul (Transform (Vector3 R) M R)] [Add R]
    [IntCast R] (s : State (Transform (Vector3 R) M R)) (n : NodePtr)
    (nd : Node (Transform (Vector3 R) M R)) (fuel : Nat)
    (hd : s.deref n = some nd) (hid : nd.nodeId = 0) :
    Node.center fuel n s = none := by
  unfold Node.center
  cases h0 : Node.worldTrans fuel n s with
  | none => rfl
  | some r0 =>
    obtain ⟨w0, s1⟩ := r0
    simp only []
    cases h1 : Node.worldTrans fuel n s1 with
    | none => rfl
    | some r1 =>
      obtain ⟨w1, s2⟩ := r1
      simp only []
      cases h2 : Node.worldTrans fuel n s2 with
      | none => rfl
      | some r2 =>
        obtain ⟨w2, s3⟩ := r2
        have hd3 : s3.deref n = some nd := by
          unfold State.deref at hd ⊢
          rw [(Node.worldTrans_frame fuel n s2 s3 w2 h2).1,
            (Node.worldTrans_frame fuel n s1 s2 w1 h1).1,
            (Node.worldTrans_frame fuel n s s1 w0 h0).1]
          exact hd
        simp only [hd3, Node.id, hid, if_true]

/-- C28 at a concrete input: node `3` of `exFarIds` has the identity 0 of a
freshly constructed node; its `worldTrans()` returns, its `center()` does not. -/
theorem C28_center_zero_identity_witness :
    (Node.worldTrans 1 3 exFarIds).map Prod.fst =
      some { rotation := 1, translation := { x := 4, y := 5, z := 6 }, scale := 1 } ∧
    Node.center 1 3 exFarIds = none :=
  ⟨rfl, C28_center_zero_identity exFarIds 3
    { ref := 1, nodeId := 0,
      local_ := { rotation := 1, translation := { x := 4, y := 5, z := 6 }, scale := 1 } }
    1 rfl rfl⟩

/-! ## `viewTrans()` against `view * worldTrans()` -/

theorem exTransformMul_assoc (a b c : Transform (Vector3 Int) Int Int) :
    a * b * c = a * (b * c) := by
  show exTransformMul.mul (exTransformMul.mul a b) c = exTransformMul.mul a (exTransformMul.mul b c)
  simp only [exTransformMul]
  congr 1
  · ring
  · congr 1 <;> ring
  · ring

theorem viewTransVirtual_plain {V M R : Type} [Mul (Transform V M R)] (identity : M)
    (f : Nat) (n : NodePtr) (s : State (Transform V M R)) (nd : Node (Transform V M R))
    (hd : s.deref n = some nd) (hb : nd.billboard = false) :
    viewTransVirtual identity (f + 1) n s =
      Node.viewTrans (viewTransVirtual identity f) (f + 1) n s := by
  rw [viewTransVirtual]
  simp only [hd, hb]
  rfl

/-- On a parent chain without billboards, from empty caches and for an
associative composition, the virtual `viewTrans()` returns the view composed
with the world transform of the specification. -/
theorem viewTransVirtual_plain_chain {V M R : Type} [Mul (Transform V M R)] (identity : M)
    (s : State (Transform V M R))
    (hassoc : ∀ a b c : Transform V M R, a * b * c = a * (b * c))
    (hw : ∀ id, s.worldTrans id = none) (hv : ∀ id, s.viewTrans id = none) :
    ∀ (rest : List NodePtr) (n : NodePtr), IsParentChain s (n :: rest) →
      (∀ a, a ∈ n :: rest → ∀ nd, s.deref a = some nd → nd.billboard = false) →
      ∀ fuel, (n :: rest).length ≤ fuel →
      ∃ w s1, specWorldTrans s (n :: rest) = some w ∧
        viewTransVirtual identity fuel n s = some (s.view * w, s1) := by
  intro rest
  induction rest with
  | nil =>
    intro n hchain hplain fuel hfuel
    obtain ⟨nd, hd, hp⟩ := hchain
    obtain ⟨f, rfl⟩ : ∃ f, fuel = f + 1 := ⟨fuel - 1, by simp at hfuel; omega⟩
    have hb := hplain n (List.mem_cons_self _ _) nd hd
    have hworld := Node.worldTrans_root f n s nd hd hp (hw _)
    have hview := Node.viewTrans_root (viewTransVirtual identity f) (f + 1) n s _ nd nd.local_
      hd hp (hv _) hworld
    exact ⟨nd.local_, _, by simp [specWorldTrans, hd],
      (viewTransVirtual_plain identity f n s nd hd hb).trans hview⟩
  | cons p rest' ih =>
    intro n hchain hplain fuel hfuel
    obtain ⟨⟨nd, hd, hp, hp0⟩, htl⟩ := hchain
    obtain ⟨f, rfl⟩ : ∃ f, fuel = f + 1 := ⟨fuel - 1, by simp at hfuel; omega⟩
    have hb := hplain n (List.mem_cons_self _ _) nd hd
    obtain ⟨pw, s1, hspec, hrec⟩ := ih p htl
      (fun a ha => hplain a (List.mem_cons_of_mem _ ha)) f (by simp at hfuel ⊢; omega)
    have hpne : nd.parent ≠ 0 := by rw [hp]; exact hp0
    rw [← hp] at hrec
    have hview := Node.viewTrans_child (viewTransVirtual identity f) (f + 1) n s s1 nd
      (s.view * pw) hd hpne (hv _) hrec
    rw [hassoc] at hview
    exact ⟨pw * nd.local_, _, by simp [specWorldTrans, hspec, hd],
      (viewTransVirtual_plain identity f n s nd hd hb).trans hview⟩

/-- C24, as stated, fails: in `exBillboardChild` (distinct ids, empty caches, an
associative composition) the billboard `2` and its plain child `3` have view
transforms that differ from the view composed with their world transforms: the
rotations are 1 against 6, and the translation of node `3` is (121, 242, 363)
against (621, 1242, 1863). -/
theorem C24_counterexample :
    (∀ a b c : Transform (Vector3 Int) Int Int, a * b * c = a * (b * c)) ∧
    (viewTransVirtual 1 3 2 exBillboardChild).map Prod.fst =
      some { rotation := 1, translation := { x := 21, y := 42, z := 63 }, scale := 1 } ∧
    (Node.worldTrans 3 2 exBillboardChild).map (fun r => exBillboardChild.view * r.1) =
      some { rotation := 6, translation := { x := 21, y := 42, z := 63 }, scale := 1 } ∧
    (viewTransVirtual 1 3 3 exBillboardChild).map Prod.fst =
      some { rotation := 1, translation := { x := 121, y := 242, z := 363 }, scale := 1 } ∧
    (Node.worldTrans 3 3 exBillboardChild).map (fun r => exBillboardChild.view * r.1) =
      some { rotation := 6, translation := { x := 621, y := 1242, z := 1863 }, scale := 1 } :=
  ⟨exTransformMul_assoc, rfl, rfl, rfl, rfl⟩

/-- C24, amended: for a node on a finite parent chain none of whose nodes is a
billboard, with both transform caches empty and an associative composition,
`worldTrans()` returns a transform `w` and `viewTrans()` returns
`scene.view * w`, for a root and for any other node alike. -/
theorem C24_viewTrans_is_view_world {V M R : Type} [Mul (Transform V M R)] (identity : M)
    (s : State (Transform V M R)) (n : NodePtr) (rest : List NodePtr) (fuel : Nat)
    (hassoc : ∀ a b c : Transform V M R, a * b * c = a * (b * c))
    (hw : ∀ id, s.worldTrans id = none) (hv : ∀ id, s.viewTrans id = none)
    (hchain : IsParentChain s (n :: rest))
    (hplain : ∀ a, a ∈ n :: rest → ∀ nd, s.deref a = some nd → nd.billboard = false)
    (hfuel : (n :: rest).length ≤ fuel) :
    ∃ w s1 s2, Node.worldTrans fuel n s = some (w, s1) ∧
      viewTransVirtual identity fuel n s = some (s.view * w, s2) := by
  obtain ⟨w, s1, hspec, hworld⟩ := Node.worldTrans_chain s hw rest n hchain fuel hfuel
  obtain ⟨w', s2, hspec', hview⟩ :=
    viewTransVirtual_plain_chain identity s hassoc hw hv rest n hchain hplain fuel hfuel
  rw [hspec] at hspec'
  cases hspec'
  exact ⟨w, s1, s2, hworld, hview⟩

/-- C24 amended, at a concrete input: in `exLOD` (no billboard) the child `3` of
the root has the view transform `view * worldTrans()`. -/
theorem C24_viewTrans_is_view_world_witness :
    ∃ w s1 s2, Node.worldTrans 2 3 exLOD = some (w, s1) ∧
      viewTransVirtual 1 2 3 exLOD = some (exLOD.view * w, s2) :=
  C24_viewTrans_is_view_world 1 exLOD 3 [1] 2 exTransformMul_assoc (fun _ => rfl) (fun _ => rfl)
    ⟨⟨_, rfl, rfl, by decide⟩, ⟨_, rfl, rfl⟩⟩
    (by
      intro a ha nd hd
      have ha' : a = 3 ∨ a = 1 := by simpa using ha
      rcases ha' with rfl | rfl
      · have : exLOD.deref 3 = some _ := rfl
        rw [this] at hd
        cases hd
        rfl
      · have : exLOD.deref 1 = some _ := rfl
        rw [this] at hd
        cases hd
        rfl)
    (by decide)

/-! ## The members of a `NodeList` -/

theorem NodeList.del_list {T : Type} (dtor : Dtor T) (L : ListRef) (n : NodePtr)
    (s s1 : State T) (h : NodeList.del dtor L n s = some s1) :
    s1.list = Function.update s.list L ((s.list L).filter (fun m => decide (m ≠ n))) := by
  unfold NodeList.del at h
  by_cases hmem : n ∈ s.list L
  · simp only [hmem, if_true] at h
    split at h
    · cases h
    · split at h
      · cases h
        rfl
      · cases h
        rfl
  · simp only [hmem, if_false] at h
    cases h
    rw [filter_ne_of_not_mem _ _ hmem, Function.update_eq_self]

theorem NodeList.add_list {T : Type} (L : ListRef) (n : NodePtr) (s s1 : State T)
    (h : NodeList.add L n s = some s1) :
    s1.list = s.list ∨
      (n ≠ 0 ∧ n ∉ s.list L ∧ s1.list = Function.update s.list L (s.list L ++ [n])) := by
  unfold NodeList.add at h
  by_cases hc : n ≠ 0 ∧ n ∉ s.list L
  · rw [if_pos hc] at h
    split at h
    · cases h
    · cases h
      exact Or.inr ⟨hc.1, hc.2, rfl⟩
  · rw [if_neg hc] at h
    cases h
    exact Or.inl rfl

theorem NodeList.del_clean {T : Type} (dtor : Dtor T) (L : ListRef) (n : NodePtr)
    (s s1 : State T) (h : NodeList.del dtor L n s = some s1) (hc : ListsClean s) :
    ListsClean s1 := by
  intro L1
  rw [NodeList.del_list dtor L n s s1 h]
  by_cases hL : L1 = L
  · subst hL
    rw [Function.update_same]
    exact ⟨(hc L1).1.filter _, fun h0 => (hc L1).2 (List.mem_of_mem_filter h0)⟩
  · rw [Function.update_noteq hL]
    exact hc L1

theorem NodeList.add_clean {T : Type} (L : ListRef) (n : NodePtr)
    (s s1 : State T) (h : NodeList.add L n s = some s1) (hc : ListsClean s) :
    ListsClean s1 := by
  intro L1
  rcases NodeList.add_list L n s s1 h with h1 | ⟨hn, hmem, h1⟩
  · rw [h1]
    exact hc L1
  · rw [h1]
    by_cases hL : L1 = L
    · subst hL
      rw [Function.update_same]
      constructor
      · exact List.Nodup.append (hc L1).1 (List.nodup_singleton n)
          (by
            intro a ha hb
            rw [List.mem_singleton] at hb
            exact hmem (hb ▸ ha))
      · intro h0
        rcases List.mem_append.mp h0 with h0 | h0
        · exact (hc L1).2 h0
        · rw [List.mem_singleton] at h0
          exact hn h0.symm
    · rw [Function.update_noteq hL]
      exact hc L1

theorem NodeList.delAll_clean {T : Type} (dtor : Dtor T) (L : ListRef) :
    ∀ (ns : List NodePtr) (s s1 : State T), NodeList.delAll dtor L ns s = some s1 →
      ListsClean s → ListsClean s1 := by
  intro ns
  induction ns with
  | nil =>
    intro s s1 h hc
    simp only [NodeList.delAll] at h
    cases h
    exact hc
  | cons n rest ih =>
    intro s s1 h hc
    simp only [NodeList.delAll] at h
    cases hdel : NodeList.del dtor L n s with
    | none => rw [hdel] at h; cases h
    | some s2 =>
      rw [hdel] at h
      exact ih s2 s1 h (NodeList.del_clean dtor L n s s2 hdel hc)

theorem NodeList.addAll_clean {T : Type} (L : ListRef) :
    ∀ (ns : List NodePtr) (s s1 : State T), NodeList.addAll L ns s = some s1 →
      ListsClean s → ListsClean s1 := by
  intro ns
  induction ns with
  | nil =>
    intro s s1 h hc
    simp only [NodeList.addAll] at h
    cases h
    exact hc
  | cons n rest ih =>
    intro s s1 h hc
    simp only [NodeList.addAll] at h
    cases hadd : NodeList.add L n s with
    | none => rw [hadd] at h; cases h
    | some s2 =>
      rw [hadd] at h
      exact ih s2 s1 h (NodeList.add_clean L n s s2 hadd hc)

theorem ListOp.run_clean {T Z : Type} [LinearOrder Z] (dtor : Dtor T) (op : ListOp Z)
    (s s1 : State T) (h : op.run dtor s = some s1) (hc : ListsClean s) : ListsClean s1 := by
  cases op with
  | add L n => exact NodeList.add_clean L n s s1 h hc
  | del L n => exact NodeList.del_clean dtor L n s s1 h hc
  | clear L => exact NodeList.delAll_clean dtor L _ s s1 h hc
  | validate L isValid =>
    simp only [ListOp.run, NodeList.validate] at h
    split at h
    · exact NodeList.delAll_clean dtor L _ s s1 h hc
    · cases h
  | sort L fa cz =>
    simp only [ListOp.run, NodeList.sort] at h
    cases h
    intro L1
    by_cases hL : L1 = L
    · subst hL
      simp only [State.setList, Function.update_same]
      have hperm := stableSort_perm (compareNodes fa cz) (s.list L1)
      exact ⟨hperm.nodup_iff.mpr (hc L1).1, fun h0 => (hc L1).2 (hperm.mem_iff.mp h0)⟩
    · simp only [State.setList, Function.update_noteq hL]
      exact hc L1
  | assign L other =>
    simp only [ListOp.run, NodeList.assign] at h
    cases hcl : NodeList.clear dtor L s with
    | none => rw [hcl] at h; cases h
    | some s2 =>
      rw [hcl] at h
      exact NodeList.addAll_clean L _ s2 s1 h (NodeList.delAll_clean dtor L _ s s2 hcl hc)

theorem runListOps_clean {T Z : Type} [LinearOrder Z] (dtor : Dtor T) :
    ∀ (ops : List (ListOp Z)) (s s1 : State T), runListOps dtor ops s = some s1 →
      ListsClean s → ListsClean s1 := by
  intro ops
  induction ops with
  | nil =>
    intro s s1 h hc
    simp only [runListOps] at h
    cases h
    exact hc
  | cons op rest ih =>
    intro s s1 h hc
    simp only [runListOps] at h
    cases hop : op.run dtor s with
    | none => rw [hop] at h; cases h
    | some s2 =>
      rw [hop] at h
      exact ih s2 s1 h (ListOp.run_clean dtor op s s2 hop hc)

theorem filter_ne_eq_erase (l : List NodePtr) (n : NodePtr) (h : l.Nodup) :
    l.filter (fun m => decide (m ≠ n)) = l.erase n := by
  induction l with
  | nil => rfl
  | cons a l ih =>
    have hnd := List.nodup_cons.mp h
    by_cases ha : a = n
    · subst ha
      simp only [ne_eq, not_true_eq_false, decide_False, List.filter_cons_of_neg,
        Bool.false_eq_true, not_false_eq_true, List.erase_cons_head]
      exact filter_ne_of_not_mem l a hnd.1
    · have hb : (a == n) = false := by simpa using ha
      rw [List.erase_cons, hb]
      simp only [ne_eq, ha, not_false_eq_true, decide_True, List.filter_cons_of_pos,
        Bool.false_eq_true, if_false]
      rw [← ih hnd.2]

/-- C26: in every state reached from a state whose lists are all empty by calls
of `add`, `del`, `clear`, `validate`, `sort` and assignment, no list holds a null
pointer or holds a node twice.  Hence a member `n` of a list `L` occurs there
exactly once, and `L.del( n )` on a live `n` removes that one occurrence and
either lowers the reference count of `n` by exactly 1 (when it exceeds 1) or
destroys `n`. -/
theorem C26_nodeList_no_null_no_duplicate {T Z : Type} [LinearOrder Z] (dtor : Dtor T)
    (ops : List (ListOp Z)) (s0 s : State T)
    (hempty : ∀ L, s0.list L = [])
    (hrun : runListOps dtor ops s0 = some s) :
    (∀ L, (s.list L).Nodup ∧ 0 ∉ s.list L) ∧
    (∀ L n, n ∈ s.list L →
      (s.list L).count n = 1 ∧
      ∀ nd, s.deref n = some nd →
        NodeList.del dtor L n s =
          some (if nd.ref ≤ 1 then deleteNode dtor n (s.setList L ((s.list L).erase n))
            else (s.setList L ((s.list L).erase n)).setNode n { nd with ref := nd.ref - 1 })) := by
  have hclean : ListsClean s :=
    runListOps_clean dtor ops s0 s hrun (fun L => by rw [hempty L]; exact ⟨List.nodup_nil, by simp⟩)
  refine ⟨hclean, ?_⟩
  intro L n hmem
  have hcount : (s.list L).count n = 1 := List.count_eq_one_of_mem (hclean L).1 hmem
  refine ⟨hcount, ?_⟩
  intro nd hd
  rw [← filter_ne_eq_erase _ n (hclean L).1]
  by_cases hr : nd.ref ≤ 1
  · rw [if_pos hr]
    exact NodeList.del_destroy dtor L n s nd hd hmem (by rw [hcount]; exact_mod_cast hr)
  · rw [if_neg hr]
    have := NodeList.del_keep dtor L n s nd hd hmem (by rw [hcount]; push_cast; omega)
    rw [this, hcount]
    rfl

/-- C26 at a concrete input: the calls `exListOps` run from the heap
`exParentless`, whose lists are all empty; the run returns a state in which the
external list `0` is `[3]` and the external list `1` is `[2]`. -/
theorem C26_nodeList_no_null_no_duplicate_witness :
    ∃ s, runListOps leafDtor exListOps exParentless = some s ∧
      s.list (ListRef.external 0) = [3] ∧ s.list (ListRef.external 1) = [2] ∧
      (∀ L, (s.list L).Nodup ∧ 0 ∉ s.list L) ∧
      (∀ L n, n ∈ s.list L →
        (s.list L).count n = 1 ∧
        ∀ nd, s.deref n = some nd →
          NodeList.del leafDtor L n s =
            some (if nd.ref ≤ 1 then
                deleteNode leafDtor n (s.setList L ((s.list L).erase n))
              else (s.setList L ((s.list L).erase n)).setNode n
                { nd with ref := nd.ref - 1 })) := by
  obtain ⟨s, hs⟩ := Option.isSome_iff_exists.mp
    (show (runListOps leafDtor exListOps exParentless).isSome = true from rfl)
  have h0 : (runListOps leafDtor exListOps exParentless).map
      (fun t => (t.list (ListRef.external 0), t.list (ListRef.external 1))) =
      some ([3], [2]) := rfl
  rw [hs] at h0
  simp only [Option.map_some', Option.some.injEq, Prod.mk.injEq] at h0
  have h := C26_nodeList_no_null_no_duplicate leafDtor exListOps exParentless s (fun _ => rfl) hs
  exact ⟨s, hs, h0.1, h0.2, h.1, h.2⟩

/-! ## `drawHvkShape` -/

theorem drawHvkShapeRows_const (draw : Option Nat → List Nat → Option (List Nat))
    (st : List Nat) :
    ∀ rows : List (Option Nat), (∀ r, r ∈ rows → draw r st = some st) →
      drawHvkShapeRows draw rows st = some st := by
  intro rows
  induction rows with
  | nil => intro _; rfl
  | cons r rest ih =>
    intro h
    simp only [drawHvkShapeRows, h r (List.mem_cons_self _ _)]
    exact ih (fun r1 hr1 => h r1 (List.mem_cons_of_mem _ hr1))

theorem drawHvkShape_guard (nif : Option NifModel) (fuel : Nat) (iShape : Option Nat)
    (stack : List Nat)
    (h : nif = none ∨ iShape = none ∨ ∃ sh, iShape = some sh ∧ sh ∈ stack) :
    drawHvkShape nif fuel iShape stack = some stack := by
  unfold drawHvkShape
  rcases h with h | h | ⟨sh, h, hmem⟩
  · subst h
    rfl
  · subst h
    cases nif <;> rfl
  · subst h
    cases nif with
    | none => rfl
    | some m => simp [hmem]

/-- The number of blocks below `N` that are not on the stack bounds the depth of
the recursion of `drawHvkShape`. -/
theorem drawHvkShape_measure (m : NifModel) (N : Nat)
    (hlink : ∀ b c, m.shapeLink b = some c → c < N)
    (hsub : ∀ b rows c, m.subShapes b = some rows → some c ∈ rows → c < N) :
    ∀ (fuel : Nat) (iShape : Option Nat) (stack : List Nat),
      (∀ sh, iShape = some sh → sh < N) →
      (Finset.range N \ stack.toFinset).card < fuel →
      drawHvkShape (some m) fuel iShape stack = some stack := by
  intro fuel
  induction fuel with
  | zero => intro iShape stack _ hf; omega
  | succ f ih =>
    intro iShape stack hsh hf
    cases iShape with
    | none => exact drawHvkShape_guard _ _ _ _ (Or.inr (Or.inl rfl))
    | some sh =>
      by_cases hmem : sh ∈ stack
      · exact drawHvkShape_guard _ _ _ _ (Or.inr (Or.inr ⟨sh, rfl, hmem⟩))
      · have hlt : sh < N := hsh sh rfl
        have hcard : (Finset.range N \ (stack ++ [sh]).toFinset).card < f := by
          have hss : Finset.range N \ (stack ++ [sh]).toFinset ⊂
              Finset.range N \ stack.toFinset := by
            rw [Finset.ssubset_iff_of_subset]
            · refine ⟨sh, ?_, ?_⟩
              · simp [hlt, hmem]
              · simp
            · intro a ha
              simp only [Finset.mem_sdiff, Finset.mem_range, List.mem_toFinset,
                List.mem_append, List.mem_singleton, not_or] at ha ⊢
              exact ⟨ha.1, ha.2.1⟩
          have := Finset.card_lt_card hss
          omega
        have hrec : ∀ i : Option Nat, (∀ c, i = some c → c < N) →
            drawHvkShape (some m) f i (stack ++ [sh]) = some (stack ++ [sh]) :=
          fun i hi => ih i (stack ++ [sh]) hi hcard
        have hlinkrec := hrec (m.shapeLink sh) (fun c hc => hlink sh c hc)
        rw [drawHvkShape]
        simp only [hmem, if_false]
        by_cases h1 : m.itemName sh = "bhkListShape"
        · simp only [h1, if_true]
          cases hrows : m.subShapes sh with
          | none => simp
          | some rows =>
            simp only []
            rw [drawHvkShapeRows_const _ _ rows
              (fun r hr => hrec r (fun c hc => hsub sh rows c hrows (hc ▸ hr)))]
            simp
        · simp only [h1, if_false]
          by_cases h2 : m.itemName sh = "bhkTransformShape" ∨
              m.itemName sh = "bhkConvexTransformShape"
          · simp only [h2, if_true, hlinkrec]
            simp
          · simp only [h2, if_false]
            by_cases h3 : m.itemName sh = "bhkMoppBvTreeShape"
            · simp only [h3, if_true, hlinkrec]
              simp
            · simp only [h3, if_false]
              simp

/-- C30: on a shape graph with finitely many blocks (every link leads to a block
below `N`), cycles included, `drawHvkShape` returns once the fuel exceeds `N`, and
the stack on return is the stack that was passed in.  For a null model, an
invalid shape or a shape already on the stack it returns at once, whatever the
fuel, with the stack as passed in. -/
theorem C30_drawHvkShape_terminates (m : NifModel) (N fuel : Nat) (iShape : Option Nat)
    (stack : List Nat)
    (hlink : ∀ b c, m.shapeLink b = some c → c < N)
    (hsub : ∀ b rows c, m.subShapes b = some rows → some c ∈ rows → c < N)
    (hsh : ∀ sh, iShape = some sh → sh < N)
    (hfuel : N < fuel) :
    drawHvkShape (some m) fuel iShape stack = some stack ∧
    (∀ f i st, drawHvkShape none f i st = some st) ∧
    (∀ f st, drawHvkShape (some m) f none st = some st) ∧
    (∀ f sh st, sh ∈ st → drawHvkShape (some m) f (some sh) st = some st) := by
  refine ⟨drawHvkShape_measure m N hlink hsub fuel iShape stack hsh ?_, ?_, ?_, ?_⟩
  · have h1 : (Finset.range N \ stack.toFinset).card ≤ (Finset.range N).card :=
      Finset.card_le_card Finset.sdiff_subset
    rw [Finset.card_range] at h1
    omega
  · exact fun f i st => drawHvkShape_guard _ _ _ _ (Or.inl rfl)
  · exact fun f st => drawHvkShape_guard _ _ _ _ (Or.inr (Or.inl rfl))
  · exact fun f sh st h => drawHvkShape_guard _ _ _ _ (Or.inr (Or.inr ⟨sh, rfl, h⟩))

/-- C30 at a concrete input: the cyclic graph `exShapes` of four blocks, drawn
from block `0` with the stack `[7]` and fuel 5. -/
theorem C30_drawHvkShape_terminates_witness :
    drawHvkShape (some exShapes) 5 (some 0) [7] = some [7] :=
  (C30_drawHvkShape_terminates exShapes 4 5 (some 0) [7]
    (by
      intro b c h
      simp only [exShapes] at h
      split_ifs at h <;> simp at h <;> omega)
    (by
      intro b rows c h hc
      simp only [exShapes] at h
      split_ifs at h
      cases h
      simp at hc
      omega)
    (by
      intro sh h
      cases h
      decide)
    (by decide)).1

/-! ## `ControllerManager::update` -/

theorem ControllerManager.registerSequence_known {F : Type} (name : String)
    (rows : List (String × F)) (scene : AnimRegistry F) (h : name ∈ scene.animGroups) :
    ControllerManager.registerSequence (some (name, rows)) scene = scene := by
  simp [ControllerManager.registerSequence, h]

theorem ControllerManager.registerSequence_groups {F : Type}
    (seq : Option (String × List (String × F))) (scene : AnimRegistry F) :
    (∀ a, a ∈ scene.animGroups →
      a ∈ (ControllerManager.registerSequence seq scene).animGroups) ∧
    (∀ name rows, seq = some (name, rows) →
      name ∈ (ControllerManager.registerSequence seq scene).animGroups) ∧
    (scene.animGroups.Nodup → (ControllerManager.registerSequence seq scene).animGroups.Nodup) := by
  cases seq with
  | none =>
    refine ⟨fun a ha => ha, ?_, fun h => h⟩
    intro name rows h
    cases h
  | some q =>
    obtain ⟨name, rows⟩ := q
    by_cases hk : name ∈ scene.animGroups
    · rw [ControllerManager.registerSequence_known name rows scene hk]
      refine ⟨fun a ha => ha, ?_, fun h => h⟩
      intro name1 rows1 h
      cases h
      exact hk
    · simp only [ControllerManager.registerSequence, hk, if_false]
      refine ⟨fun a ha => List.mem_append_left _ ha, ?_, ?_⟩
      · intro name1 rows1 h
        cases h
        simp
      · intro hnd
        exact List.Nodup.append hnd (List.nodup_singleton name)
          (by
            intro a ha hb
            rw [List.mem_singleton] at hb
            exact hk (hb ▸ ha))

theorem ControllerManager.registerAll_groups {F : Type} :
    ∀ (ls : List (Option (String × List (String × F)))) (scene : AnimRegistry F),
      (∀ a, a ∈ scene.animGroups →
        a ∈ (ls.foldl (fun sc l => ControllerManager.registerSequence l sc) scene).animGroups) ∧
      (∀ name rows, some (name, rows) ∈ ls →
        name ∈ (ls.foldl (fun sc l => ControllerManager.registerSequence l sc) scene).animGroups) ∧
      (scene.animGroups.Nodup →
        (ls.foldl (fun sc l => ControllerManager.registerSequence l sc) scene).animGroups.Nodup) := by
  intro ls
  induction ls with
  | nil =>
    intro scene
    refine ⟨fun a ha => ha, ?_, fun h => h⟩
    intro name rows h
    cases h
  | cons l rest ih =>
    intro scene
    have h1 := ControllerManager.registerSequence_groups l scene
    have h2 := ih (ControllerManager.registerSequence l scene)
    simp only [List.foldl_cons]
    refine ⟨fun a ha => h2.1 a (h1.1 a ha), ?_, fun hnd => h2.2.2 (h1.2.2 hnd)⟩
    intro name rows hmem
    rcases List.mem_cons.mp hmem with h | h
    · exact h2.1 name (h1.2.1 name rows h.symm)
    · exact h2.2.1 name rows h

theorem ControllerManager.registerAll_known {F : Type} (scene : AnimRegistry F) :
    ∀ (ls : List (Option (String × List (String × F)))),
      (∀ name rows, some (name, rows) ∈ ls → name ∈ scene.animGroups) →
      ls.foldl (fun sc l => ControllerManager.registerSequence l sc) scene = scene := by
  intro ls
  induction ls with
  | nil => intro _; rfl
  | cons l rest ih =>
    intro h
    have hl : ControllerManager.registerSequence l scene = scene := by
      cases l with
      | none => rfl
      | some q =>
        obtain ⟨name, rows⟩ := q
        exact ControllerManager.registerSequence_known name rows scene
          (h name rows (List.mem_cons_self _ _))
    simp only [List.foldl_cons, hl]
    exact ih (fun name rows hm => h name rows (List.mem_cons_of_mem _ hm))

/-- C21: the registration of sequences by `ControllerManager::update` is
idempotent.  For every list of sequence links and every registry, a second run
of the update returns the same flag and leaves `animGroups` and `animTags` as
the first run left them; after a run that registered (base update true, target
non-null) so does a run under any other flags.  A sequence whose name is already
in `animGroups` changes neither `animGroups` nor `animTags`.  If `animGroups` had
no duplicates before the update it has none afterwards, so each name occurs at
most once. -/
theorem C21_update_registration_idempotent {F : Type} (controllerUpdate target : Bool)
    (lSequences : List (Option (String × List (String × F)))) (scene : AnimRegistry F) :
    ControllerManager.update controllerUpdate target lSequences
        (ControllerManager.update controllerUpdate target lSequences scene).2 =
      ControllerManager.update controllerUpdate target lSequences scene ∧
    (∀ c t : Bool, (ControllerManager.update c t lSequences
        (ControllerManager.update true true lSequences scene).2).2 =
      (ControllerManager.update true true lSequences scene).2) ∧
    (∀ name rows, name ∈ scene.animGroups →
      ControllerManager.registerSequence (some (name, rows)) scene = scene) ∧
    (scene.animGroups.Nodup →
      (ControllerManager.update controllerUpdate target lSequences scene).2.animGroups.Nodup ∧
      ∀ name, (ControllerManager.update controllerUpdate target lSequences
        scene).2.animGroups.count name ≤ 1) := by
  have hagain : lSequences.foldl (fun sc l => ControllerManager.registerSequence l sc)
      (lSequences.foldl (fun sc l => ControllerManager.registerSequence l sc) scene) =
      lSequences.foldl (fun sc l => ControllerManager.registerSequence l sc) scene :=
    ControllerManager.registerAll_known _ lSequences
      (fun name rows h => (ControllerManager.registerAll_groups lSequences scene).2.1 name rows h)
  have hnodup : scene.animGroups.Nodup →
      (ControllerManager.update controllerUpdate target lSequences scene).2.animGroups.Nodup := by
    intro hnd
    cases controllerUpdate <;> cases target <;>
      simp only [ControllerManager.update, if_true, if_false, Bool.false_eq_true]
    · exact hnd
    · exact hnd
    · exact hnd
    · exact (ControllerManager.registerAll_groups lSequences scene).2.2 hnd
  refine ⟨?_, ?_, ?_, ?_⟩
  · cases controllerUpdate <;> cases target <;>
      simp only [ControllerManager.update, if_true, if_false, Bool.false_eq_true]
    rw [hagain]
  · intro c t
    cases c <;> cases t <;>
      simp only [ControllerManager.update, if_true, if_false, Bool.false_eq_true]
    exact hagain
  · exact fun name rows h => ControllerManager.registerSequence_known name rows scene h
  · intro hnd
    exact ⟨hnodup hnd, fun name => List.nodup_iff_count_le_one.mp (hnodup hnd) name⟩

/-- The update on the example: `Idle` is appended once with the tags of its first
occurrence, the known group `Walk` keeps its tags, and a second run changes nothing. -/
theorem ControllerManager.update_example :
    (ControllerManager.update true true exSequences exRegistry).2.animGroups = ["Walk", "Idle"] ∧
    ((ControllerManager.update true true exSequences exRegistry).2.animTags "Idle").map
      (fun tags => (tags "start", tags "end")) = some (some 0, some 10) ∧
    ((ControllerManager.update true true exSequences exRegistry).2.animTags "Walk").map
      (fun tags => (tags "start", tags "loop")) = some (none, some 3) ∧
    (ControllerManager.update true true exSequences
      (ControllerManager.update true true exSequences exRegistry).2).2.animGroups =
      ["Walk", "Idle"] := by
  refine ⟨?_, ?_, ?_, ?_⟩ <;> decide

/-! ## `ControllerManager::setSequence` -/

theorem Node.findChildLoop_zero (find : NodePtr → Option NodePtr) :
    ∀ (cs : List NodePtr) (r : NodePtr),
      (∀ c, c ∈ cs → ∀ n, find c = some n → n = 0) →
      Node.findChildLoop find cs = some r → r = 0 := by
  intro cs
  induction cs with
  | nil =>
    intro r _ h
    simp only [Node.findChildLoop] at h
    cases h
    rfl
  | cons c rest ih =>
    intro r hall h
    simp only [Node.findChildLoop] at h
    cases hf : find c with
    | none => rw [hf] at h; cases h
    | some n =>
      rw [hf] at h
      have hn : n = 0 := hall c (List.mem_cons_self _ _) n hf
      subst hn
      simp only [ne_eq, not_true_eq_false, if_false] at h
      exact ih r (fun c1 hc1 => hall c1 (List.mem_cons_of_mem _ hc1)) h

/-- If no node of the subtree of `this` has the name, a call of `findChild` that
returns, returns null. -/
theorem Node.findChild_no_match {T : Type} (nodeName : NodePtr → String) (name : String)
    (s : State T) :
    ∀ (fuel : Nat) (this r : NodePtr),
      (∀ b, InSubtree s this b → nodeName b ≠ name) →
      Node.findChild nodeName name fuel this s = some r → r = 0 := by
  intro fuel
  induction fuel with
  | zero =>
    intro this r _ h
    simp only [Node.findChild] at h
    cases h
  | succ f ih =>
    intro this r hno h
    simp only [Node.findChild] at h
    cases hd : s.deref this with
    | none => rw [hd] at h; cases h
    | some nd =>
      rw [hd] at h
      simp only [] at h
      rw [if_neg (hno this (InSubtree.self this))] at h
      exact Node.findChildLoop_zero _ _ r
        (fun c hc n hn =>
          ih c n (fun b hb => hno b (InSubtree.child this c b hc hb)) hn) h

theorem MultiTargetTransformController.setInterpolatorLoop_false {B I : Type}
    (isNiBlock : B → String → Bool) (nb nt : B → I) (node : NodePtr) (blk : B) :
    ∀ targets : List (NodePtr × Option I),
      (MultiTargetTransformController.setInterpolatorLoop isNiBlock nb nt node blk targets).1 =
        false →
      (MultiTargetTransformController.setInterpolatorLoop isNiBlock nb nt node blk targets).2 =
        targets := by
  intro targets
  induction targets with
  | nil => intro _; rfl
  | cons tt rest ih =>
    intro h
    unfold MultiTargetTransformController.setInterpolatorLoop at h ⊢
    by_cases hn : tt.1 = node
    · rw [if_pos hn] at h
      cases h
    · rw [if_neg hn] at h ⊢
      simp only [] at h ⊢
      rw [ih h]

theorem MultiTargetTransformController.setInterpolator_false {B I : Type}
    (isNiBlock : B → String → Bool) (nb nt : B → I) (node : NodePtr) (i : Option B)
    (targets : List (NodePtr × Option I))
    (h : (MultiTargetTransformController.setInterpolator isNiBlock nb nt node i targets).1 =
      false) :
    MultiTargetTransformController.setInterpolator isNiBlock nb nt node i targets =
      (false, targets) := by
  cases i with
  | none => rfl
  | some blk =>
    simp only [MultiTargetTransformController.setInterpolator] at h ⊢
    exact Prod.ext h
      (MultiTargetTransformController.setInterpolatorLoop_false isNiBlock nb nt node blk targets h)

theorem Node.findChildLoop_total (find : NodePtr → Option NodePtr) :
    ∀ cs : List NodePtr, (∀ c, c ∈ cs → ∃ r, find c = some r) →
      ∃ r, Node.findChildLoop find cs = some r := by
  intro cs
  induction cs with
  | nil => intro _; exact ⟨0, rfl⟩
  | cons c rest ih =>
    intro h
    obtain ⟨n, hn⟩ := h c (List.mem_cons_self _ _)
    simp only [Node.findChildLoop, hn]
    by_cases h0 : n = 0
    · simp only [h0, ne_eq, not_true_eq_false, if_false]
      exact ih (fun c1 hc1 => h c1 (List.mem_cons_of_mem _ hc1))
    · simp only [ne_eq, h0, not_false_eq_true, if_true]
      exact ⟨n, rfl⟩

/-- On a finite subtree of live nodes `findChild` returns once the fuel covers the
height of the subtree. -/
theorem Node.findChild_total {T : Type} (nodeName : NodePtr → String) (name : String)
    (s : State T) :
    ∀ (fuel : Nat) (this : NodePtr), State.SubtreeWithin s fuel this →
      ∃ r, Node.findChild nodeName name fuel this s = some r := by
  intro fuel
  induction fuel with
  | zero => intro this h; exact absurd h (by simp [State.SubtreeWithin])
  | succ f ih =>
    intro this h
    obtain ⟨⟨nd, hd⟩, hkids⟩ := h
    simp only [Node.findChild, hd]
    by_cases hn : nodeName this = name
    · simp only [hn, if_true]
      exact ⟨this, rfl⟩
    · simp only [hn, if_false]
      exact Node.findChildLoop_total _ _ (fun c hc => ih c (hkids c hc))

/-- Every row of `"Controlled Blocks"` is processed to the end when the subtree of
the target is finite. -/
theorem ControllerManager.controlledBlock_total {T F B I K P : Type}
    (env : ControllerEnv F B I K P) (s : State T) (fuel : Nat) (this : Nat) (target : NodePtr)
    (multi : Option Nat) (hfin : State.SubtreeWithin s fuel target)
    (e : ControlledBlock B) (st : ControllerState F I K) :
    ∃ st1, ControllerManager.controlledBlock env s fuel this target multi e st = some st1 := by
  obtain ⟨node, hfind⟩ := Node.findChild_total env.nodeName
    (ControlledBlock.pick e.nodeName e.nodeNameOffset) s fuel target hfin
  unfold ControllerManager.controlledBlock
  simp only [hfind]
  by_cases h0 : node = 0
  · simp only [h0, if_true]
    exact ⟨st, rfl⟩
  · simp only [h0, if_false]
    generalize Node.findController env.typeId env.propertyFindController
      (env.controllableFindController node) (env.properties node) _ _ _ _ = fc
    generalize MultiTargetTransformController.setInterpolator env.isNiBlock env.newBSpline
      env.newTransform node e.interpolator st.extraTargets = res
    obtain ⟨found, targets⟩ := res
    by_cases hct : ControlledBlock.pick e.controllerType e.controllerTypeOffset =
        "NiTransformController"
    · cases fc <;> cases multi <;> cases found <;> simp [hct]
    · cases fc <;> simp [hct]

theorem ControllerManager.controlledBlocks_total {T F B I K P : Type}
    (env : ControllerEnv F B I K P) (s : State T) (fuel : Nat) (this : Nat) (target : NodePtr)
    (multi : Option Nat) (hfin : State.SubtreeWithin s fuel target) :
    ∀ (rows : List (ControlledBlock B)) (st : ControllerState F I K),
      ∃ st1, ControllerManager.controlledBlocks env s fuel this target multi rows st =
        some st1 := by
  intro rows
  induction rows with
  | nil => intro st; exact ⟨st, rfl⟩
  | cons e rest ih =>
    intro st
    obtain ⟨st1, h1⟩ :=
      ControllerManager.controlledBlock_total env s fuel this target multi hfin e st
    simp only [ControllerManager.controlledBlocks, h1]
    exact ih st1

/-- A skipped row leaves the controller state as it is. -/
theorem ControllerManager.controlledBlock_skipped {T F B I K P : Type}
    (env : ControllerEnv F B I K P) (s : State T) (fuel : Nat) (this : Nat) (target : NodePtr)
    (multi : Option Nat) (hfin : State.SubtreeWithin s fuel target)
    (e : ControlledBlock B) (st : ControllerState F I K)
    (h : ControllerManager.EntrySkipped env s fuel target multi e st) :
    ControllerManager.controlledBlock env s fuel this target multi e st = some st := by
  rcases h with h | ⟨node, hnode, hfind, hmulti, hctrl⟩
  · obtain ⟨r, hr⟩ := Node.findChild_total env.nodeName
      (ControlledBlock.pick e.nodeName e.nodeNameOffset) s fuel target hfin
    have hr0 : r = 0 := Node.findChild_no_match env.nodeName _ s fuel target r h hr
    subst hr0
    simp [ControllerManager.controlledBlock, hr]
  · unfold ControllerManager.controlledBlock
    simp only [hfind, hnode, if_false, hctrl]
    by_cases hct : ControlledBlock.pick e.controllerType e.controllerTypeOffset =
        "NiTransformController"
    · simp only [hct, if_true]
      cases multi with
      | none => simp
      | some m =>
        have hf := MultiTargetTransformController.setInterpolator_false env.isNiBlock
          env.newBSpline env.newTransform node e.interpolator st.extraTargets (hmulti hct m rfl)
        simp [hf]
    · simp [hct]

theorem ControllerManager.controlledBlocks_append {T F B I K P : Type}
    (env : ControllerEnv F B I K P) (s : State T) (fuel : Nat) (this : Nat) (target : NodePtr)
    (multi : Option Nat) :
    ∀ (pre post : List (ControlledBlock B)) (st : ControllerState F I K),
      ControllerManager.controlledBlocks env s fuel this target multi (pre ++ post) st =
        match ControllerManager.controlledBlocks env s fuel this target multi pre st with
        | none => none
        | some st1 => ControllerManager.controlledBlocks env s fuel this target multi post st1 := by
  intro pre
  induction pre with
  | nil => intro post st; rfl
  | cons e rest ih =>
    intro post st
    simp only [List.cons_append, ControllerManager.controlledBlocks]
    cases ControllerManager.controlledBlock env s fuel this target multi e st with
    | none => rfl
    | some st1 => exact ih post st1

/-- The rows after a skipped row are processed as if the row were absent. -/
theorem ControllerManager.controlledBlocks_skipped {T F B I K P : Type}
    (env : ControllerEnv F B I K P) (s : State T) (fuel : Nat) (this : Nat) (target : NodePtr)
    (multi : Option Nat) (hfin : State.SubtreeWithin s fuel target)
    (pre post : List (ControlledBlock B)) (e : ControlledBlock B)
    (st : ControllerState F I K)
    (hskip : ∀ st1, ControllerManager.controlledBlocks env s fuel this target multi pre st =
      some st1 → ControllerManager.EntrySkipped env s fuel target multi e st1) :
    ControllerManager.controlledBlocks env s fuel this target multi (pre ++ e :: post) st =
      ControllerManager.controlledBlocks env s fuel this target multi (pre ++ post) st := by
  rw [ControllerManager.controlledBlocks_append, ControllerManager.controlledBlocks_append]
  cases hpre : ControllerManager.controlledBlocks env s fuel this target multi pre st with
  | none => rfl
  | some st1 =>
    simp only [ControllerManager.controlledBlocks]
    rw [ControllerManager.controlledBlock_skipped env s fuel this target multi hfin e st1
      (hskip st1 hpre)]

/-- The whole call `setSequence( seqname )`: a row that is skipped in every
controller state can be removed from its sequence without changing the result. -/
theorem ControllerManager.setSequence_skipped {T F B I K P : Type}
    (env : ControllerEnv F B I K P) (s : State T) (fuel : Nat) (this : Nat) (target : NodePtr)
    (iBlockValid nifPresent : Bool) (controllers : List Nat) (ctrlTypeId : Nat → String)
    (seqname : String) (sq : ControllerSequence F B) (pre post : List (ControlledBlock B))
    (e : ControlledBlock B) (before after : List (Option (ControllerSequence F B)))
    (st : ControllerState F I K) (hfin : State.SubtreeWithin s fuel target)
    (hskip : ∀ multi st1, ControllerManager.EntrySkipped env s fuel target multi e st1) :
    ControllerManager.setSequence env s fuel this target iBlockValid nifPresent controllers
        ctrlTypeId (before ++ some { sq with controlledBlocks := pre ++ e :: post } :: after)
        seqname st =
      ControllerManager.setSequence env s fuel this target iBlockValid nifPresent controllers
        ctrlTypeId (before ++ some { sq with controlledBlocks := pre ++ post } :: after)
        seqname st := by
  have hone : ∀ multi st0,
      ControllerManager.sequence env s fuel this target multi seqname
          (some { sq with controlledBlocks := pre ++ e :: post }) st0 =
        ControllerManager.sequence env s fuel this target multi seqname
          (some { sq with controlledBlocks := pre ++ post }) st0 := by
    intro multi st0
    simp only [ControllerManager.sequence]
    by_cases hn : sq.name = seqname
    · simp only [hn, if_true]
      exact ControllerManager.controlledBlocks_skipped env s fuel this target multi hfin pre
        post e _ (fun st1 _ => hskip multi st1)
    · simp only [hn, if_false]
  have hall : ∀ multi (qs : List (Option (ControllerSequence F B))) st0,
      ControllerManager.sequences env s fuel this target multi seqname
          (qs ++ some { sq with controlledBlocks := pre ++ e :: post } :: after) st0 =
        ControllerManager.sequences env s fuel this target multi seqname
          (qs ++ some { sq with controlledBlocks := pre ++ post } :: after) st0 := by
    intro multi qs
    induction qs with
    | nil =>
      intro st0
      simp only [List.nil_append, ControllerManager.sequences, hone multi st0]
    | cons l rest ih =>
      intro st0
      simp only [List.cons_append, ControllerManager.sequences]
      cases ControllerManager.sequence env s fuel this target multi seqname l st0 with
      | none => rfl
      | some st1 => exact ih st1
  unfold ControllerManager.setSequence
  cases s.deref target with
  | none => rfl
  | some nd =>
    simp only []
    cases (iBlockValid && nifPresent) with
    | true => exact hall _ before st
    | false => rfl

/-- C22: in the loop of `setSequence` over the rows of `"Controlled Blocks"`, on a
target whose subtree is finite (of height at most `fuel`, all nodes live), let the
row `e` stand between the rows `pre` and `post`, and let it be skipped in the
state in which the loop reaches it: no node of the subtree of the target bears its
node name, or `findChild` resolves the name to a node for which the
`multiTargetTransformer` does not accept the interpolator and `findController`
returns null.  Then the loop over `pre` returns; processing `e` in the state it
leaves returns and leaves the state of every controller as it is; and the loop
over all rows returns the very state that it returns without `e`, so the rows
after `e` are processed and processing is not aborted.  For a node name that no
node of the subtree bears, `findChild` returns null. -/
theorem C22_setSequence_skips_entry {T F B I K P : Type}
    (env : ControllerEnv F B I K P) (s : State T) (fuel : Nat) (this : Nat) (target : NodePtr)
    (multi : Option Nat) (pre post : List (ControlledBlock B)) (e : ControlledBlock B)
    (st : ControllerState F I K)
    (hfin : State.SubtreeWithin s fuel target)
    (hskip : ∀ st1, ControllerManager.controlledBlocks env s fuel this target multi pre st =
      some st1 → ControllerManager.EntrySkipped env s fuel target multi e st1) :
    (∃ st1, ControllerManager.controlledBlocks env s fuel this target multi pre st = some st1 ∧
      ControllerManager.controlledBlock env s fuel this target multi e st1 = some st1) ∧
    (∃ st2,
      ControllerManager.controlledBlocks env s fuel this target multi (pre ++ e :: post) st =
        some st2 ∧
      ControllerManager.controlledBlocks env s fuel this target multi (pre ++ post) st =
        some st2) ∧
    ((∀ b, InSubtree s target b →
        env.nodeName b ≠ ControlledBlock.pick e.nodeName e.nodeNameOffset) →
      Node.findChild env.nodeName (ControlledBlock.pick e.nodeName e.nodeNameOffset)
        fuel target s = some 0) := by
  refine ⟨?_, ?_, ?_⟩
  · obtain ⟨st1, h1⟩ :=
      ControllerManager.controlledBlocks_total env s fuel this target multi hfin pre st
    exact ⟨st1, h1, ControllerManager.controlledBlock_skipped env s fuel this target multi hfin
      e st1 (hskip st1 h1)⟩
  · obtain ⟨st2, h2⟩ :=
      ControllerManager.controlledBlocks_total env s fuel this target multi hfin (pre ++ post) st
    refine ⟨st2, ?_, h2⟩
    rw [ControllerManager.controlledBlocks_skipped env s fuel this target multi hfin pre post e
      st hskip]
    exact h2
  · intro hno
    obtain ⟨r, hr⟩ := Node.findChild_total env.nodeName
      (ControlledBlock.pick e.nodeName e.nodeNameOffset) s fuel target hfin
    rw [hr, Node.findChild_no_match env.nodeName _ s fuel target r hno hr]

/-- In `exFamily` the subtree of node `1` has height 2. -/
theorem exFamily_subtreeWithin : State.SubtreeWithin exFamily 3 1 := by
  refine ⟨⟨_, rfl⟩, ?_⟩
  intro c hc
  have hc' : c = 2 ∨ c = 3 := by simpa [exFamily] using hc
  rcases hc' with rfl | rfl
  · exact ⟨⟨_, rfl⟩, fun c hc => absurd hc (by simp [exFamily])⟩
  · exact ⟨⟨_, rfl⟩, fun c hc => absurd hc (by simp [exFamily])⟩

/-- In `exFamily` with the names `exNodeName` no node of the subtree of node `1` is
named `Missing`. -/
theorem exFamily_no_missing :
    ∀ b, InSubtree exFamily 1 b → exNodeName b ≠ "Missing" := by
  have hname : ∀ b, exNodeName b ≠ "Missing" := by
    intro b
    unfold exNodeName
    split_ifs <;> decide
  exact fun b _ => hname b

/-- C22 at a concrete input: in `exFamily` with the names `exNodeName`, a row naming
the absent node `Missing` stands between a row taken by the multi-target
controller `5` and a row whose controller `7` is found; the loop returns the same
state with and without it, the state in which controller `7` has the timing of the
manager and the interpolator 12. -/
theorem C22_setSequence_skips_entry_witness :
    ∃ st2,
      ControllerManager.controlledBlocks exControllerEnv exFamily 3 4 1 (some 5)
        ([exBlock "Bip01" "NiTransformController" 10] ++
          exBlock "Missing" "NiVisController" 11 :: [exBlock "Bip01 Head" "NiVisController" 12])
        exControllerState = some st2 ∧
      ControllerManager.controlledBlocks exControllerEnv exFamily 3 4 1 (some 5)
        ([exBlock "Bip01" "NiTransformController" 10] ++
          [exBlock "Bip01 Head" "NiVisController" 12])
        exControllerState = some st2 ∧
      exObserve st2 =
        ({ start := 1, stop := 2, phase := 3, frequency := 4 },
          { start := 1, stop := 2, phase := 3, frequency := 4 },
          [(2, some 210)], [(7, some 12)]) := by
  obtain ⟨st2, h1, h2⟩ :=
    (C22_setSequence_skips_entry exControllerEnv exFamily 3 4 1 (some 5)
      [exBlock "Bip01" "NiTransformController" 10] [exBlock "Bip01 Head" "NiVisController" 12]
      (exBlock "Missing" "NiVisController" 11) exControllerState exFamily_subtreeWithin
      (fun _ _ => Or.inl exFamily_no_missing)).2.1
  refine ⟨st2, h1, h2, ?_⟩
  have hobs : (ControllerManager.controlledBlocks exControllerEnv exFamily 3 4 1 (some 5)
      ([exBlock "Bip01" "NiTransformController" 10] ++
        [exBlock "Bip01 Head" "NiVisController" 12]) exControllerState).map exObserve =
      some ({ start := 1, stop := 2, phase := 3, frequency := 4 },
        { start := 1, stop := 2, phase := 3, frequency := 4 },
        [(2, some 210)], [(7, some 12)]) := rfl
  rw [h2] at hobs
  exact Option.some.inj hobs

/-- The example run: the first row is taken by the multi-target controller `5`
(its timing becomes that of the manager and node `2` gets the interpolator 210),
the rows for the absent node and for node `3` without a matching controller are
skipped, and the last row sets the timing and the interpolator of controller `7`. -/
theorem ControllerManager.controlledBlocks_example :
    (ControllerManager.controlledBlocks exControllerEnv exFamily 3 4 1 (some 5)
        [exBlock "Bip01" "NiTransformController" 10, exBlock "Missing" "NiVisController" 11,
          exBlock "Bip01 Head" "NiTransformController" 13,
          exBlock "Bip01 Head" "NiVisController" 12]
        exControllerState).map exObserve =
      some ({ start := 1, stop := 2, phase := 3, frequency := 4 },
        { start := 1, stop := 2, phase := 3, frequency := 4 },
        [(2, some 210)], [(7, some 12)]) ∧
    (ControllerManager.controlledBlocks exControllerEnv exFamily 3 4 1 (some 5)
        [exBlock "Bip01" "NiTransformController" 10,
          exBlock "Bip01 Head" "NiVisController" 12]
        exControllerState).map exObserve =
      some ({ start := 1, stop := 2, phase := 3, frequency := 4 },
        { start := 1, stop := 2, phase := 3, frequency := 4 },
        [(2, some 210)], [(7, some 12)]) :=
  ⟨rfl, rfl⟩

/-! ## `Node::update` -/

theorem Node.SameData.sameData_refl {T : Type} (a : Node T) : Node.SameData a a :=
  ⟨rfl, rfl, rfl, rfl, rfl, rfl⟩

theorem Node.SameData.sameData_trans {T : Type} {a b c : Node T} (h1 : Node.SameData a b)
    (h2 : Node.SameData b c) : Node.SameData a c :=
  ⟨h2.1.trans h1.1, h2.2.1.trans h1.2.1, h2.2.2.1.trans h1.2.2.1,
    h2.2.2.2.1.trans h1.2.2.2.1, h2.2.2.2.2.1.trans h1.2.2.2.2.1,
    h2.2.2.2.2.2.trans h1.2.2.2.2.2⟩

theorem State.KeepsData.keepsData_refl {T : Type} (this : NodePtr) (s : State T) :
    State.KeepsData this s s :=
  fun nd1 h => ⟨nd1, h, Node.SameData.sameData_refl nd1⟩

theorem State.KeepsData.keepsData_trans {T : Type} {this : NodePtr} {s s1 s2 : State T}
    (h1 : State.KeepsData this s s1) (h2 : State.KeepsData this s1 s2) :
    State.KeepsData this s s2 := by
  intro nd2 hd2
  obtain ⟨nd1, hd1, hs1⟩ := h2 nd2 hd2
  obtain ⟨nd, hd, hs⟩ := h1 nd1 hd1
  exact ⟨nd, hd, hs.sameData_trans hs1⟩

/-- A call of `makeParent` that returns was made on a live node whose old parent
is null or live, whose reference count exceeds its occurrences in the children
of the old parent, and with a null or live new parent. -/
theorem Node.makeParent_inv {T : Type} (dtor : Dtor T) (n newParent : NodePtr) (s s1 : State T)
    (h : Node.makeParent dtor n newParent s = some s1) :
    ∃ nd, s.deref n = some nd ∧
      (nd.parent ≠ 0 → ∃ po, s.deref nd.parent = some po) ∧
      (nd.parent ≠ 0 → n ∈ s.list (ListRef.children nd.parent) →
        ((s.list (ListRef.children nd.parent)).count n : Int) < nd.ref) ∧
      (newParent ≠ 0 → ∃ pn, s.deref newParent = some pn) := by
  unfold Node.makeParent at h
  cases hd : s.deref n with
  | none => rw [hd] at h; cases h
  | some nd =>
    rw [hd] at h
    simp only [] at h
    have hn := State.deref_eq_some hd
    have hnewOf : ∀ (s0 : State T) (x val : Node T), (∀ m, m ≠ n → s0.node m = s.node m) →
        (s0.setNode n x).deref newParent = some val → newParent ≠ 0 →
        ∃ pn, s.deref newParent = some pn := by
      intro s0 x val hs0 hval hp0
      by_cases hpn : newParent = n
      · exact ⟨nd, hpn ▸ hd⟩
      · rw [State.deref_setNode _ _ _ _ hn.1, if_neg hpn, State.deref_of_ne_zero _ hp0,
          hs0 newParent hpn] at hval
        rw [State.deref_of_ne_zero _ hp0]
        exact ⟨val, hval⟩
    by_cases ho : nd.parent = 0
    · refine ⟨nd, rfl, fun h0 => absurd ho h0, fun h0 => absurd ho h0, ?_⟩
      intro hp0
      simp only [ho, ne_eq, not_true_eq_false, if_false, hd, hp0, not_false_eq_true,
        if_true] at h
      split at h
      · cases h
      · rename_i val heq
        exact hnewOf _ _ _ (fun _ _ => rfl) heq hp0
    · cases hpo : s.deref nd.parent with
      | none =>
        simp only [ho, ne_eq, not_false_eq_true, if_true, hpo] at h
        cases h
      | some po =>
        simp only [ho, ne_eq, not_false_eq_true, if_true, hpo] at h
        by_cases hk : n ∈ s.list (ListRef.children nd.parent) →
            ((s.list (ListRef.children nd.parent)).count n : Int) < nd.ref
        · refine ⟨nd, rfl, fun _ => ⟨po, hpo⟩, fun _ => hk, ?_⟩
          intro hp0
          rw [NodeList.del_uniform dtor (ListRef.children nd.parent) n s nd hd hk] at h
          simp only [] at h
          rw [State.deref_setNode _ _ _ _ hn.1, if_pos rfl] at h
          simp only [hp0, ne_eq, not_false_eq_true, if_true] at h
          split at h
          · cases h
          · rename_i val heq
            exact hnewOf _ _ _
              (fun m hm => by
                simp [State.setNode, State.setList, Function.update_noteq hm]) heq hp0
        · exfalso
          have hmem : n ∈ s.list (ListRef.children nd.parent) := by
            by_contra hc
            exact hk (fun hm => absurd hm hc)
          have hr : nd.ref ≤ ((s.list (ListRef.children nd.parent)).count n : Int) := by
            by_contra hc
            exact hk (fun _ => not_le.mp hc)
          rw [NodeList.del_destroy dtor (ListRef.children nd.parent) n s nd hd hmem hr] at h
          have hdead : (deleteNode dtor n (s.setList (ListRef.children nd.parent)
              ((s.list (ListRef.children nd.parent)).filter (fun m => decide (m ≠ n))))).deref n =
              none := by
            simp [State.deref, deleteNode]
          simp only [hdead] at h
          cases h

/-- A call `n->makeParent( this )` that returns moves `n` to the end of the
children of `this`. -/
theorem Node.makeParent_step {T : Type} (dtor : Dtor T) (n this : NodePtr) (s s1 : State T)
    (h : Node.makeParent dtor n this s = some s1) (h0 : this ≠ 0)
    (hinv : State.ChildrenPointBack this s) :
    s1.list (ListRef.children this) = Node.moveToEnd (s.list (ListRef.children this)) n ∧
    State.ChildrenPointBack this s1 ∧ State.KeepsData this s s1 := by
  obtain ⟨nd, hd, hold, hkeep, hnew⟩ := Node.makeParent_inv dtor n this s s1 h
  obtain ⟨s2, hs2, _, _, _, hnode, hlist, hself⟩ :=
    Node.makeParent_spec dtor n this s nd hd hold hkeep hnew
  rw [h] at hs2
  cases hs2
  have hn := State.deref_eq_some hd
  have hl : s1.list (ListRef.children this) =
      Node.moveToEnd (s.list (ListRef.children this)) n := by
    rw [hlist (ListRef.children this)]
    unfold Node.moveToEnd
    by_cases hp : nd.parent = this
    · have hdet : Node.detachedList s n nd.parent (ListRef.children this) =
          (s.list (ListRef.children this)).filter (fun m => decide (m ≠ n)) := by
        simp [Node.detachedList, hp, h0]
      rw [hdet]
      have hnot : n ∉ (s.list (ListRef.children this)).filter (fun m => decide (m ≠ n)) := by
        simp
      rw [if_pos ⟨h0, rfl, hnot⟩]
    · have hdet : Node.detachedList s n nd.parent (ListRef.children this) =
          s.list (ListRef.children this) := by
        have hne : ListRef.children this ≠ ListRef.children nd.parent := by
          intro he
          cases he
          exact hp rfl
        simp [Node.detachedList, hne]
      rw [hdet]
      have hnot : n ∉ s.list (ListRef.children this) := by
        intro hmem
        obtain ⟨ndc, hdc, hpc⟩ := hinv n hmem
        rw [hd] at hdc
        cases hdc
        exact hp hpc
      rw [if_pos ⟨h0, rfl, hnot⟩, filter_ne_of_not_mem _ _ hnot]
  refine ⟨hl, ?_, ?_⟩
  · intro c hc
    rw [hl] at hc
    unfold Node.moveToEnd at hc
    by_cases hcn : c = n
    · subst hcn
      rw [State.deref_of_ne_zero _ hn.1, hself]
      exact ⟨_, rfl, rfl⟩
    · have hc1 : c ∈ s.list (ListRef.children this) := by
        rcases List.mem_append.mp hc with hc | hc
        · exact List.mem_of_mem_filter hc
        · exact absurd (List.mem_singleton.mp hc) hcn
      obtain ⟨ndc, hdc, hpc⟩ := hinv c hc1
      have hcz := State.deref_eq_some hdc
      rw [State.deref_of_ne_zero _ hcz.1, hnode c hcn]
      exact ⟨ndc, hcz.2, hpc⟩
  · intro nd1 hd1
    by_cases ht : this = n
    · subst ht
      rw [hself] at hd1
      cases hd1
      exact ⟨nd, hn.2, rfl, rfl, rfl, rfl, rfl, rfl⟩
    · rw [hnode this ht] at hd1
      exact ⟨nd1, hd1, Node.SameData.sameData_refl nd1⟩

theorem Node.childNodes_cons (getNode : Int → NodePtr) (lChildren : List Int) (link : Int)
    (rows : List Int) :
    Node.childNodes getNode lChildren (link :: rows) =
      if link ∈ lChildren then
        if getNode link ≠ 0 then getNode link :: Node.childNodes getNode lChildren rows
        else Node.childNodes getNode lChildren rows
      else Node.childNodes getNode lChildren rows := by
  unfold Node.childNodes
  by_cases h1 : link ∈ lChildren
  · by_cases h2 : getNode link = 0
    · simp [h1, h2]
    · simp [h1, h2]
  · simp [h1]

theorem dedup_filter_append (n : NodePtr) (rest : List NodePtr) :
    ∀ acc : List NodePtr,
      (acc.filter (fun m => decide (m ≠ n)) ++ n :: rest).dedup = (acc ++ n :: rest).dedup := by
  intro acc
  induction acc with
  | nil => rfl
  | cons a acc ih =>
    by_cases ha : a = n
    · subst ha
      have hf : (a :: acc).filter (fun m => decide (m ≠ a)) =
          acc.filter (fun m => decide (m ≠ a)) := by simp
      rw [hf, ih, List.cons_append, List.dedup_cons_of_mem (by simp)]
    · have hf : (a :: acc).filter (fun m => decide (m ≠ n)) =
          a :: acc.filter (fun m => decide (m ≠ n)) := by simp [ha]
      rw [hf, List.cons_append, List.cons_append]
      by_cases hmem : a ∈ acc ++ n :: rest
      · have hmem1 : a ∈ acc.filter (fun m => decide (m ≠ n)) ++ n :: rest := by
          rcases List.mem_append.mp hmem with h | h
          · exact List.mem_append_left _ (List.mem_filter.mpr ⟨h, by simpa using ha⟩)
          · exact List.mem_append_right _ h
        rw [List.dedup_cons_of_mem hmem, List.dedup_cons_of_mem hmem1, ih]
      · have hmem1 : a ∉ acc.filter (fun m => decide (m ≠ n)) ++ n :: rest := by
          intro h
          rcases List.mem_append.mp h with h | h
          · exact hmem (List.mem_append_left _ (List.mem_of_mem_filter h))
          · exact hmem (List.mem_append_right _ h)
        rw [List.dedup_cons_of_not_mem hmem, List.dedup_cons_of_not_mem hmem1, ih]

/-- Moving the nodes to the end one after the other leaves each node once, at the
place of its last occurrence. -/
theorem foldl_moveToEnd_dedup :
    ∀ (nodes acc : List NodePtr), acc.Nodup →
      nodes.foldl Node.moveToEnd acc = (acc ++ nodes).dedup := by
  intro nodes
  induction nodes with
  | nil =>
    intro acc hacc
    simp [hacc.dedup]
  | cons n rest ih =>
    intro acc hacc
    have hnd : (Node.moveToEnd acc n).Nodup := by
      unfold Node.moveToEnd
      exact List.Nodup.append (hacc.filter _) (List.nodup_singleton n)
        (by
          intro a ha hb
          rw [List.mem_singleton] at hb
          subst hb
          simp at ha)
    rw [List.foldl_cons, ih _ hnd]
    unfold Node.moveToEnd
    rw [List.append_assoc, List.singleton_append, dedup_filter_append]

/-! ### The rebuild of the children returns -/

/-- Writing the data of a live node, with its `ref` and `parent` kept, keeps the
hierarchy rebuildable. -/
theorem State.Rebuildable.setData {T : Type} {this : NodePtr} {s : State T}
    (h : State.Rebuildable this s) {m : NodePtr} {old x : Node T}
    (hd : s.deref m = some old) (hr : x.ref = old.ref) (hp : x.parent = old.parent) :
    State.Rebuildable this (s.setNode m x) := by
  obtain ⟨hthis, hzero, hback, hpar, hheld⟩ := h
  have hm0 := (State.deref_eq_some hd).1
  have hderef : ∀ k, (s.setNode m x).deref k = if k = m then some x else s.deref k :=
    fun k => State.deref_setNode s m k x hm0
  have hlive : ∀ k a, s.deref k = some a → ∃ a1, (s.setNode m x).deref k = some a1 := by
    intro k a hk
    rw [hderef]
    by_cases e : k = m
    · exact ⟨x, by rw [if_pos e]⟩
    · exact ⟨a, by rw [if_neg e]; exact hk⟩
  refine ⟨?_, hzero, ?_, ?_, ?_⟩
  · obtain ⟨nd, hnd⟩ := hthis
    exact hlive this nd hnd
  · intro p c hc
    obtain ⟨ndc, hdc, hpc⟩ := hback p c hc
    rw [hderef]
    by_cases e : c = m
    · subst e
      rw [hd] at hdc
      cases hdc
      exact ⟨x, by rw [if_pos rfl], hp.trans hpc⟩
    · exact ⟨ndc, by rw [if_neg e]; exact hdc, hpc⟩
  · intro n nd1 hn hne
    rw [hderef] at hn
    by_cases e : n = m
    · subst e
      rw [if_pos rfl] at hn
      cases hn
      rw [hp] at hne ⊢
      obtain ⟨po, hpo⟩ := hpar n old hd hne
      exact hlive _ po hpo
    · rw [if_neg e] at hn
      obtain ⟨po, hpo⟩ := hpar n nd1 hn hne
      exact hlive _ po hpo
  · intro n nd1 hn hprem
    rw [hderef] at hn
    by_cases e : n = m
    · subst e
      rw [if_pos rfl] at hn
      cases hn
      rw [hp] at hprem ⊢
      rw [hr]
      exact hheld n old hd hprem
    · rw [if_neg e] at hn
      exact hheld n nd1 hn hprem

/-- Removing a member from the children of `p` returns, destroys no node and
keeps the hierarchy rebuildable. -/
theorem NodeList.del_rebuildable {T : Type} (dtor : Dtor T) {this : NodePtr} {s : State T}
    (h : State.Rebuildable this s) (p c : NodePtr)
    (hc : c ∈ s.list (ListRef.children p)) :
    ∃ s1, NodeList.del dtor (ListRef.children p) c s = some s1 ∧
      State.Rebuildable this s1 ∧
      s1.list = Function.update s.list (ListRef.children p)
        ((s.list (ListRef.children p)).filter (fun m => decide (m ≠ c))) ∧
      State.KeepsData this s s1 := by
  obtain ⟨hthis, hzero, hback, hpar, hheld⟩ := h
  obtain ⟨nd, hd, hpc⟩ := hback p c hc
  have hc0 := State.deref_eq_some hd
  have hcnt : ((s.list (ListRef.children p)).count c : Int) < nd.ref := by
    have := hheld c nd hd (Or.inr (by rw [hpc]; exact hc))
    rwa [hpc] at this
  have hdel := NodeList.del_keep dtor (ListRef.children p) c s nd hd hc hcnt
  refine ⟨_, hdel, ?_, rfl, ?_⟩
  · have hderef : ∀ k, ((s.setList (ListRef.children p)
          ((s.list (ListRef.children p)).filter (fun m => decide (m ≠ c)))).setNode c
          { nd with ref := nd.ref - ((s.list (ListRef.children p)).count c : Int) }).deref k =
        if k = c then
          some { nd with ref := nd.ref - ((s.list (ListRef.children p)).count c : Int) }
        else s.deref k := by
      intro k
      rw [State.deref_setNode _ _ _ _ hc0.1]
      rfl
    have hlist : ∀ L, ((s.setList (ListRef.children p)
          ((s.list (ListRef.children p)).filter (fun m => decide (m ≠ c)))).setNode c
          { nd with ref := nd.ref - ((s.list (ListRef.children p)).count c : Int) }).list L =
        if L = ListRef.children p then
          (s.list (ListRef.children p)).filter (fun m => decide (m ≠ c))
        else s.list L := by
      intro L
      by_cases e : L = ListRef.children p
      · subst e
        simp [State.setNode, State.setList]
      · simp [State.setNode, State.setList, Function.update_noteq e, e]
    have hcount : ∀ L k, k ≠ c →
        (((s.setList (ListRef.children p)
          ((s.list (ListRef.children p)).filter (fun m => decide (m ≠ c)))).setNode c
          { nd with ref := nd.ref - ((s.list (ListRef.children p)).count c : Int) }).list
            L).count k = (s.list L).count k := by
      intro L k hk
      rw [hlist]
      by_cases e : L = ListRef.children p
      · subst e
        rw [if_pos rfl, count_filter_ne, if_neg hk]
      · rw [if_neg e]
    have hlive : ∀ k a, s.deref k = some a → ∃ a1,
        ((s.setList (ListRef.children p)
          ((s.list (ListRef.children p)).filter (fun m => decide (m ≠ c)))).setNode c
          { nd with ref := nd.ref - ((s.list (ListRef.children p)).count c : Int) }).deref k =
          some a1 := by
      intro k a hk
      rw [hderef]
      by_cases e : k = c
      · exact ⟨_, by rw [if_pos e]⟩
      · exact ⟨a, by rw [if_neg e]; exact hk⟩
    refine ⟨?_, ?_, ?_, ?_, ?_⟩
    · obtain ⟨tnd, htnd⟩ := hthis
      exact hlive this tnd htnd
    · rw [hlist]
      by_cases e : ListRef.children 0 = ListRef.children p
      · rw [← e, hzero] at hc
        cases hc
      · rw [if_neg e, hzero]
    · intro q k hk
      by_cases ek : k = c
      · subst ek
        rw [hlist] at hk
        by_cases e : ListRef.children q = ListRef.children p
        · rw [if_pos e] at hk
          exact absurd hk (not_mem_filter_ne _ _)
        · rw [if_neg e] at hk
          obtain ⟨ndk, hdk, hpk⟩ := hback q k hk
          rw [hd] at hdk
          cases hdk
          exact absurd (by rw [← hpc, hpk]) e
      · have hk1 : k ∈ s.list (ListRef.children q) := by
          have := List.count_pos_iff.mpr hk
          rw [hcount _ k ek] at this
          exact List.count_pos_iff.mp this
        obtain ⟨ndk, hdk, hpk⟩ := hback q k hk1
        exact ⟨ndk, by rw [hderef, if_neg ek]; exact hdk, hpk⟩
    · intro n nd1 hn hne
      rw [hderef] at hn
      by_cases e : n = c
      · subst e
        rw [if_pos rfl] at hn
        cases hn
        obtain ⟨po, hpo⟩ := hpar n nd hd hne
        exact hlive _ po hpo
      · rw [if_neg e] at hn
        obtain ⟨po, hpo⟩ := hpar n nd1 hn hne
        exact hlive _ po hpo
    · intro n nd1 hn hprem
      rw [hderef] at hn
      by_cases e : n = c
      · subst e
        rw [if_pos rfl] at hn
        cases hn
        show ((_ : List NodePtr).count n : Int) < nd.ref - _
        rw [hlist, hpc, if_pos rfl, count_filter_ne, if_pos rfl]
        simp only [Nat.cast_zero]
        omega
      · rw [if_neg e] at hn
        rw [hcount _ n e]
        apply hheld n nd1 hn
        rcases hprem with hprem | hprem
        · exact Or.inl hprem
        · refine Or.inr ?_
          have := List.count_pos_iff.mpr hprem
          rw [hcount _ n e] at this
          exact List.count_pos_iff.mp this
  · intro nd1 hd1
    by_cases ht : this = c
    · subst ht
      simp only [State.setNode, Function.update_same, Option.some.injEq] at hd1
      subst hd1
      exact ⟨nd, hc0.2, rfl, rfl, rfl, rfl, rfl, rfl⟩
    · simp only [State.setNode, State.setList, Function.update_noteq ht] at hd1
      exact ⟨nd1, hd1, Node.SameData.sameData_refl nd1⟩

/-- The loop `foreach ( Node * n, ns ) { del( n ); }` on the children of `p` returns,
destroys no node and keeps the hierarchy rebuildable. -/
theorem NodeList.delAll_rebuildable {T : Type} (dtor : Dtor T) (this p : NodePtr) :
    ∀ (ns : List NodePtr) (s : State T), State.Rebuildable this s →
      ∃ s1, NodeList.delAll dtor (ListRef.children p) ns s = some s1 ∧
        State.Rebuildable this s1 ∧
        s1.list (ListRef.children p) =
          (s.list (ListRef.children p)).filter (fun m => decide (m ∉ ns)) ∧
        (∀ L, L ≠ ListRef.children p → s1.list L = s.list L) ∧
        State.KeepsData this s s1 := by
  intro ns
  induction ns with
  | nil =>
    intro s h
    exact ⟨s, rfl, h, by simp, fun _ _ => rfl, State.KeepsData.keepsData_refl this s⟩
  | cons c rest ih =>
    intro s h
    have hstep : ∃ s2, NodeList.del dtor (ListRef.children p) c s = some s2 ∧
        State.Rebuildable this s2 ∧
        s2.list = Function.update s.list (ListRef.children p)
          ((s.list (ListRef.children p)).filter (fun m => decide (m ≠ c))) ∧
        State.KeepsData this s s2 := by
      by_cases hc : c ∈ s.list (ListRef.children p)
      · exact NodeList.del_rebuildable dtor h p c hc
      · refine ⟨s, NodeList.del_absent dtor _ c s hc, h, ?_,
          State.KeepsData.keepsData_refl this s⟩
        rw [filter_ne_of_not_mem _ _ hc, Function.update_eq_self]
    obtain ⟨s2, hdel, h2, hl2, hk2⟩ := hstep
    obtain ⟨s1, hrest, h1, hl1, ho1, hk1⟩ := ih s2 h2
    refine ⟨s1, by simp only [NodeList.delAll, hdel, hrest], h1, ?_, ?_,
      hk2.keepsData_trans hk1⟩
    · rw [hl1, hl2, Function.update_same, List.filter_filter]
      apply List.filter_congr
      intro x _
      by_cases hx : x = c
      · simp [hx]
      · simp [hx]
    · intro L hL
      rw [ho1 L hL, hl2, Function.update_noteq hL]

/-- The call `children.clear()` returns, destroys no node, empties the list and
keeps the hierarchy rebuildable. -/
theorem NodeList.clear_rebuildable {T : Type} (dtor : Dtor T) (this p : NodePtr) (s : State T)
    (h : State.Rebuildable this s) :
    ∃ s1, NodeList.clear dtor (ListRef.children p) s = some s1 ∧
      State.Rebuildable this s1 ∧ s1.list (ListRef.children p) = [] ∧
      State.KeepsData this s s1 := by
  obtain ⟨s1, h1, h2, h3, _, h5⟩ :=
    NodeList.delAll_rebuildable dtor this p (s.list (ListRef.children p)) s h
  refine ⟨s1, h1, h2, ?_, h5⟩
  rw [h3, List.filter_eq_nil_iff]
  intro a ha
  simpa using ha

/-- The call `n->makeParent( this )` on a live node `n` other than `this` returns,
moves `n` to the end of the children of `this` and keeps the hierarchy
rebuildable. -/
theorem Node.makeParent_rebuildable {T : Type} (dtor : Dtor T) {this : NodePtr} {s : State T}
    (h : State.Rebuildable this s) (n : NodePtr) (hne : n ≠ this) (nd : Node T)
    (hd : s.deref n = some nd) :
    ∃ s1, Node.makeParent dtor n this s = some s1 ∧
      State.Rebuildable this s1 ∧
      s1.list (ListRef.children this) = Node.moveToEnd (s.list (ListRef.children this)) n ∧
      State.KeepsData this s s1 := by
  obtain ⟨hthis, hzero, hback, hpar, hheld⟩ := h
  obtain ⟨tnd, htnd⟩ := hthis
  have ht0 := (State.deref_eq_some htnd).1
  have hn0 := State.deref_eq_some hd
  have hheldn := hheld n nd hd (Or.inl hne)
  obtain ⟨s1, hs1, _, _, _, hnode, hlist, hself⟩ :=
    Node.makeParent_spec dtor n this s nd hd (hpar n nd hd) (fun _ _ => hheldn)
      (fun _ => ⟨tnd, htnd⟩)
  obtain ⟨hl, _, hk⟩ := Node.makeParent_step dtor n this s s1 hs1 ht0 (hback this)
  have hderef : ∀ m, m ≠ n → s1.deref m = s.deref m := by
    intro m hm
    unfold State.deref
    rw [hnode m hm]
  have hderefn : s1.deref n = some { nd with
      parent := this,
      ref := nd.ref -
        (if nd.parent ≠ 0 then ((s.list (ListRef.children nd.parent)).count n : Int) else 0) +
        (if this ≠ 0 ∧ n ∉ Node.detachedList s n nd.parent (ListRef.children this)
          then 1 else 0) } := by
    rw [State.deref_of_ne_zero _ hn0.1, hself]
  have hlive : ∀ k a, s.deref k = some a → ∃ a1, s1.deref k = some a1 := by
    intro k a hk1
    by_cases e : k = n
    · subst e
      exact ⟨_, hderefn⟩
    · exact ⟨a, by rw [hderef k e]; exact hk1⟩
  have hcount : ∀ L m, m ≠ n → (s1.list L).count m = (s.list L).count m := by
    intro L m hm
    rw [hlist L]
    have hdet : (Node.detachedList s n nd.parent L).count m = (s.list L).count m := by
      rw [Node.count_detachedList]
      rw [if_neg (fun hc => hm hc.2.2)]
    split
    · rw [List.count_append, hdet]
      simp [hm]
    · exact hdet
  have hmem : ∀ L m, m ≠ n → m ∈ s1.list L → m ∈ s.list L := by
    intro L m hm hin
    have := List.count_pos_iff.mpr hin
    rw [hcount L m hm] at this
    exact List.count_pos_iff.mp this
  have hmem' : ∀ L m, m ≠ n → m ∈ s.list L → m ∈ s1.list L := by
    intro L m hm hin
    have := List.count_pos_iff.mpr hin
    rw [← hcount L m hm] at this
    exact List.count_pos_iff.mp this
  have hnotdet : ∀ q, q ≠ this → n ∉ Node.detachedList s n nd.parent (ListRef.children q) := by
    intro q _ hin
    unfold Node.detachedList at hin
    by_cases hcond : nd.parent ≠ 0 ∧ ListRef.children q = ListRef.children nd.parent
    · rw [if_pos hcond] at hin
      exact absurd hin (not_mem_filter_ne _ _)
    · rw [if_neg hcond] at hin
      obtain ⟨ndq, hdq, hpq⟩ := hback q n hin
      rw [hd] at hdq
      cases hdq
      by_cases hq0 : q = 0
      · subst hq0
        rw [hzero] at hin
        cases hin
      · exact hcond ⟨by rw [hpq]; exact hq0, by rw [hpq]⟩
  have hnotdetThis : n ∉ Node.detachedList s n nd.parent (ListRef.children this) := by
    intro hin
    unfold Node.detachedList at hin
    by_cases hcond : nd.parent ≠ 0 ∧ ListRef.children this = ListRef.children nd.parent
    · rw [if_pos hcond] at hin
      exact absurd hin (not_mem_filter_ne _ _)
    · rw [if_neg hcond] at hin
      obtain ⟨ndq, hdq, hpq⟩ := hback this n hin
      rw [hd] at hdq
      cases hdq
      exact hcond ⟨by rw [hpq]; exact ht0, by rw [hpq]⟩
  have hnmem : ∀ q, n ∈ s1.list (ListRef.children q) → q = this := by
    intro q hin
    by_contra hq
    rw [hlist] at hin
    have hne1 : ¬(this ≠ 0 ∧ ListRef.children q = ListRef.children this ∧
        n ∉ Node.detachedList s n nd.parent (ListRef.children q)) :=
      fun hc => hq (ListRef.children.inj hc.2.1)
    rw [if_neg hne1] at hin
    exact hnotdet q hq hin
  have hcountn : (s1.list (ListRef.children this)).count n = 1 := by
    rw [hl]
    unfold Node.moveToEnd
    rw [List.count_append, count_filter_ne, if_pos rfl]
    simp
  refine ⟨s1, hs1, ⟨?_, ?_, ?_, ?_, ?_⟩, hl, hk⟩
  · exact hlive this tnd htnd
  · rw [hlist]
    have hne1 : ¬(this ≠ 0 ∧ ListRef.children 0 = ListRef.children this ∧
        n ∉ Node.detachedList s n nd.parent (ListRef.children 0)) :=
      fun hc => ht0 (ListRef.children.inj hc.2.1).symm
    rw [if_neg hne1]
    unfold Node.detachedList
    have hne2 : ¬(nd.parent ≠ 0 ∧ ListRef.children 0 = ListRef.children nd.parent) :=
      fun hc => hc.1 (ListRef.children.inj hc.2).symm
    rw [if_neg hne2, hzero]
  · intro q k hkq
    by_cases ek : k = n
    · subst ek
      have hq := hnmem q hkq
      subst hq
      exact ⟨_, hderefn, rfl⟩
    · obtain ⟨ndk, hdk, hpk⟩ := hback q k (hmem _ k ek hkq)
      exact ⟨ndk, by rw [hderef k ek]; exact hdk, hpk⟩
  · intro m nd1 hm hpne
    by_cases em : m = n
    · subst em
      rw [hderefn] at hm
      cases hm
      exact hlive this tnd htnd
    · rw [hderef m em] at hm
      obtain ⟨po, hpo⟩ := hpar m nd1 hm hpne
      exact hlive _ po hpo
  · intro m nd1 hm hprem
    by_cases em : m = n
    · subst em
      rw [hderefn] at hm
      cases hm
      show ((s1.list (ListRef.children this)).count m : Int) < _
      have hind : (if this ≠ 0 ∧ m ∉ Node.detachedList s m nd.parent (ListRef.children this)
          then (1 : Int) else 0) = 1 := if_pos ⟨ht0, hnotdetThis⟩
      rw [hcountn, hind]
      have hge : (if nd.parent ≠ 0 then
          ((s.list (ListRef.children nd.parent)).count m : Int) else 0) < nd.ref := by
        by_cases hp0 : nd.parent = 0
        · rw [if_neg (not_not.mpr hp0)]
          rw [hp0, hzero] at hheldn
          simpa using hheldn
        · rw [if_pos hp0]
          exact hheldn
      push_cast
      omega
    · rw [hderef m em] at hm
      rw [hcount _ m em]
      apply hheld m nd1 hm
      rcases hprem with hprem | hprem
      · exact Or.inl hprem
      · exact Or.inr (hmem _ m em hprem)

/-- The loop of `Node::update` over the rows returns: every node that
`Scene::getNode` yields moves to the end of the children, and the data of `this`
stays. -/
theorem Node.updateChildren_total {T : Type}
    (sceneGetNode : Int → State T → Option (NodePtr × State T)) (getNode : Int → NodePtr)
    (dtor : Dtor T) (this : NodePtr)
    (hget : Scene.GetNodeContract sceneGetNode getNode this) (lChildren : List Int) :
    ∀ (rows : List Int) (s : State T), State.Rebuildable this s →
      ∃ s1, Node.updateChildren sceneGetNode dtor this lChildren rows s = some s1 ∧
        State.Rebuildable this s1 ∧
        s1.list (ListRef.children this) =
          (Node.childNodes getNode lChildren rows).foldl Node.moveToEnd
            (s.list (ListRef.children this)) ∧
        State.KeepsData this s s1 := by
  intro rows
  induction rows with
  | nil =>
    intro s h
    exact ⟨s, rfl, h, rfl, State.KeepsData.keepsData_refl this s⟩
  | cons link rest ih =>
    intro s h
    rw [Node.childNodes_cons]
    by_cases h1 : link ∈ lChildren
    · obtain ⟨hnethis, st1, hg, hr1, hl1, hk1, hlive1⟩ := hget link s h
      simp only [Node.updateChildren, h1, if_true, hg]
      by_cases h2 : getNode link = 0
      · simp only [h2, ne_eq, not_true_eq_false, if_false]
        obtain ⟨s1, hu, hr, hl, hk⟩ := ih st1 hr1
        exact ⟨s1, hu, hr, by rw [hl, hl1], hk1.keepsData_trans hk⟩
      · simp only [h2, ne_eq, not_false_eq_true, if_true]
        obtain ⟨cnd, hcnd⟩ := hlive1 h2
        obtain ⟨s2, hmp, hr2, hl2, hk2⟩ :=
          Node.makeParent_rebuildable dtor hr1 (getNode link) hnethis cnd hcnd
        obtain ⟨s1, hu, hr, hl, hk⟩ := ih s2 hr2
        refine ⟨s1, by simp only [hmp, hu], hr, ?_, hk1.keepsData_trans (hk2.keepsData_trans hk)⟩
        rw [hl, hl2, hl1, List.foldl_cons]
    · simp only [Node.updateChildren, h1, if_false]
      exact ih s h

/-- The end of `Node::update` returns: the children become the nodes of the rows,
each once, at the place of its last occurrence, and the data of `this` stays. -/
theorem Node.updateLinks_total {T : Type}
    (sceneGetNode : Int → State T → Option (NodePtr × State T)) (getNode : Int → NodePtr)
    (dtor : Dtor T) (this : NodePtr)
    (hget : Scene.GetNodeContract sceneGetNode getNode this)
    (blk : NodeBlock T) (s : State T) (h : State.Rebuildable this s) :
    ∃ s2, Node.updateLinks sceneGetNode dtor this blk s = some s2 ∧
      State.Rebuildable this s2 ∧ State.KeepsData this s s2 ∧
      s2.list (ListRef.children this) =
        match blk.children with
        | none => []
        | some rows => (Node.childNodes getNode blk.childLinks rows).dedup := by
  obtain ⟨s3, hcl, hr3, hl3, hk3⟩ := NodeList.clear_rebuildable dtor this this s h
  unfold Node.updateLinks
  simp only [hcl]
  cases hrows : blk.children with
  | none => exact ⟨s3, rfl, hr3, hk3, hl3⟩
  | some rows =>
    obtain ⟨s2, hu, hr2, hl2, hk2⟩ := Node.updateChildren_total sceneGetNode getNode dtor this
      hget blk.childLinks rows s3 hr3
    refine ⟨s2, hu, hr2, hk3.keepsData_trans hk2, ?_⟩
    rw [hl2, hl3, foldl_moveToEnd_dedup _ [] List.nodup_nil, List.nil_append]

/-- The rebuild at the end of `Node::update`, started on the node with the data
`x` written: it returns, the node keeps that data, and its children are the nodes
of the model's child rows. -/
theorem Node.updateLinks_data {T : Type}
    (sceneGetNode : Int → State T → Option (NodePtr × State T)) (getNode : Int → NodePtr)
    (dtor : Dtor T) (this : NodePtr)
    (hget : Scene.GetNodeContract sceneGetNode getNode this)
    (blk : NodeBlock T) (s1 : State T) (nd x : Node T)
    (hd : s1.deref this = some nd) (hreb : State.Rebuildable this s1)
    (hr : x.ref = nd.ref) (hp : x.parent = nd.parent) :
    ∃ s2 nd2, Node.updateLinks sceneGetNode dtor this blk (s1.setNode this x) = some s2 ∧
      s2.deref this = some nd2 ∧
      nd2.nodeId = x.nodeId ∧ nd2.hidden = x.hidden ∧ nd2.otherFlags = x.otherFlags ∧
      nd2.local_ = x.local_ ∧ nd2.properties = x.properties ∧
      s2.list (ListRef.children this) =
        (match blk.children with
          | none => []
          | some rows => (Node.childNodes getNode blk.childLinks rows).dedup) ∧
      State.Rebuildable this s2 := by
  obtain ⟨s2, hu, hr2, hk, hl⟩ := Node.updateLinks_total sceneGetNode getNode dtor this hget
    blk (s1.setNode this x) (hreb.setData hd hr hp)
  obtain ⟨nd2, hnd2⟩ := hr2.1
  obtain ⟨nd0, hnd0, e1, e2, e3, e4, e5, _⟩ := hk nd2 (State.deref_eq_some hnd2).2
  simp only [State.setNode, Function.update_same, Option.some.injEq] at hnd0
  subst hnd0
  exact ⟨s2, nd2, hu, hnd2, e1, e3, e4, e2, e5, hl, hr2⟩

/-- C23: let the node at `this` be live after `Controllable::update` (state `s1`,
node `nd`) and be backed by the valid block `b`.  If `index` is a valid block other
than `b`, `Node::update` only sets `nodeId`: flags, local transform, properties
and every list stay as they are in `s1`.  If `index` is invalid or is `b`, let the
hierarchy be rebuildable in `s1` (every node but `this` is held by another owner
besides its parent, so that `children.clear()` destroys nothing) and let
`Scene::getNode` keep its contract, looking up or creating the node of a block.
Then `Node::update` returns; afterwards the flags and the local transform are
those read from the model exactly when `index` is `b` and else those of `nd`, the
properties are the list built from the model, and the children are the nodes of
the model's child rows, each once, in the order of their last occurrence (empty
when the model has no `Children`). -/
theorem C23_update_reads_by_index {T : Type}
    (controllableUpdate : NodePtr → Option Int → State T → Option (State T))
    (controllableClear : NodePtr → State T → Option (State T))
    (sceneGetNode : Int → State T → Option (NodePtr × State T)) (getNode : Int → NodePtr)
    (dtor : Dtor T) (defaultTransform : T) (nif : Int → NodeBlock T)
    (this : NodePtr) (index : Option Int) (s s1 : State T) (nd : Node T) (b : Int)
    (hcu : controllableUpdate this index s = some s1)
    (hd : s1.deref this = some nd)
    (hb : nd.iBlock = some b) :
    (∀ i, index = some i → i ≠ b →
      Node.update controllableUpdate controllableClear sceneGetNode dtor defaultTransform nif
          this index s =
        some (s1.setNode this { nd with nodeId := (nif b).blockNumber })) ∧
    (index = none ∨ index = some b →
      State.Rebuildable this s1 →
      Scene.GetNodeContract sceneGetNode getNode this →
      ∃ s2 nd2,
        Node.update controllableUpdate controllableClear sceneGetNode dtor defaultTransform nif
          this index s = some s2 ∧
        s2.deref this = some nd2 ∧
        nd2.nodeId = (nif b).blockNumber ∧
        nd2.hidden = (if index = some b then (nif b).hidden else nd.hidden) ∧
        nd2.otherFlags = (if index = some b then (nif b).otherFlags else nd.otherFlags) ∧
        nd2.local_ = (if index = some b then (nif b).local_ else nd.local_) ∧
        nd2.properties = (nif b).newProps ∧
        s2.list (ListRef.children this) =
          (match (nif b).children with
            | none => []
            | some rows => (Node.childNodes getNode (nif b).childLinks rows).dedup) ∧
        State.Rebuildable this s2) := by
  constructor
  · intro i hi hne
    subst hi
    have hx : ¬ (some b = some i) := fun h => hne (Option.some.inj h).symm
    simp only [Node.update, hcu, hd, hb, hx, if_false, false_or, reduceCtorEq]
  · intro hidx hreb hget
    rcases hidx with h | h
    · subst h
      simp only [Node.update, hcu, hd, hb, reduceCtorEq, if_false, or_true, if_true]
      refine Node.updateLinks_data sceneGetNode getNode dtor this hget (nif b) s1 nd _ hd hreb
        ?_ ?_
      · rfl
      · rfl
    · subst h
      simp only [Node.update, hcu, hd, hb, if_true, true_or]
      refine Node.updateLinks_data sceneGetNode getNode dtor this hget (nif b) s1 nd _ hd hreb
        ?_ ?_
      · rfl
      · rfl

/-- Creating a node at an address that holds none, parentless and held by the node
list of the scene, keeps the hierarchy rebuildable and leaves the children and
the data of `this` alone. -/
theorem State.Rebuildable.create {T : Type} {this : NodePtr} {s : State T}
    (h : State.Rebuildable this s) (n : NodePtr) (hn0 : n ≠ 0) (hdead : s.deref n = none)
    (x : Node T) (hxp : x.parent = 0) (hxr : 1 ≤ x.ref) (k : Nat) (l : List NodePtr) :
    State.Rebuildable this ((s.setNode n x).setList (ListRef.external k) l) ∧
    ((s.setNode n x).setList (ListRef.external k) l).list (ListRef.children this) =
      s.list (ListRef.children this) ∧
    State.KeepsData this s ((s.setNode n x).setList (ListRef.external k) l) ∧
    ((s.setNode n x).setList (ListRef.external k) l).deref n = some x := by
  obtain ⟨hthis, hzero, hback, hpar, hheld⟩ := h
  have hderef : ∀ m, ((s.setNode n x).setList (ListRef.external k) l).deref m =
      if m = n then some x else s.deref m := by
    intro m
    have : ((s.setNode n x).setList (ListRef.external k) l).deref m = (s.setNode n x).deref m :=
      rfl
    rw [this, State.deref_setNode _ _ _ _ hn0]
  have hlist : ∀ q, ((s.setNode n x).setList (ListRef.external k) l).list (ListRef.children q) =
      s.list (ListRef.children q) := by
    intro q
    simp [State.setList, State.setNode]
  have hlive : ∀ m a, s.deref m = some a →
      ((s.setNode n x).setList (ListRef.external k) l).deref m = some a := by
    intro m a hm
    rw [hderef]
    have hmn : m ≠ n := by
      intro e
      rw [e, hdead] at hm
      cases hm
    rw [if_neg hmn]
    exact hm
  obtain ⟨tnd, htnd⟩ := hthis
  have htn : this ≠ n := by
    intro e
    rw [e, hdead] at htnd
    cases htnd
  refine ⟨⟨⟨tnd, hlive this tnd htnd⟩, ?_, ?_, ?_, ?_⟩, hlist this, ?_, ?_⟩
  · rw [hlist, hzero]
  · intro q c hc
    rw [hlist] at hc
    obtain ⟨ndc, hdc, hpc⟩ := hback q c hc
    exact ⟨ndc, hlive c ndc hdc, hpc⟩
  · intro m nd1 hm hne
    rw [hderef] at hm
    by_cases e : m = n
    · rw [if_pos e] at hm
      cases hm
      exact absurd hxp hne
    · rw [if_neg e] at hm
      obtain ⟨po, hpo⟩ := hpar m nd1 hm hne
      exact ⟨po, hlive _ po hpo⟩
  · intro m nd1 hm hprem
    rw [hderef] at hm
    rw [hlist]
    by_cases e : m = n
    · rw [if_pos e] at hm
      cases hm
      rw [hxp, hzero]
      simp only [List.count_nil, Nat.cast_zero]
      omega
    · rw [if_neg e] at hm
      apply hheld m nd1 hm
      rcases hprem with hprem | hprem
      · exact Or.inl hprem
      · rw [hlist] at hprem
        exact Or.inr hprem
  · intro nd1 hd1
    have : ((s.setNode n x).setList (ListRef.external k) l).node this = s.node this := by
      simp [State.setList, State.setNode, Function.update_noteq htn]
    rw [this] at hd1
    exact ⟨nd1, hd1, Node.SameData.sameData_refl nd1⟩
  · rw [hderef, if_pos rfl]

/-- The live nodes of `exUpdateScene`. -/
theorem exUpdateScene_live (n : NodePtr) (nd : Node Int) (h : exUpdateScene.deref n = some nd) :
    (n = 1 ∧
      nd = { ref := 1, local_ := 5, hidden := true, otherFlags := 3, iBlock := some 10,
             properties := [20] }) ∨
    (n = 2 ∧ nd = { ref := 2, parent := 1, local_ := 0 }) ∨
    (n = 3 ∧ nd = { ref := 2, parent := 1, local_ := 0 }) := by
  unfold State.deref exUpdateScene at h
  by_cases h0 : n = 0
  · simp [h0] at h
  · by_cases h1 : n = 1
    · subst h1
      simp at h
      exact Or.inl ⟨rfl, h.symm⟩
    · by_cases h2 : n = 2
      · subst h2
        simp at h
        exact Or.inr (Or.inl ⟨rfl, h.symm⟩)
      · by_cases h3 : n = 3
        · subst h3
          simp at h
          exact Or.inr (Or.inr ⟨rfl, h.symm⟩)
        · simp [h0, h1, h2, h3] at h

/-- The hierarchy of `exUpdateScene` can be rebuilt around node `1`. -/
theorem exUpdateScene_rebuildable : State.Rebuildable 1 exUpdateScene := by
  have hlist : ∀ p, p ≠ 1 → exUpdateScene.list (ListRef.children p) = [] := by
    intro p hp
    simp [exUpdateScene, hp]
  have hlist1 : exUpdateScene.list (ListRef.children 1) = [2, 3] := rfl
  refine ⟨⟨_, rfl⟩, rfl, ?_, ?_, ?_⟩
  · intro p c hc
    by_cases hp : p = 1
    · subst hp
      rw [hlist1] at hc
      have hc' : c = 2 ∨ c = 3 := by simpa using hc
      rcases hc' with rfl | rfl
      · exact ⟨_, rfl, rfl⟩
      · exact ⟨_, rfl, rfl⟩
    · rw [hlist p hp] at hc
      cases hc
  · intro n nd hn hne
    rcases exUpdateScene_live n nd hn with ⟨rfl, rfl⟩ | ⟨rfl, rfl⟩ | ⟨rfl, rfl⟩
    · exact absurd rfl hne
    · exact ⟨_, rfl⟩
    · exact ⟨_, rfl⟩
  · intro n nd hn hprem
    rcases exUpdateScene_live n nd hn with ⟨rfl, rfl⟩ | ⟨rfl, rfl⟩ | ⟨rfl, rfl⟩
    · rcases hprem with hprem | hprem
      · exact absurd rfl hprem
      · exact absurd hprem (by decide)
    · decide
    · decide

/-- The example `Scene::getNode` keeps the contract for the update of node `1`. -/
theorem exSceneGetNode_contract : Scene.GetNodeContract exSceneGetNode exGetNode 1 := by
  intro link st hst
  have hne : exGetNode link ≠ 1 := by
    unfold exGetNode
    split_ifs <;> decide
  refine ⟨hne, ?_⟩
  unfold exSceneGetNode
  by_cases h0 : exGetNode link = 0
  · rw [if_pos h0, h0]
    exact ⟨st, rfl, hst, rfl, State.KeepsData.keepsData_refl 1 st, fun h => absurd rfl h⟩
  · rw [if_neg h0]
    cases hd : st.deref (exGetNode link) with
    | some nd =>
      exact ⟨st, rfl, hst, rfl, State.KeepsData.keepsData_refl 1 st, fun _ => ⟨nd, hd⟩⟩
    | none =>
      obtain ⟨hr, hl, hk, hlive⟩ := hst.create (exGetNode link) h0 hd
        { ref := 1, local_ := 0 } rfl (by decide) 0
        (st.list (ListRef.external 0) ++ [exGetNode link])
      exact ⟨_, rfl, hr, hl, hk, fun _ => ⟨_, hlive⟩⟩

/-- C23 at concrete inputs, on `exUpdateScene` with the model `exNif`: for the
index of another block (11) only `nodeId` of node `1` changes; for an invalid
index the call returns, node `1` keeps its flags and its local transform, gets
the properties `21`, `22` and the children `4`, `2`, of which node `4` is created
by `Scene::getNode` during the call. -/
theorem C23_update_reads_by_index_witness :
    Node.update (fun _ _ st => some st) (fun _ st => some st) exSceneGetNode leafDtor 0 exNif
        1 (some 11) exUpdateScene =
      some (exUpdateScene.setNode 1
        { ref := 1, local_ := 5, hidden := true, otherFlags := 3, iBlock := some 10,
          properties := [20], nodeId := 10 }) ∧
    exUpdateScene.deref 4 = none ∧
    ∃ s2 nd2,
      Node.update (fun _ _ st => some st) (fun _ st => some st) exSceneGetNode leafDtor 0 exNif
        1 none exUpdateScene = some s2 ∧
      s2.deref 1 = some nd2 ∧ nd2.nodeId = 10 ∧ nd2.hidden = true ∧ nd2.otherFlags = 3 ∧
      nd2.local_ = 5 ∧ nd2.properties = [21, 22] ∧ s2.list (ListRef.children 1) = [4, 2] ∧
      (s2.deref 4).isSome = true := by
  refine ⟨?_, rfl, ?_⟩
  · exact (C23_update_reads_by_index (fun _ _ st => some st) (fun _ st => some st)
      exSceneGetNode exGetNode leafDtor 0 exNif 1 (some 11)
      exUpdateScene exUpdateScene _ 10 rfl rfl rfl).1 11 rfl (by decide)
  · obtain ⟨s2, nd2, h1, h2, h3, h4, h5, h6, h7, h8, _⟩ :=
      (C23_update_reads_by_index (fun _ _ st => some st) (fun _ st => some st)
        exSceneGetNode exGetNode leafDtor 0 exNif 1 none
        exUpdateScene exUpdateScene _ 10 rfl rfl rfl).2 (Or.inl rfl)
        exUpdateScene_rebuildable exSceneGetNode_contract
    have hlive : ((Node.update (fun _ _ st => some st) (fun _ st => some st) exSceneGetNode
        leafDtor 0 exNif 1 none exUpdateScene).bind (fun t => t.deref 4)).isSome = true := rfl
    rw [h1] at hlive
    exact ⟨s2, nd2, h1, h2, h3, h4, h5, h6, h7, h8.trans (by decide), hlive⟩

end NifSkope
